import Mathlib

/-!
# gonex: the VDF delayer (core/vdf) and the DCCS consensus engine (consensus/dccs)

A verification development in two parts.

* `Vdf`: the verifiable-delay coordination engine. The repository ships the
  test-suite of the engine (`core/vdf/delayer_test.go`); the engine itself
  (`core/vdf/delayer.go` and the backends it drives) is modelled from the
  specification, as a state machine whose events are the linearisation points
  of the public operations and of the background computation.
* `dccs`: the header verification, preparation and sealing of the second
  hardfork of the DCCS engine, embedded from `consensus/dccs/2_dccs.go`.

The definitions of both parts come first, the theorems follow.
-/

namespace Vdf

/-! ## Data model (spec §3) -/

/-- Modelled from the spec: `Input` (§3), opaque seed bytes identifying one
delay-function chain, compared by value. -/
abbrev Input := List Nat

/-- Modelled from the spec: `Iteration` (§3), the number of sequential steps
of the delay function. -/
abbrev Iteration := Nat

/-- Modelled from the spec: `Output` (§3), the result bytes produced by the
backend. An absent output (the "empty result", Go's `nil`) is
`none : Option Output`. -/
abbrev Output := List Nat

/-- Modelled from the spec: the backend strategy (§4.1, §6), whose code is not
part of the sources: `generate(input, iterations) -> output` is the slow
sequential function, `verify(input, output, iterations) -> bool` the fast,
pure proof check. The mathematics of both is outside the specification. -/
structure Backend where
  generate : Input → Iteration → Output
  verify : Input → Output → Iteration → Bool

/-- Modelled from the spec: the two selectable strategies of §4.1. The
external strategy carries the generator reference it was configured with; the
empty reference is the deterministic placeholder. -/
inductive Strategy where
  | External (generatorRef : String)
  | Native
deriving DecidableEq, Repr

/-- Modelled from the spec: the collaborators of §6 that the engine consumes:
the backend behind every generator reference (the one behind the empty
reference is the placeholder) and the in-process backend. -/
structure Collaborators where
  generator : String → Backend
  inProcess : Backend

/-- Modelled from the spec: the backend a strategy stands for (§4.1). -/
def Collaborators.backend (env : Collaborators) : Strategy → Backend
  | .External generatorRef => env.generator generatorRef
  | .Native => env.inProcess

/-- Modelled from the spec: a blocked caller awaiting `(Input, Iteration)` on a
chain (§3, §4.3); `caller` names the blocked call. -/
structure Waiter where
  caller : Nat
  target : Iteration
deriving DecidableEq, Repr

/-- Modelled from the spec: the `ComputationChain` of §3. `cache` records the
milestones reached, `pending` the requested milestones the background task
has still to produce, `waiters` is the waiter registry of §4.3. -/
structure ComputationChain where
  input : Input
  cache : List (Iteration × Output)
  pending : List Iteration
  waiters : List Waiter
  cancelled : Bool
deriving DecidableEq, Repr

/-- Modelled from the spec: what a call of `Get` returned (§4.5): the
observable outcome of releasing a waiter, or of a cache hit. `output = none`
is the empty result. -/
structure Release where
  caller : Nat
  input : Input
  iteration : Iteration
  output : Option Output
deriving DecidableEq, Repr

/-- Modelled from the spec: the `Delayer` of §3: `capacity`, the bounded
table `activeChains` (kept most-recently-touched first) and the selected
backend strategy. `released` and `invocations` are observation logs (most
recent first): every release of a `Get` call and every backend `generate`
call made by a background task. -/
structure Delayer where
  capacity : Nat
  strategy : Strategy
  activeChains : List ComputationChain
  released : List Release
  invocations : List (Input × Iteration)
deriving DecidableEq, Repr

/-! ## Computation chain (spec §4.2, §4.3) -/

/-- Modelled from the spec: the cached output of a chain at an iteration
(`cache : Iteration → Output`, §3). -/
def ComputationChain.lookup (ch : ComputationChain) (k : Iteration) : Option Output :=
  List.lookup k ch.cache

/-- Modelled from the spec: `highestCompletedIteration` of §3. -/
def ComputationChain.highestCompletedIteration (ch : ComputationChain) : Iteration :=
  (ch.cache.map Prod.fst).foldr max 0

/-- Modelled from the spec: a chain is actively advancing when it is not
cancelled and its background task still has a milestone to produce (§4.2). -/
def ComputationChain.advancing (ch : ComputationChain) : Bool :=
  !ch.cancelled && !ch.pending.isEmpty

/-- Modelled from the spec: a chain created for an input at a requested
iteration (§4.2, "On creation"). -/
def ComputationChain.create (input : Input) (k : Iteration) : ComputationChain :=
  { input := input, cache := [], pending := [k], waiters := [], cancelled := false }

/-- Modelled from the spec: the chain is (or becomes) the active one and must
progress toward iteration `k` (§4.4, "match active chain" and "re-activate"):
a milestone already reached or already requested adds no work. -/
def ComputationChain.want (ch : ComputationChain) (k : Iteration) : ComputationChain :=
  if (ch.lookup k).isSome || ch.pending.contains k then
    { ch with cancelled := false }
  else
    { ch with pending := k :: ch.pending, cancelled := false }

/-- Modelled from the spec: the empty releases handed to the pending waiters
of a chain (§4.2, supersession; §7, backend failure). -/
def ComputationChain.releaseEmpty (ch : ComputationChain) : List Release :=
  ch.waiters.map (fun w => { caller := w.caller, input := ch.input, iteration := w.target, output := none })

/-- Modelled from the spec: supersession of a chain (§4.2): it is marked
cancelled, its background task stops, its waiters are gone, and what it has
reached stays cached (frozen). -/
def ComputationChain.cancel (ch : ComputationChain) : ComputationChain :=
  { ch with pending := [], waiters := [], cancelled := true }

/-- Least element of a list of iterations. -/
def leastOf : List Iteration → Option Iteration
  | [] => none
  | k :: ks =>
    match leastOf ks with
    | none => some k
    | some m => some (min k m)

/-- Modelled from the spec: the milestone the background task of a chain is
producing: the counter advances monotonically, so it is the least requested
milestone not yet reached (§4.2). -/
def ComputationChain.nextMilestone (ch : ComputationChain) : Option Iteration :=
  leastOf ch.pending

/-! ## Bounded chain cache and supersession policy (spec §4.4) -/

/-- Modelled from the spec: eviction of "the least-recently-touched entry that
is not the currently active chain" (§3, §4.4) from a table kept
most-recently-touched first. -/
def evictOne (activeInput : Input) (chains : List ComputationChain) : List ComputationChain :=
  (chains.reverse.eraseP (fun ch => decide (ch.input ≠ activeInput))).reverse

/-- Modelled from the spec: insertion of the new active chain into the bounded
table, evicting when the capacity is exceeded (§4.4, "novel input"). -/
def insertChain (capacity : Nat) (fresh : ComputationChain) (chains : List ComputationChain) :
    List ComputationChain :=
  if capacity < (fresh :: chains).length then evictOne fresh.input (fresh :: chains)
  else fresh :: chains

/-- Modelled from the spec: the decision taken on every incoming
`(Input, Iteration)` (§4.4). The head of the table is the active chain
("the most recently requested input becomes active and previously active work
is torn down", §5).
* match active chain: no new chain, the chain progresses toward `k`;
* otherwise a different input is requested and the active chain is superseded
  (§4.2, §8 property 3: cancelled, its pending waiters released empty), and
  - a frozen cached chain for the input becomes the active chain again,
    keeping what it had reached (a milestone it had reached is served at
    once, any other one is worked on again);
  - a novel input gets a new active chain, inserted into the bounded table. -/
def Delayer.ensure (d : Delayer) (input : Input) (k : Iteration) : Delayer :=
  match d.activeChains with
  | [] => { d with activeChains := insertChain d.capacity (ComputationChain.create input k) [] }
  | act :: rest =>
    if act.input = input then
      { d with activeChains := act.want k :: rest }
    else
      match rest.find? (fun ch => decide (ch.input = input)) with
      | some frozen =>
        { d with
          activeChains := frozen.want k :: act.cancel :: rest.eraseP (fun ch => decide (ch.input = input))
          released := act.releaseEmpty ++ d.released }
      | none =>
        { d with
          activeChains := insertChain d.capacity (ComputationChain.create input k) (act.cancel :: rest)
          released := act.releaseEmpty ++ d.released }

/-! ## Delayer façade (spec §4.5) -/

/-- Modelled from the spec: `NewDelayer(generatorRef, capacity)` (§4.5, §7): a
zero or negative capacity is rejected fatally; otherwise the cache is empty
and the External strategy is selected. -/
def NewDelayer (generatorRef : String) (capacity : Int) : Except String Delayer :=
  if capacity ≤ 0 then
    .error "vdf: cache capacity must be positive"
  else
    .ok { capacity := capacity.toNat, strategy := .External generatorRef, activeChains := [],
          released := [], invocations := [] }

/-- Modelled from the spec: `UseGoVDF()` (§4.5): the native strategy backs the
chains from now on. The spec requires the switch to be safe before any chain
exists, which is where the tests call it. -/
def UseGoVDF (d : Delayer) : Delayer :=
  { d with strategy := .Native }

/-- Modelled from the spec: `Request(input, iteration)` (§4.5): ensures a
chain exists and progresses toward `iteration`; registers no waiter. -/
def Delayer.Request (d : Delayer) (input : Input) (k : Iteration) : Delayer :=
  d.ensure input k

/-- Modelled from the spec: the cached output the table holds for
`(input, iteration)`, if that iteration was reached. -/
def Delayer.cached (d : Delayer) (input : Input) (k : Iteration) : Option Output :=
  match d.activeChains.find? (fun ch => decide (ch.input = input)) with
  | some ch => ch.lookup k
  | none => none

/-- Modelled from the spec: `Peek(input, iteration)` (§4.5): ensures the chain
and returns the cached output if the iteration was reached, else the empty
result; it never blocks. -/
def Delayer.Peek (d : Delayer) (input : Input) (k : Iteration) : Delayer × Option Output :=
  ((d.ensure input k), (d.ensure input k).cached input k)

/-- Modelled from the spec: the entry of `Get(caller, input, iteration)`
(§4.5): ensures the chain; a milestone already reached is returned at once
(cache hit), otherwise a waiter is registered and the call blocks until the
waiter is released. -/
def Delayer.Get (d : Delayer) (caller : Nat) (input : Input) (k : Iteration) : Delayer :=
  match (d.ensure input k).activeChains with
  | [] => d.ensure input k
  | act :: rest =>
    match act.lookup k with
    | some o =>
      { d.ensure input k with
        released := { caller := caller, input := input, iteration := k, output := some o }
                      :: (d.ensure input k).released }
    | none =>
      { d.ensure input k with
        activeChains := { act with waiters := { caller := caller, target := k } :: act.waiters } :: rest }

/-- Modelled from the spec: the backend call of the active chain returns
(§4.2): the chain records `(Iteration -> Output)` and releases every waiter
whose target iteration is now satisfied. The release handed to a waiter is
recorded with the arguments of its own call: its caller, the input of the
chain it registered on and its own target iteration. -/
def Delayer.backendReturn (env : Collaborators) (d : Delayer) : Delayer :=
  match d.activeChains with
  | [] => d
  | act :: rest =>
    match act.nextMilestone with
    | none => d
    | some m =>
      let o := (env.backend d.strategy).generate act.input m
      { d with
        activeChains :=
          { act with
            cache := (m, o) :: act.cache
            pending := act.pending.erase m
            waiters := act.waiters.filter (fun w => decide (w.target ≠ m)) } :: rest
        released :=
          (act.waiters.filter (fun w => decide (w.target = m))).map
            (fun w => { caller := w.caller, input := act.input, iteration := w.target,
                        output := some o })
            ++ d.released
        invocations := (act.input, m) :: d.invocations }

/-- Modelled from the spec: the backend call of the active chain fails (§7):
a chain-level failure that releases all current waiters with an empty result
and leaves the chain eligible to be retried by the next request. -/
def Delayer.backendFail (d : Delayer) : Delayer :=
  match d.activeChains with
  | [] => d
  | act :: rest =>
    match act.nextMilestone with
    | none => d
    | some m =>
      { d with
        activeChains := { act with pending := [], waiters := [] } :: rest
        released := act.releaseEmpty ++ d.released
        invocations := (act.input, m) :: d.invocations }

/-! ## Runs -/

/-- Modelled from the spec: the events that change the shared state of a
Delayer (§5): the entry of a public operation, and the return or failure of
the active chain's backend call. -/
inductive Event where
  | request (input : Input) (k : Iteration)
  | peek (input : Input) (k : Iteration)
  | get (caller : Nat) (input : Input) (k : Iteration)
  | backendReturn
  | backendFail
deriving DecidableEq, Repr

/-- One event applied to the shared state. -/
def Delayer.step (env : Collaborators) (d : Delayer) : Event → Delayer
  | .request input k => d.Request input k
  | .peek input k => (d.Peek input k).1
  | .get caller input k => d.Get caller input k
  | .backendReturn => d.backendReturn env
  | .backendFail => d.backendFail

/-- A run: the events applied in order. -/
def Delayer.run (env : Collaborators) (d : Delayer) (es : List Event) : Delayer :=
  es.foldl (Delayer.step env) d

/-- The input an event requests, if it is a request of a caller. -/
def Event.input? : Event → Option Input
  | .request input _ => some input
  | .peek input _ => some input
  | .get _ input _ => some input
  | .backendReturn => none
  | .backendFail => none

/-- The caller of an event, if the event is a call of `Get`. -/
def Event.caller? : Event → Option Nat
  | .get caller _ _ => some caller
  | _ => none

/-- The releases an event produced: what the log gained. -/
def Delayer.emitted (env : Collaborators) (d : Delayer) (es : List Event) : List Release :=
  (d.run env es).released.take ((d.run env es).released.length - d.released.length)

/-- The backend calls made during a run: what the log gained. -/
def Delayer.invoked (env : Collaborators) (d : Delayer) (es : List Event) : List (Input × Iteration) :=
  (d.run env es).invocations.take ((d.run env es).invocations.length - d.invocations.length)

/-- The states a Delayer can be in: built by `NewDelayer` (possibly switched
to the native backend before any chain exists), then driven by events. -/
inductive Reachable (env : Collaborators) : Delayer → Prop where
  | fresh (generatorRef : String) (capacity : Int) (d : Delayer) :
      NewDelayer generatorRef capacity = .ok d → Reachable env d
  | useGo (generatorRef : String) (capacity : Int) (d : Delayer) :
      NewDelayer generatorRef capacity = .ok d → Reachable env (UseGoVDF d)
  | step (d : Delayer) (e : Event) : Reachable env d → Reachable env (d.step env e)

/-- Modelled from the spec: the input of the active chain, the chain of the
most recently requested input (§5). -/
def Delayer.activeInput (d : Delayer) : Option Input :=
  d.activeChains.head?.map ComputationChain.input

/-- Modelled from the spec: the call `Get(w.caller, input, w.target)` is
pending (§3, §4.3): its waiter stands in the registry of the chain of
`input`. -/
def Delayer.waits (d : Delayer) (input : Input) (w : Waiter) : Bool :=
  d.activeChains.any (fun ch => decide (ch.input = input) && decide (w ∈ ch.waiters))

/-- Modelled from the spec: the caller has a call of `Get` pending (§3, §4.3): a
waiter of this caller stands in a registry. -/
def Delayer.blocked (d : Delayer) (caller : Nat) : Bool :=
  d.activeChains.any (fun ch => ch.waiters.any (fun w => decide (w.caller = caller)))

/-- Modelled from the spec: how long ago an input was touched (§3, §4.4,
"least-recently-touched"): the number of events of the history `es` (in the
order they happened) that came after the most recent `Request`, `Peek` or
`Get` for `input`; the length of the history when `input` was never
requested. -/
def sinceTouched (es : List Event) (input : Input) : Nat :=
  es.reverse.findIdx (fun e => decide (e.input? = some input))

/-! ## A concrete backend for evaluation -/

/-- A toy backend: the output of `(input, k)` is `k` followed by the input,
and the check accepts that output only. -/
def toyBackend : Backend where
  generate := fun input k => k :: input
  verify := fun input output k => decide (output = k :: input)

/-- Collaborators that use the toy backend everywhere. -/
def toyEnv : Collaborators where
  generator := fun _ => toyBackend
  inProcess := toyBackend

/-- A fresh Delayer of capacity 2. -/
def toyDelayer : Delayer :=
  { capacity := 2, strategy := .External "", activeChains := [], released := [], invocations := [] }

/-- A fresh Delayer of capacity 3. -/
def toyDelayer3 : Delayer :=
  { capacity := 3, strategy := .External "", activeChains := [], released := [], invocations := [] }

/-- A history of requests: for `[1]`, `[2]`, `[3]`, then for `[2]` again. -/
def toyRequests : List Event :=
  [.request [1] 1, .request [2] 1, .request [3] 1, .request [2] 1]

/-! ## Invariants of the shared state -/

/-- What every chain of the table satisfies, for the generate function `gen`
of the selected backend: the cache holds backend outputs only, every waiter
waits for a requested milestone, and a requested milestone is requested once
and not reached yet. -/
structure ChainOk (gen : Input → Iteration → Output) (ch : ComputationChain) : Prop where
  cache_ok : ∀ k o, (k, o) ∈ ch.cache → o = gen ch.input k
  waiters_ok : ∀ w ∈ ch.waiters, w.target ∈ ch.pending
  pending_new : ∀ k ∈ ch.pending, ch.lookup k = none
  pending_nodup : ch.pending.Nodup

/-- A frozen chain: cancelled, no background work, no waiter. -/
def Frozen (ch : ComputationChain) : Prop :=
  ch.cancelled = true ∧ ch.pending = [] ∧ ch.waiters = []

/-- The invariant of the shared state of a Delayer. -/
structure Inv (env : Collaborators) (d : Delayer) : Prop where
  cap_pos : 1 ≤ d.capacity
  bounded : d.activeChains.length ≤ d.capacity
  nodup : (d.activeChains.map ComputationChain.input).Nodup
  chains_ok : ∀ ch ∈ d.activeChains, ChainOk (env.backend d.strategy).generate ch
  head_live : ∀ act rest, d.activeChains = act :: rest → act.cancelled = false
  tail_frozen : ∀ act rest, d.activeChains = act :: rest → ∀ ch ∈ rest, Frozen ch
  log_ok : ∀ r ∈ d.released, ∀ o, r.output = some o →
    o = (env.backend d.strategy).generate r.input r.iteration

end Vdf

/-!
# gonex: the second hardfork of the DCCS consensus engine (consensus/dccs/2_dccs.go)

The functions of `2_dccs.go` are embedded as pure functions. A Go `error`
result is an `Outcome`: `ok` for `nil`, `error` for a returned error, `panics`
for a nil-pointer dereference or an out-of-range slice. Declarations of the
package that are not in `2_dccs.go` (constants, helpers, the types of
`go-ethereum`) are fields of the structures below.
-/

namespace dccs

/-! ## Machine integers -/

/-- The number of `uint64` values. -/
def uint64Size : Nat := 2 ^ 64

/-- Addition of two `uint64` values, as Go computes it (it wraps around). -/
def uint64Add (a b : Nat) : Nat := (a + b) % uint64Size

/-- Go's `number-1` on a `uint64` (it wraps around at 0). -/
def uint64Pred (a : Nat) : Nat := (a + (uint64Size - 1)) % uint64Size

/-- Go's `(*big.Int).Uint64()` as `math/big` implements it: the low 64 bits of
the absolute value. -/
def bigUint64 (x : Int) : Nat := x.natAbs % uint64Size

/-! ## Data model -/

/-- A `common.Hash`, read as a number; `0` is the zero hash `common.Hash{}`. -/
abbrev Hash := Nat

/-- A `common.Address`, read as a number. -/
abbrev Address := Nat

/-- A sealer application fetched from the logs of a block (its declaration is
not in `2_dccs.go`; the code only compares applications with `!=`). -/
abbrev Application := Nat

/-- A transaction of a block (the code only counts them). -/
abbrev Transaction := Nat

/-- The fields of `types.Header` that `2_dccs.go` reads or writes. `Number` and
`Difficulty` are `*big.Int` (`none` is the nil pointer), `Time` is a `uint64`,
`Extra` a byte slice, `Nonce` the 8 bytes of `types.BlockNonce` read as a
number (`0` is `types.BlockNonce{}`). -/
structure Header where
  ParentHash : Hash
  Coinbase : Address
  Difficulty : Option Int
  Number : Option Int
  Time : Nat
  Extra : List Nat
  MixDigest : Hash
  Nonce : Nat
deriving DecidableEq, Repr

/-- A `types.Block`: its header and its transactions. -/
structure Block where
  header : Header
  transactions : List Transaction
deriving DecidableEq, Repr

/-- The errors `2_dccs.go` returns. `errInvalidCrossLink` is the
`fmt.Errorf("invalid cross-link digest: ...")` of `verifyCascadingFields2`;
`other` is an error value produced by a helper that is not in the sources. -/
inductive Err where
  | errUnknownBlock
  | ErrFutureBlock
  | errMissingVanity
  | errMissingSignature
  | errInvalidDifficulty
  | ErrUnknownAncestor
  | ErrInvalidTimestamp
  | errInvalidNonce
  | errInvalidCrossLink
  | errInvalidSealersDigest
  | errUnexpectedSealerApplicationExtra
  | errMissingExtra
  | errMissingSealerApplicationExtra
  | errMissingSealerDigestExtra
  | errSealerApplicationCountNotMatch
  | errSealerApplicationNotMatch
  | errUnauthorizedSigner
  | errRecentlySigned
  | errWaitTransactions
  | other (code : Nat)
deriving DecidableEq, Repr

/-- What a call does: it returns `nil` (with a value), returns an error, or
panics (nil-pointer dereference, slice bounds out of range). -/
inductive Outcome (α : Type) where
  | ok (value : α)
  | error (e : Err)
  | panics
deriving DecidableEq, Repr

/-- The methods of `consensus.ChainReader` that `2_dccs.go` calls. -/
structure ChainReader where
  GetHeader : Hash → Nat → Option Header
  GetHeaderByHash : Hash → Option Header

/-- The extended extra data `extExtra` (its declaration is not in
`2_dccs.go`): an optional sealers digest and the sealer applications. -/
structure ExtExtra where
  sealersDigest : Option Hash
  applications : List Application
deriving DecidableEq, Repr

/-- The methods of the sealing queue that `2_dccs.go` calls (the queue is
declared elsewhere in the package). `difficulty` and `offset` take the signer
and the header lookup they are given; the signature cache they also receive
does not change their result and is left out. `difficulty` is a `uint64`. -/
structure SealingQueue where
  isActive : Address → Bool
  isRecentlySigned : Address → Bool
  difficulty : Address → (Hash → Option Header) → Nat
  offset : Address → (Hash → Option Header) → Except Err Nat
  sealersDigest : Hash

/-- The engine `Dccs` as `2_dccs.go` uses it. `Period` (a `uint64`) and
`CoLoaBlock` are the fields of `d.config`; `signer` and `signFn` are the
signing credentials. The remaining fields are the declarations of the package
and of `go-ethereum` that `2_dccs.go` uses and that are not in the sources:
the constants `extraVanity` and `extraSeal`, `header.Hash()`,
`misc.VerifyForkHashes`, `getSealingQueue`, `bytesToExtExtra`,
`fetchSealerApplications`, `ecrecover`, `prepareBeneficiary` (which works on
the header it is given, in place: the field is the header it leaves),
`extExtra.Bytes()`, `DccsRLP`, `calcDelayTimeForOffset`, and `untilTime t`,
the duration `time.Unix(int64(t), 0).Sub(time.Now())`. -/
structure Dccs where
  Period : Nat
  CoLoaBlock : Int
  signer : Address
  signFn : Address → List Nat → Except Err (List Nat)
  extraVanity : Nat
  extraSeal : Nat
  hashOf : Header → Hash
  VerifyForkHashes : ChainReader → Header → Option Err
  getSealingQueue : Hash → List Header → ChainReader → Except Err SealingQueue
  bytesToExtExtra : List Nat → Except Err ExtExtra
  fetchSealerApplications : Header → ChainReader → Except Err (List Application)
  ecrecover : Header → Except Err Address
  prepareBeneficiary : Header → ChainReader → Header
  extExtraBytes : ExtExtra → List Nat
  DccsRLP : Header → List Nat
  calcDelayTimeForOffset : Nat → Int
  untilTime : Nat → Int

/-! ## The functions of `2_dccs.go` -/

/-- The loop of `getAvailableHeaderByHash` over `parents`: the first parent
whose hash is `hash`. -/
def firstWithHash (d : Dccs) (hash : Hash) : List Header → Option Header
  | [] => none
  | parent :: parents =>
    if d.hashOf parent = hash then some parent else firstWithHash d hash parents

/-- `getAvailableHeaderByHash(hash, header, parents, chain)`; `header` is a
pointer that may be nil, the elements of `parents` are headers (the loop
calls `parent.Hash()` on each of them). -/
def getAvailableHeaderByHash (d : Dccs) (hash : Hash) (header : Option Header)
    (parents : List Header) (chain : ChainReader) : Option Header :=
  match header with
  | some h =>
    if d.hashOf h = hash then some h
    else
      match chain.GetHeaderByHash hash with
      | some found => some found
      | none => firstWithHash d hash parents
  | none =>
    match chain.GetHeaderByHash hash with
    | some found => some found
    | none => firstWithHash d hash parents

/-- `getBlockNonce(number, parent)`: always `types.BlockNonce{}`. -/
def getBlockNonce (_number : Int) (_parent : Header) : Nat := 0

/-- `isSealerApplicationBlock(header)`; `none` is the panic of
`CoLoaBlock.Cmp(header.Number)` on a nil `Number`. -/
def isSealerApplicationBlock (d : Dccs) (header : Header) : Option Bool :=
  match header.Number with
  | none => none
  | some n =>
    if d.CoLoaBlock = n then some true
    else if header.Extra.length ≤ d.extraVanity + d.extraSeal then some false
    else some (decide ((header.Extra.getD d.extraVanity 0) &&& 0xF0 = 0xF0))

/-- The cross-link reference to the last sealer application block that
`verifyCascadingFields2` expects and `prepare2` sets; `none` is a panic. -/
def crossLink (d : Dccs) (number : Int) (parent : Header) : Option Hash :=
  if d.CoLoaBlock = number then some 0
  else
    match isSealerApplicationBlock d parent with
    | none => none
    | some true => some (d.hashOf parent)
    | some false => some parent.MixDigest

/-- `verifySeal2(chain, header, parents)`. -/
def verifySeal2 (d : Dccs) (chain : ChainReader) (header : Header) (parents : List Header) :
    Outcome Unit :=
  match header.Number with
  | none => .panics
  | some n =>
    if bigUint64 n = 0 then .error .errUnknownBlock
    else
      match d.getSealingQueue header.ParentHash parents chain with
      | .error e => .error e
      | .ok queue =>
        match d.ecrecover header with
        | .error e => .error e
        | .ok signer =>
          if queue.isActive signer = false then .error .errUnauthorizedSigner
          else if queue.isRecentlySigned signer = true then .error .errRecentlySigned
          else
            match header.Difficulty with
            | none => .panics
            | some difficulty =>
              if bigUint64 difficulty ≠ queue.difficulty signer
                  (fun hash => getAvailableHeaderByHash d hash (some header) parents chain) then
                .error .errInvalidDifficulty
              else .ok ()

/-- The parent that `verifyCascadingFields2` checks a header of number
`number` against: the last of `parents` if there is one, else the header the
chain has for `(header.ParentHash, number-1)`. -/
def parentOf (chain : ChainReader) (header : Header) (parents : List Header) (number : Nat) :
    Option Header :=
  if 0 < parents.length then parents.getLast?
  else chain.GetHeader header.ParentHash (uint64Pred number)

/-- The checks of `verifyCascadingFields2` on the sealer applications of the
parent block (`apps`) against the extended extra of the header (`ext`, nil
when the header has none). -/
def checkApplications (apps : List Application) (ext : Option ExtExtra) : Option Err :=
  if apps.length = 0 then
    match ext with
    | some e => if 0 < e.applications.length then some .errUnexpectedSealerApplicationExtra else none
    | none => none
  else
    match ext with
    | none => some .errMissingExtra
    | some e =>
      if e.applications.length = 0 then some .errMissingSealerApplicationExtra
      else if e.sealersDigest = none then some .errMissingSealerDigestExtra
      else if apps.length ≠ e.applications.length then some .errSealerApplicationCountNotMatch
      else if (e.applications.zip apps).any (fun p => decide (p.1 ≠ p.2)) then
        some .errSealerApplicationNotMatch
      else none

/-- The part of `verifyCascadingFields2` after the sealing queue was
retrieved: the extended extra data, the sealer applications, the seal. -/
def verifyExtended (d : Dccs) (chain : ChainReader) (header : Header) (parents : List Header)
    (parent : Header) (ext : Option ExtExtra) : Outcome Unit :=
  match d.fetchSealerApplications parent chain with
  | .error e => .error e
  | .ok apps =>
    match checkApplications apps ext with
    | some e => .error e
    | none => verifySeal2 d chain header parents

/-- `verifyCascadingFields2(chain, header, parents)`. -/
def verifyCascadingFields2 (d : Dccs) (chain : ChainReader) (header : Header)
    (parents : List Header) : Outcome Unit :=
  match header.Number with
  | none => .panics
  | some n =>
    if bigUint64 n = 0 then .ok ()
    else
      match parentOf chain header parents (bigUint64 n) with
      | none => .error .ErrUnknownAncestor
      | some parent =>
        match parent.Number with
        | none => .panics
        | some pn =>
          if bigUint64 pn ≠ uint64Pred (bigUint64 n) ∨ d.hashOf parent ≠ header.ParentHash then
            .error .ErrUnknownAncestor
          else if header.Time < uint64Add parent.Time d.Period then .error .ErrInvalidTimestamp
          else if header.Nonce ≠ getBlockNonce n parent then .error .errInvalidNonce
          else
            match crossLink d n parent with
            | none => .panics
            | some expectedMixDigest =>
              if header.MixDigest ≠ expectedMixDigest then .error .errInvalidCrossLink
              else
                match d.getSealingQueue header.ParentHash parents chain with
                | .error e => .error e
                | .ok queue =>
                  if d.extraVanity + d.extraSeal < header.Extra.length then
                    match d.bytesToExtExtra
                        ((header.Extra.take (header.Extra.length - d.extraSeal)).drop
                          d.extraVanity) with
                    | .error e => .error e
                    | .ok ext =>
                      if ext.sealersDigest ≠ none ∧ ext.sealersDigest ≠ some queue.sealersDigest
                      then .error .errInvalidSealersDigest
                      else verifyExtended d chain header parents parent (some ext)
                  else verifyExtended d chain header parents parent none

/-- `verifyHeader2(chain, header, parents)`; `now` is the clock reading
`uint64(time.Now().Unix())`. -/
def verifyHeader2 (d : Dccs) (chain : ChainReader) (now : Nat) (header : Header)
    (parents : List Header) : Outcome Unit :=
  match header.Number with
  | none => .error .errUnknownBlock
  | some n =>
    if now < header.Time then .error .ErrFutureBlock
    else if header.Extra.length < d.extraVanity then .error .errMissingVanity
    else if header.Extra.length < d.extraVanity + d.extraSeal then .error .errMissingSignature
    else if 0 < bigUint64 n ∧ header.Difficulty = none then .error .errInvalidDifficulty
    else
      match d.VerifyForkHashes chain header with
      | some e => .error e
      | none => verifyCascadingFields2 d chain header parents

/-- The header as `prepare2` has it after `header.Nonce = ...` and
`d.prepareBeneficiary(header, chain)`. -/
def withBeneficiary (d : Dccs) (chain : ChainReader) (header : Header) (number : Int)
    (parent : Header) : Header :=
  d.prepareBeneficiary { header with Nonce := getBlockNonce number parent } chain

/-- `prepare2(chain, header)`: the header with its consensus fields prepared;
`now` is the clock reading `uint64(time.Now().Unix())` (the two readings in
the body are one instant). -/
def prepare2 (d : Dccs) (chain : ChainReader) (now : Nat) (header : Header) : Outcome Header :=
  match header.Number with
  | none => .panics
  | some n =>
    match chain.GetHeader header.ParentHash (uint64Pred (bigUint64 n)) with
    | none => .error .ErrUnknownAncestor
    | some parent =>
      match (withBeneficiary d chain header n parent).Number with
      | none => .panics
      | some number =>
        match crossLink d number parent with
        | none => .panics
        | some mixDigest =>
          match d.getSealingQueue (withBeneficiary d chain header n parent).ParentHash []
              chain with
          | .error e => .error e
          | .ok queue =>
            match d.fetchSealerApplications parent chain with
            | .error e => .error e
            | .ok applications =>
              .ok { withBeneficiary d chain header n parent with
                MixDigest := mixDigest
                Difficulty := some (Int.ofNat (queue.difficulty d.signer chain.GetHeaderByHash))
                Extra :=
                  ((withBeneficiary d chain header n parent).Extra
                      ++ List.replicate
                        (d.extraVanity - (withBeneficiary d chain header n parent).Extra.length)
                        0).take d.extraVanity
                    ++ (if 0 < applications.length then
                          d.extExtraBytes
                            { sealersDigest := some queue.sealersDigest
                              applications := applications }
                        else [])
                    ++ List.replicate d.extraSeal 0
                Time :=
                  if uint64Add parent.Time d.Period < now then now
                  else uint64Add parent.Time d.Period }

/-- What `seal2` did: the error it returned (`ok` is `nil`), whether it called
`signFn`, and the goroutine it started, if any: the delay after which the
goroutine offers the sealed block on `results` (unless `stop` fires first),
and that block. -/
structure Sealing where
  result : Outcome Unit
  signed : Bool
  offered : Option (Int × Block)
deriving DecidableEq, Repr

/-- `copy(header.Extra[len(header.Extra)-extraSeal:], sighash)`, for
`extraSeal ≤ len(header.Extra)`. -/
def copySeal (extra : List Nat) (extraSeal : Nat) (sighash : List Nat) : List Nat :=
  extra.take (extra.length - extraSeal)
    ++ sighash.take extraSeal
    ++ (extra.drop (extra.length - extraSeal)).drop (sighash.take extraSeal).length

/-- `seal2(chain, block, results, stop)`. -/
def seal2 (d : Dccs) (chain : ChainReader) (block : Block) : Sealing :=
  match block.header.Number with
  | none => { result := .panics, signed := false, offered := none }
  | some n =>
    if bigUint64 n = 0 then
      { result := .error .errUnknownBlock, signed := false, offered := none }
    else if d.Period = 0 ∧ block.transactions.length = 0 then
      { result := .error .errWaitTransactions, signed := false, offered := none }
    else
      match d.getSealingQueue block.header.ParentHash [] chain with
      | .error e => { result := .error e, signed := false, offered := none }
      | .ok queue =>
        if queue.isActive d.signer = false then
          { result := .error .errUnauthorizedSigner, signed := false, offered := none }
        else if queue.isRecentlySigned d.signer = true then
          { result := .error .errRecentlySigned, signed := false, offered := none }
        else
          match queue.offset d.signer chain.GetHeaderByHash with
          | .error e => { result := .error e, signed := false, offered := none }
          | .ok offset =>
            match d.signFn d.signer (d.DccsRLP block.header) with
            | .error e => { result := .error e, signed := true, offered := none }
            | .ok sighash =>
              if block.header.Extra.length < d.extraSeal then
                { result := .panics, signed := true, offered := none }
              else
                { result := .ok ()
                  signed := true
                  offered := some
                    (d.untilTime block.header.Time
                        + (if 0 < offset then d.calcDelayTimeForOffset offset else 0),
                     { block with
                       header := { block.header with
                         Extra := copySeal block.header.Extra d.extraSeal sighash } }) }

/-! ## A concrete engine for evaluation -/

/-- A sealing queue in which address `7` is the only active sealer, nobody
has signed recently and every signer has difficulty `2`. -/
def toyQueue : SealingQueue where
  isActive := fun a => decide (a = 7)
  isRecentlySigned := fun _ => false
  difficulty := fun _ _ => 2
  offset := fun _ _ => .ok 0
  sealersDigest := 99

/-- An engine with period 2, the constants of clique (`extraVanity = 32`,
`extraSeal = 65`), a header hash that reads the number and the time, no fork
hash to check, the queue `toyQueue`, no sealer application, and every header
signed by address `7`. -/
def toyDccs : Dccs where
  Period := 2
  CoLoaBlock := 1000
  signer := 7
  signFn := fun _ _ => .ok (List.replicate 65 1)
  extraVanity := 32
  extraSeal := 65
  hashOf := fun h => bigUint64 (h.Number.getD 0) + 3 * h.Time + 1
  VerifyForkHashes := fun _ _ => none
  getSealingQueue := fun _ _ _ => .ok toyQueue
  bytesToExtExtra := fun _ => .ok { sealersDigest := none, applications := [] }
  fetchSealerApplications := fun _ _ => .ok []
  ecrecover := fun _ => .ok 7
  prepareBeneficiary := fun h _ => { h with Coinbase := 7 }
  extExtraBytes := fun ext => 0xF0 :: ext.applications
  DccsRLP := fun h => h.Extra
  calcDelayTimeForOffset := fun offset => offset
  untilTime := fun t => t

/-- A chain that knows no header. -/
def emptyChain : ChainReader where
  GetHeader := fun _ _ => none
  GetHeaderByHash := fun _ => none

/-- A chain whose every lookup by hash and number finds `parent`. -/
def chainOf (parent : Header) : ChainReader where
  GetHeader := fun _ _ => some parent
  GetHeaderByHash := fun _ => none

/-- A header of the given number, time and difficulty on top of `parentHash`,
with 32 bytes of vanity and 65 bytes of seal. -/
def toyHeader (number : Int) (time : Nat) (difficulty : Option Int) (parentHash : Hash) :
    Header where
  ParentHash := parentHash
  Coinbase := 7
  Difficulty := difficulty
  Number := some number
  Time := time
  Extra := List.replicate 97 0
  MixDigest := 0
  Nonce := 0

/-- An engine like `toyDccs` whose every block carries the sealer applications
`[4, 5]`. -/
def applyingDccs : Dccs :=
  { toyDccs with fetchSealerApplications := fun _ _ => .ok [4, 5] }

end dccs

namespace Vdf

/-! ## Elementary facts -/

theorem leastOf_mem : ∀ (ks : List Iteration) (m : Iteration), leastOf ks = some m → m ∈ ks
  | [], m, h => by simp [leastOf] at h
  | k :: ks, m, h => by
    unfold leastOf at h
    cases hks : leastOf ks with
    | none =>
      rw [hks] at h
      simp at h
      simp [h]
    | some m0 =>
      rw [hks] at h
      simp at h
      have h0 := leastOf_mem ks m0 hks
      rcases Nat.le_total k m0 with hle | hle
      · rw [Nat.min_eq_left hle] at h
        simp [h]
      · rw [Nat.min_eq_right hle] at h
        subst h
        exact List.mem_cons_of_mem _ h0

theorem leastOf_eq_none : ∀ (ks : List Iteration), leastOf ks = none → ks = []
  | [], _ => rfl
  | k :: ks, h => by
    unfold leastOf at h
    cases hks : leastOf ks <;> rw [hks] at h <;> simp at h

theorem leastOf_isSome (ks : List Iteration) (h : ks ≠ []) : ∃ m, leastOf ks = some m := by
  cases hks : leastOf ks with
  | none => exact absurd (leastOf_eq_none ks hks) h
  | some m => exact ⟨m, rfl⟩

theorem lookup_mem : ∀ (cache : List (Iteration × Output)) (k : Iteration) (o : Output),
    List.lookup k cache = some o → (k, o) ∈ cache
  | [], k, o, h => by simp [List.lookup] at h
  | (k0, o0) :: cache, k, o, h => by
    rw [List.lookup_cons] at h
    by_cases hk : k = k0
    · subst hk
      simp at h
      simp [h]
    · have : (k == k0) = false := by simpa using hk
      rw [this] at h
      exact List.mem_cons_of_mem _ (lookup_mem cache k o h)

theorem lookup_cons_self (cache : List (Iteration × Output)) (k : Iteration) (o : Output) :
    List.lookup k ((k, o) :: cache) = some o := by
  simp [List.lookup_cons]

theorem lookup_cons_ne (cache : List (Iteration × Output)) (k m : Iteration) (o : Output)
    (h : k ≠ m) : List.lookup k ((m, o) :: cache) = List.lookup k cache := by
  rw [List.lookup_cons]
  have : (k == m) = false := by simpa using h
  rw [this]

/-! ## Chains -/

theorem want_input (ch : ComputationChain) (k : Iteration) : (ch.want k).input = ch.input := by
  unfold ComputationChain.want; split <;> rfl

theorem want_cache (ch : ComputationChain) (k : Iteration) : (ch.want k).cache = ch.cache := by
  unfold ComputationChain.want; split <;> rfl

theorem want_lookup (ch : ComputationChain) (k j : Iteration) :
    (ch.want k).lookup j = ch.lookup j := by
  unfold ComputationChain.lookup; rw [want_cache]

theorem want_waiters (ch : ComputationChain) (k : Iteration) :
    (ch.want k).waiters = ch.waiters := by
  unfold ComputationChain.want; split <;> rfl

theorem want_cancelled (ch : ComputationChain) (k : Iteration) :
    (ch.want k).cancelled = false := by
  unfold ComputationChain.want; split <;> rfl

theorem want_pending_sub (ch : ComputationChain) (k j : Iteration) (h : j ∈ ch.pending) :
    j ∈ (ch.want k).pending := by
  unfold ComputationChain.want; split
  · exact h
  · exact List.mem_cons_of_mem _ h

theorem want_pending_cases (ch : ComputationChain) (k j : Iteration)
    (h : j ∈ (ch.want k).pending) : j ∈ ch.pending ∨ (j = k ∧ ch.lookup k = none) := by
  unfold ComputationChain.want at h
  split at h
  · exact Or.inl h
  · rename_i hc
    simp only [List.mem_cons] at h
    rcases h with h | h
    · right
      refine ⟨h, ?_⟩
      cases hl : ch.lookup k with
      | none => rfl
      | some o => simp [hl] at hc
    · exact Or.inl h

theorem want_served (ch : ComputationChain) (k : Iteration) :
    (∃ o, (ch.want k).lookup k = some o) ∨
      ((ch.want k).lookup k = none ∧ k ∈ (ch.want k).pending) := by
  cases hl : ch.lookup k with
  | some o => exact Or.inl ⟨o, by rw [want_lookup, hl]⟩
  | none =>
    right
    refine ⟨by rw [want_lookup, hl], ?_⟩
    unfold ComputationChain.want
    split
    · rename_i hc
      simpa [hl] using hc
    · simp

theorem want_of_served (ch : ComputationChain) (k : Iteration) (o : Output)
    (h : ch.lookup k = some o) (hc : ch.cancelled = false) : ch.want k = ch := by
  unfold ComputationChain.want
  simp [h]
  cases ch
  simp_all

theorem ChainOk.want {gen : Input → Iteration → Output} {ch : ComputationChain}
    (h : ChainOk gen ch) (k : Iteration) : ChainOk gen (ch.want k) where
  cache_ok := by
    intro j o hj
    rw [want_cache] at hj
    rw [want_input]
    exact h.cache_ok j o hj
  waiters_ok := by
    intro w hw
    rw [want_waiters] at hw
    exact want_pending_sub ch k _ (h.waiters_ok w hw)
  pending_new := by
    intro j hj
    rw [want_lookup]
    rcases want_pending_cases ch k j hj with hj | ⟨rfl, hl⟩
    · exact h.pending_new j hj
    · exact hl
  pending_nodup := by
    unfold ComputationChain.want
    split
    · exact h.pending_nodup
    · rename_i hc
      simp only [Bool.or_eq_true, not_or] at hc
      refine List.nodup_cons.mpr ⟨?_, h.pending_nodup⟩
      simpa using hc.2

theorem ChainOk.cancel {gen : Input → Iteration → Output} {ch : ComputationChain}
    (h : ChainOk gen ch) : ChainOk gen ch.cancel where
  cache_ok := h.cache_ok
  waiters_ok := by intro w hw; simp [ComputationChain.cancel] at hw
  pending_new := by intro j hj; simp [ComputationChain.cancel] at hj
  pending_nodup := by simp [ComputationChain.cancel]

theorem frozen_cancel (ch : ComputationChain) : Frozen ch.cancel :=
  ⟨rfl, rfl, rfl⟩

theorem cancel_of_frozen (ch : ComputationChain) (h : Frozen ch) : ch.cancel = ch := by
  obtain ⟨h1, h2, h3⟩ := h
  cases ch
  simp_all [ComputationChain.cancel]

theorem chainOk_create (gen : Input → Iteration → Output) (input : Input) (k : Iteration) :
    ChainOk gen (ComputationChain.create input k) where
  cache_ok := by intro j o hj; simp [ComputationChain.create] at hj
  waiters_ok := by intro w hw; simp [ComputationChain.create] at hw
  pending_new := by intro j _; simp [ComputationChain.create, ComputationChain.lookup]
  pending_nodup := by simp [ComputationChain.create]

/-! ## The bounded table -/

theorem evictOne_cons (fresh : ComputationChain) (chains : List ComputationChain)
    (hne : chains ≠ []) (hnew : ∀ ch ∈ chains, ch.input ≠ fresh.input) :
    evictOne fresh.input (fresh :: chains) = fresh :: chains.dropLast := by
  have hsplit := List.dropLast_append_getLast hne
  have hlast : (chains.getLast hne).input ≠ fresh.input := hnew _ (List.getLast_mem hne)
  unfold evictOne
  conv_lhs => rw [← hsplit]
  simp only [List.reverse_cons, List.reverse_append, List.reverse_nil, List.nil_append,
    List.singleton_append, List.cons_append]
  rw [List.eraseP_cons_of_pos (by simpa using hlast)]
  simp

theorem insertChain_eq (capacity : Nat) (fresh : ComputationChain)
    (chains : List ComputationChain) (hcap : 1 ≤ capacity) (hlen : chains.length ≤ capacity)
    (hnew : ∀ ch ∈ chains, ch.input ≠ fresh.input) :
    insertChain capacity fresh chains = fresh :: chains.take (capacity - 1) := by
  unfold insertChain
  split
  · rename_i hlt
    simp only [List.length_cons] at hlt
    have hlen2 : chains.length = capacity := by omega
    have hne : chains ≠ [] := by
      intro h0
      rw [h0] at hlen2
      simp at hlen2
      omega
    rw [evictOne_cons fresh chains hne hnew, List.dropLast_eq_take, hlen2]
  · rename_i hlt
    simp only [List.length_cons, not_lt] at hlt
    rw [List.take_of_length_le (by omega)]

theorem find_eraseP_perm {α : Type} (p : α → Bool) :
    ∀ (l : List α) (a : α), l.find? p = some a → List.Perm l (a :: l.eraseP p)
  | [], a, h => by simp at h
  | x :: l, a, h => by
    by_cases hx : p x = true
    · rw [List.find?_cons_of_pos _ hx] at h
      simp only [Option.some.injEq] at h
      subst h
      rw [List.eraseP_cons_of_pos hx]
    · rw [List.find?_cons_of_neg _ hx] at h
      rw [List.eraseP_cons_of_neg hx]
      exact ((find_eraseP_perm p l a h).cons x).trans (List.Perm.swap a x _)

/-! ## The decision on an incoming request -/

theorem ensure_nil (d : Delayer) (input : Input) (k : Iteration) (h : d.activeChains = [])
    (hcap : 1 ≤ d.capacity) :
    d.ensure input k = { d with activeChains := [ComputationChain.create input k] } := by
  simp only [Delayer.ensure, h, insertChain]
  have : ¬ d.capacity < [ComputationChain.create input k].length := by simp; omega
  rw [if_neg this]

theorem ensure_hit (d : Delayer) (act : ComputationChain) (rest : List ComputationChain)
    (input : Input) (k : Iteration) (h : d.activeChains = act :: rest) (hin : act.input = input) :
    d.ensure input k = { d with activeChains := act.want k :: rest } := by
  simp only [Delayer.ensure, h, hin, if_true]

theorem ensure_frozen (d : Delayer) (act frozen : ComputationChain)
    (rest : List ComputationChain) (input : Input) (k : Iteration)
    (h : d.activeChains = act :: rest) (hin : act.input ≠ input)
    (hf : rest.find? (fun ch => decide (ch.input = input)) = some frozen) :
    d.ensure input k =
      { d with
        activeChains :=
          frozen.want k :: act.cancel :: rest.eraseP (fun ch => decide (ch.input = input))
        released := act.releaseEmpty ++ d.released } := by
  simp only [Delayer.ensure, h, hin, if_false, hf]

theorem ensure_novel (d : Delayer) (act : ComputationChain)
    (rest : List ComputationChain) (input : Input) (k : Iteration)
    (h : d.activeChains = act :: rest) (hin : act.input ≠ input)
    (hf : rest.find? (fun ch => decide (ch.input = input)) = none)
    (hcap : 1 ≤ d.capacity) (hlen : d.activeChains.length ≤ d.capacity) :
    d.ensure input k =
      { d with
        activeChains :=
          ComputationChain.create input k :: (act.cancel :: rest).take (d.capacity - 1)
        released := act.releaseEmpty ++ d.released } := by
  simp only [Delayer.ensure, h, hin, if_false, hf]
  rw [insertChain_eq d.capacity _ _ hcap]
  · rw [h] at hlen
    simpa using hlen
  · intro ch hch
    simp only [List.mem_cons] at hch
    rcases hch with rfl | hch
    · exact hin
    · have := List.find?_eq_none.mp hf ch hch
      simpa using this

theorem ensure_strategy (d : Delayer) (input : Input) (k : Iteration) :
    (d.ensure input k).strategy = d.strategy := by
  unfold Delayer.ensure
  split
  · rfl
  · split
    · rfl
    · split <;> rfl

theorem ensure_capacity (d : Delayer) (input : Input) (k : Iteration) :
    (d.ensure input k).capacity = d.capacity := by
  unfold Delayer.ensure
  split
  · rfl
  · split
    · rfl
    · split <;> rfl

theorem ensure_invocations (d : Delayer) (input : Input) (k : Iteration) :
    (d.ensure input k).invocations = d.invocations := by
  unfold Delayer.ensure
  split
  · rfl
  · split
    · rfl
    · split <;> rfl

theorem releaseEmpty_output (ch : ComputationChain) (r : Release) (h : r ∈ ch.releaseEmpty) :
    r.output = none ∧ r.input = ch.input := by
  unfold ComputationChain.releaseEmpty at h
  simp only [List.mem_map] at h
  obtain ⟨w, _, rfl⟩ := h
  exact ⟨rfl, rfl⟩

theorem inv_ensure (env : Collaborators) (d : Delayer) (hinv : Inv env d) (input : Input)
    (k : Iteration) : Inv env (d.ensure input k) := by
  cases hch : d.activeChains with
  | nil =>
    rw [ensure_nil d input k hch hinv.cap_pos]
    exact {
      cap_pos := hinv.cap_pos
      bounded := by simpa using hinv.cap_pos
      nodup := by simp
      chains_ok := by
        intro ch hmem
        simp only [List.mem_singleton] at hmem
        subst hmem
        exact chainOk_create _ _ _
      head_live := by
        intro act rest h
        simp only [List.cons.injEq] at h
        rw [← h.1]; rfl
      tail_frozen := by
        intro act rest h ch hmem
        simp only [List.cons.injEq] at h
        rw [← h.2] at hmem
        simp at hmem
      log_ok := hinv.log_ok }
  | cons act rest =>
    have hnd := hinv.nodup
    rw [hch] at hnd
    simp only [List.map_cons, List.nodup_cons] at hnd
    by_cases hin : act.input = input
    · rw [ensure_hit d act rest input k hch hin]
      exact {
        cap_pos := hinv.cap_pos
        bounded := by
          have := hinv.bounded
          rw [hch] at this
          simpa using this
        nodup := by
          simp only [List.map_cons, List.nodup_cons, want_input]
          exact hnd
        chains_ok := by
          intro ch hmem
          simp only [List.mem_cons] at hmem
          rcases hmem with rfl | hmem
          · exact (hinv.chains_ok act (by rw [hch]; simp)).want k
          · exact hinv.chains_ok ch (by rw [hch]; simp [hmem])
        head_live := by
          intro a r h
          simp only [List.cons.injEq] at h
          rw [← h.1]
          exact want_cancelled _ _
        tail_frozen := by
          intro a r h ch hmem
          simp only [List.cons.injEq] at h
          rw [← h.2] at hmem
          exact hinv.tail_frozen act rest hch ch hmem
        log_ok := hinv.log_ok }
    · cases hf : rest.find? (fun ch => decide (ch.input = input)) with
      | some frozen =>
        rw [ensure_frozen d act frozen rest input k hch hin hf]
        have hperm := find_eraseP_perm _ rest frozen hf
        have hfin : frozen.input = input := by simpa using List.find?_some hf
        have hfmem : frozen ∈ rest := List.mem_of_find?_eq_some hf
        exact {
          cap_pos := hinv.cap_pos
          bounded := by
            have := hinv.bounded
            rw [hch] at this
            have hl := hperm.length_eq
            simp only [List.length_cons] at hl this ⊢
            omega
          nodup := by
            have hp2 : List.Perm (act :: rest)
                (frozen :: act :: rest.eraseP (fun ch => decide (ch.input = input))) :=
              (hperm.cons act).trans (List.Perm.swap frozen act _)
            have hp3 := hp2.map ComputationChain.input
            have := (hp3.nodup_iff).mp (by simpa using hnd)
            simpa [want_input, ComputationChain.cancel] using this
          chains_ok := by
            intro ch hmem
            simp only [List.mem_cons] at hmem
            rcases hmem with rfl | rfl | hmem
            · exact (hinv.chains_ok frozen (by rw [hch]; simp [hfmem])).want k
            · exact (hinv.chains_ok act (by rw [hch]; simp)).cancel
            · exact hinv.chains_ok ch (by rw [hch]; simp [List.mem_of_mem_eraseP hmem])
          head_live := by
            intro a r h
            simp only [List.cons.injEq] at h
            rw [← h.1]
            exact want_cancelled _ _
          tail_frozen := by
            intro a r h ch hmem
            simp only [List.cons.injEq] at h
            rw [← h.2] at hmem
            simp only [List.mem_cons] at hmem
            rcases hmem with rfl | hmem
            · exact frozen_cancel _
            · exact hinv.tail_frozen act rest hch ch (List.mem_of_mem_eraseP hmem)
          log_ok := by
            intro r hr o ho
            simp only [List.mem_append] at hr
            rcases hr with hr | hr
            · rw [(releaseEmpty_output act r hr).1] at ho
              simp at ho
            · exact hinv.log_ok r hr o ho }
      | none =>
        rw [ensure_novel d act rest input k hch hin hf hinv.cap_pos hinv.bounded]
        have hsub : List.Sublist ((act.cancel :: rest).take (d.capacity - 1))
            (act.cancel :: rest) := List.take_sublist _ _
        have hnovel : ∀ ch ∈ act.cancel :: rest, ch.input ≠ input := by
          intro ch hmem
          simp only [List.mem_cons] at hmem
          rcases hmem with rfl | hmem
          · exact hin
          · simpa using List.find?_eq_none.mp hf ch hmem
        exact {
          cap_pos := hinv.cap_pos
          bounded := by
            have := hinv.cap_pos
            simp only [List.length_cons, List.length_take]
            omega
          nodup := by
            simp only [List.map_cons, List.nodup_cons]
            constructor
            · intro hmem
              simp only [List.mem_map] at hmem
              obtain ⟨ch, hmem, heq⟩ := hmem
              exact hnovel ch (hsub.subset hmem) heq
            · refine (hsub.map ComputationChain.input).nodup ?_
              simpa [ComputationChain.cancel] using hnd
          chains_ok := by
            intro ch hmem
            simp only [List.mem_cons] at hmem
            rcases hmem with rfl | hmem
            · exact chainOk_create _ _ _
            · have := hsub.subset hmem
              simp only [List.mem_cons] at this
              rcases this with rfl | this
              · exact (hinv.chains_ok act (by rw [hch]; simp)).cancel
              · exact hinv.chains_ok ch (by rw [hch]; simp [this])
          head_live := by
            intro a r h
            simp only [List.cons.injEq] at h
            rw [← h.1]; rfl
          tail_frozen := by
            intro a r h ch hmem
            simp only [List.cons.injEq] at h
            rw [← h.2] at hmem
            have := hsub.subset hmem
            simp only [List.mem_cons] at this
            rcases this with rfl | this
            · exact frozen_cancel _
            · exact hinv.tail_frozen act rest hch ch this
          log_ok := by
            intro r hr o ho
            simp only [List.mem_append] at hr
            rcases hr with hr | hr
            · rw [(releaseEmpty_output act r hr).1] at ho
              simp at ho
            · exact hinv.log_ok r hr o ho }

theorem ensure_head (env : Collaborators) (d : Delayer) (hinv : Inv env d) (input : Input)
    (k : Iteration) :
    ∃ act rest, (d.ensure input k).activeChains = act :: rest ∧ act.input = input ∧
      ((∃ o, act.lookup k = some o) ∨ (act.lookup k = none ∧ k ∈ act.pending)) := by
  cases hch : d.activeChains with
  | nil =>
    rw [ensure_nil d input k hch hinv.cap_pos]
    exact ⟨_, _, rfl, rfl, Or.inr ⟨rfl, by simp [ComputationChain.create]⟩⟩
  | cons act rest =>
    by_cases hin : act.input = input
    · rw [ensure_hit d act rest input k hch hin]
      exact ⟨_, _, rfl, by rw [want_input, hin], want_served act k⟩
    · cases hf : rest.find? (fun ch => decide (ch.input = input)) with
      | some frozen =>
        rw [ensure_frozen d act frozen rest input k hch hin hf]
        have hfin : frozen.input = input := by simpa using List.find?_some hf
        exact ⟨_, _, rfl, by rw [want_input, hfin], want_served frozen k⟩
      | none =>
        rw [ensure_novel d act rest input k hch hin hf hinv.cap_pos hinv.bounded]
        exact ⟨_, _, rfl, rfl, Or.inr ⟨rfl, by simp [ComputationChain.create]⟩⟩

/-! ## The entry of Get -/

theorem get_hit (d : Delayer) (caller : Nat) (input : Input) (k : Iteration)
    (act : ComputationChain) (rest : List ComputationChain) (o : Output)
    (h : (d.ensure input k).activeChains = act :: rest) (hl : act.lookup k = some o) :
    d.Get caller input k =
      { d.ensure input k with
        released := { caller := caller, input := input, iteration := k, output := some o }
                      :: (d.ensure input k).released } := by
  simp only [Delayer.Get, h, hl]

theorem get_wait (d : Delayer) (caller : Nat) (input : Input) (k : Iteration)
    (act : ComputationChain) (rest : List ComputationChain)
    (h : (d.ensure input k).activeChains = act :: rest) (hl : act.lookup k = none) :
    d.Get caller input k =
      { d.ensure input k with
        activeChains :=
          { act with waiters := { caller := caller, target := k } :: act.waiters } :: rest } := by
  simp only [Delayer.Get, h, hl]

theorem inv_get (env : Collaborators) (d : Delayer) (hinv : Inv env d) (caller : Nat)
    (input : Input) (k : Iteration) : Inv env (d.Get caller input k) := by
  have h1 := inv_ensure env d hinv input k
  obtain ⟨act, rest, hch, hin, hserved⟩ := ensure_head env d hinv input k
  rcases hserved with ⟨o, hl⟩ | ⟨hl, hp⟩
  · rw [get_hit d caller input k act rest o hch hl]
    exact {
      cap_pos := h1.cap_pos
      bounded := h1.bounded
      nodup := h1.nodup
      chains_ok := h1.chains_ok
      head_live := h1.head_live
      tail_frozen := h1.tail_frozen
      log_ok := by
        intro r hr o2 ho
        simp only [List.mem_cons] at hr
        rcases hr with rfl | hr
        · simp only [Option.some.injEq] at ho
          subst ho
          have hok := h1.chains_ok act (by rw [hch]; simp)
          have := hok.cache_ok k o (lookup_mem _ _ _ hl)
          rw [hin] at this
          exact this
        · exact h1.log_ok r hr o2 ho }
  · rw [get_wait d caller input k act rest hch hl]
    have hok := h1.chains_ok act (by rw [hch]; simp)
    exact {
      cap_pos := h1.cap_pos
      bounded := by
        have := h1.bounded
        rw [hch] at this
        simpa using this
      nodup := by
        have := h1.nodup
        rw [hch] at this
        simpa using this
      chains_ok := by
        intro ch hmem
        simp only [List.mem_cons] at hmem
        rcases hmem with rfl | hmem
        · exact {
            cache_ok := hok.cache_ok
            waiters_ok := by
              intro w hw
              simp only [List.mem_cons] at hw
              rcases hw with rfl | hw
              · exact hp
              · exact hok.waiters_ok w hw
            pending_new := hok.pending_new
            pending_nodup := hok.pending_nodup }
        · exact h1.chains_ok ch (by rw [hch]; simp [hmem])
      head_live := by
        intro a r h
        simp only [List.cons.injEq] at h
        rw [← h.1]
        exact h1.head_live act rest hch
      tail_frozen := by
        intro a r h ch hmem
        simp only [List.cons.injEq] at h
        rw [← h.2] at hmem
        exact h1.tail_frozen act rest hch ch hmem
      log_ok := h1.log_ok }

/-! ## The background task -/

theorem backendReturn_idle (env : Collaborators) (d : Delayer) (act : ComputationChain)
    (rest : List ComputationChain) (h : d.activeChains = act :: rest)
    (hm : act.nextMilestone = none) : d.backendReturn env = d := by
  simp only [Delayer.backendReturn, h, hm]

theorem backendReturn_nil (env : Collaborators) (d : Delayer) (h : d.activeChains = []) :
    d.backendReturn env = d := by
  simp only [Delayer.backendReturn, h]

theorem backendReturn_some (env : Collaborators) (d : Delayer) (act : ComputationChain)
    (rest : List ComputationChain) (m : Iteration) (h : d.activeChains = act :: rest)
    (hm : act.nextMilestone = some m) :
    d.backendReturn env =
      { d with
        activeChains :=
          { act with
            cache := (m, (env.backend d.strategy).generate act.input m) :: act.cache
            pending := act.pending.erase m
            waiters := act.waiters.filter (fun w => decide (w.target ≠ m)) } :: rest
        released :=
          (act.waiters.filter (fun w => decide (w.target = m))).map
            (fun w => { caller := w.caller, input := act.input, iteration := w.target,
                        output := some ((env.backend d.strategy).generate act.input m) })
            ++ d.released
        invocations := (act.input, m) :: d.invocations } := by
  simp only [Delayer.backendReturn, h, hm]

theorem backendFail_idle (d : Delayer) (act : ComputationChain)
    (rest : List ComputationChain) (h : d.activeChains = act :: rest)
    (hm : act.nextMilestone = none) : d.backendFail = d := by
  simp only [Delayer.backendFail, h, hm]

theorem backendFail_nil (d : Delayer) (h : d.activeChains = []) : d.backendFail = d := by
  simp only [Delayer.backendFail, h]

theorem backendFail_some (d : Delayer) (act : ComputationChain)
    (rest : List ComputationChain) (m : Iteration) (h : d.activeChains = act :: rest)
    (hm : act.nextMilestone = some m) :
    d.backendFail =
      { d with
        activeChains := { act with pending := [], waiters := [] } :: rest
        released := act.releaseEmpty ++ d.released
        invocations := (act.input, m) :: d.invocations } := by
  simp only [Delayer.backendFail, h, hm]

theorem inv_backendReturn (env : Collaborators) (d : Delayer) (hinv : Inv env d) :
    Inv env (d.backendReturn env) := by
  cases hch : d.activeChains with
  | nil => rw [backendReturn_nil env d hch]; exact hinv
  | cons act rest =>
    cases hm : act.nextMilestone with
    | none => rw [backendReturn_idle env d act rest hch hm]; exact hinv
    | some m =>
      rw [backendReturn_some env d act rest m hch hm]
      have hok := hinv.chains_ok act (by rw [hch]; simp)
      have hmp : m ∈ act.pending := leastOf_mem _ _ hm
      exact {
        cap_pos := hinv.cap_pos
        bounded := by
          have := hinv.bounded
          rw [hch] at this
          simpa using this
        nodup := by
          have := hinv.nodup
          rw [hch] at this
          simpa using this
        chains_ok := by
          intro ch hmem
          simp only [List.mem_cons] at hmem
          rcases hmem with rfl | hmem
          · exact {
              cache_ok := by
                intro j o hj
                simp only [List.mem_cons, Prod.mk.injEq] at hj
                rcases hj with ⟨rfl, rfl⟩ | hj
                · rfl
                · exact hok.cache_ok j o hj
              waiters_ok := by
                intro w hw
                simp only [List.mem_filter, decide_eq_true_eq] at hw
                exact (List.mem_erase_of_ne hw.2).mpr (hok.waiters_ok w hw.1)
              pending_new := by
                intro j hj
                have hj2 := (hok.pending_nodup.mem_erase_iff).mp hj
                unfold ComputationChain.lookup
                simp only
                rw [lookup_cons_ne _ _ _ _ hj2.1]
                exact hok.pending_new j hj2.2
              pending_nodup := hok.pending_nodup.erase m }
          · exact hinv.chains_ok ch (by rw [hch]; simp [hmem])
        head_live := by
          intro a r h
          simp only [List.cons.injEq] at h
          rw [← h.1]
          exact hinv.head_live act rest hch
        tail_frozen := by
          intro a r h ch hmem
          simp only [List.cons.injEq] at h
          rw [← h.2] at hmem
          exact hinv.tail_frozen act rest hch ch hmem
        log_ok := by
          intro r hr o ho
          simp only [List.mem_append, List.mem_map] at hr
          rcases hr with ⟨w, hw, rfl⟩ | hr
          · simp only [List.mem_filter, decide_eq_true_eq] at hw
            simp only [Option.some.injEq] at ho
            rw [← ho, hw.2]
          · exact hinv.log_ok r hr o ho }

theorem inv_backendFail (env : Collaborators) (d : Delayer) (hinv : Inv env d) :
    Inv env d.backendFail := by
  cases hch : d.activeChains with
  | nil => rw [backendFail_nil d hch]; exact hinv
  | cons act rest =>
    cases hm : act.nextMilestone with
    | none => rw [backendFail_idle d act rest hch hm]; exact hinv
    | some m =>
      rw [backendFail_some d act rest m hch hm]
      have hok := hinv.chains_ok act (by rw [hch]; simp)
      exact {
        cap_pos := hinv.cap_pos
        bounded := by
          have := hinv.bounded
          rw [hch] at this
          simpa using this
        nodup := by
          have := hinv.nodup
          rw [hch] at this
          simpa using this
        chains_ok := by
          intro ch hmem
          simp only [List.mem_cons] at hmem
          rcases hmem with rfl | hmem
          · exact {
              cache_ok := hok.cache_ok
              waiters_ok := by intro w hw; simp at hw
              pending_new := by intro j hj; simp at hj
              pending_nodup := by simp }
          · exact hinv.chains_ok ch (by rw [hch]; simp [hmem])
        head_live := by
          intro a r h
          simp only [List.cons.injEq] at h
          rw [← h.1]
          exact hinv.head_live act rest hch
        tail_frozen := by
          intro a r h ch hmem
          simp only [List.cons.injEq] at h
          rw [← h.2] at hmem
          exact hinv.tail_frozen act rest hch ch hmem
        log_ok := by
          intro r hr o ho
          simp only [List.mem_append] at hr
          rcases hr with hr | hr
          · rw [(releaseEmpty_output act r hr).1] at ho
            simp at ho
          · exact hinv.log_ok r hr o ho }

/-! ## Runs -/

theorem inv_step (env : Collaborators) (d : Delayer) (hinv : Inv env d) (e : Event) :
    Inv env (d.step env e) := by
  cases e with
  | request input k => exact inv_ensure env d hinv input k
  | peek input k => exact inv_ensure env d hinv input k
  | get caller input k => exact inv_get env d hinv caller input k
  | backendReturn => exact inv_backendReturn env d hinv
  | backendFail => exact inv_backendFail env d hinv

theorem inv_run (env : Collaborators) (es : List Event) :
    ∀ (d : Delayer), Inv env d → Inv env (d.run env es) := by
  induction es with
  | nil => intro d h; exact h
  | cons e es ih => intro d h; exact ih _ (inv_step env d h e)

theorem newDelayer_ok (generatorRef : String) (capacity : Int) (d : Delayer)
    (h : NewDelayer generatorRef capacity = .ok d) :
    0 < capacity ∧ d = Delayer.mk capacity.toNat (Strategy.External generatorRef) [] [] [] := by
  unfold NewDelayer at h
  split at h
  · cases h
  · rename_i hc
    simp only [Except.ok.injEq] at h
    exact ⟨by omega, h.symm⟩

theorem inv_fresh (env : Collaborators) (capacity : Nat) (strategy : Strategy)
    (hcap : 1 ≤ capacity) :
    Inv env (Delayer.mk capacity strategy [] [] []) where
  cap_pos := hcap
  bounded := by simp
  nodup := by simp
  chains_ok := by intro ch h; simp at h
  head_live := by intro a r h; simp at h
  tail_frozen := by intro a r h; simp at h
  log_ok := by intro r h; simp at h

theorem inv_of_reachable (env : Collaborators) (d : Delayer) (h : Reachable env d) :
    Inv env d := by
  induction h with
  | fresh generatorRef capacity d h =>
    obtain ⟨hpos, rfl⟩ := newDelayer_ok generatorRef capacity d h
    exact inv_fresh env _ _ (Int.lt_toNat.mpr (by simpa using hpos))
  | useGo generatorRef capacity d h =>
    obtain ⟨hpos, rfl⟩ := newDelayer_ok generatorRef capacity d h
    exact inv_fresh env _ _ (Int.lt_toNat.mpr (by simpa using hpos))
  | step d e _ ih => exact inv_step env d ih e

theorem reachable_run (env : Collaborators) (es : List Event) :
    ∀ (d : Delayer), Reachable env d → Reachable env (d.run env es) := by
  induction es with
  | nil => intro d h; exact h
  | cons e es ih => intro d h; exact ih _ (Reachable.step d e h)

theorem step_capacity (env : Collaborators) (d : Delayer) (e : Event) :
    (d.step env e).capacity = d.capacity := by
  cases e with
  | request input k => exact ensure_capacity d input k
  | peek input k => exact ensure_capacity d input k
  | get caller input k =>
    show (d.Get caller input k).capacity = d.capacity
    unfold Delayer.Get
    split
    · exact ensure_capacity d input k
    · split <;> exact ensure_capacity d input k
  | backendReturn =>
    show (d.backendReturn env).capacity = d.capacity
    unfold Delayer.backendReturn
    split
    · rfl
    · split <;> rfl
  | backendFail =>
    show d.backendFail.capacity = d.capacity
    unfold Delayer.backendFail
    split
    · rfl
    · split <;> rfl

theorem run_capacity (env : Collaborators) (es : List Event) :
    ∀ (d : Delayer), (d.run env es).capacity = d.capacity := by
  induction es with
  | nil => intro d; rfl
  | cons e es ih => intro d; exact (ih (d.step env e)).trans (step_capacity env d e)

theorem run_strategy (env : Collaborators) (es : List Event) :
    ∀ (d : Delayer), (d.run env es).strategy = d.strategy := by
  induction es with
  | nil => intro d; rfl
  | cons e es ih =>
    intro d
    have hstep : (d.step env e).strategy = d.strategy := by
      cases e with
      | request input k => exact ensure_strategy d input k
      | peek input k => exact ensure_strategy d input k
      | get caller input k =>
        show (d.Get caller input k).strategy = d.strategy
        unfold Delayer.Get
        split
        · exact ensure_strategy d input k
        · split <;> exact ensure_strategy d input k
      | backendReturn =>
        show (d.backendReturn env).strategy = d.strategy
        unfold Delayer.backendReturn
        split
        · rfl
        · split <;> rfl
      | backendFail =>
        show d.backendFail.strategy = d.strategy
        unfold Delayer.backendFail
        split
        · rfl
        · split <;> rfl
    exact (ih (d.step env e)).trans hstep

/-! ## A request for a novel input -/

theorem map_cancel_table (env : Collaborators) (d : Delayer) (hinv : Inv env d)
    (act : ComputationChain) (rest : List ComputationChain) (h : d.activeChains = act :: rest) :
    d.activeChains.map ComputationChain.cancel = act.cancel :: rest := by
  rw [h, List.map_cons]
  congr 1
  have hfr := hinv.tail_frozen act rest h
  calc rest.map ComputationChain.cancel = rest.map id :=
        List.map_congr_left (fun ch hch => cancel_of_frozen ch (hfr ch hch))
    _ = rest := List.map_id rest

theorem ensure_novel_table (env : Collaborators) (d : Delayer) (hinv : Inv env d)
    (input : Input) (k : Iteration)
    (hnew : input ∉ d.activeChains.map ComputationChain.input) :
    (d.ensure input k).activeChains =
      ComputationChain.create input k
        :: (d.activeChains.map ComputationChain.cancel).take (d.capacity - 1) := by
  cases hch : d.activeChains with
  | nil =>
    rw [ensure_nil d input k hch hinv.cap_pos]
    simp
  | cons act rest =>
    rw [hch] at hnew
    simp only [List.map_cons, List.mem_cons, List.mem_map, not_or, not_exists, not_and] at hnew
    have hin : act.input ≠ input := fun h => hnew.1 h.symm
    have hf : rest.find? (fun ch => decide (ch.input = input)) = none := by
      rw [List.find?_eq_none]
      intro ch hmem
      simpa using fun h => hnew.2 ch hmem h
    rw [ensure_novel d act rest input k hch hin hf hinv.cap_pos hinv.bounded]
    rw [← hch, map_cancel_table env d hinv act rest hch]

theorem step_novel_table (env : Collaborators) (d : Delayer) (hinv : Inv env d)
    (e : Event) (input : Input) (he : e.input? = some input)
    (hnew : input ∉ d.activeChains.map ComputationChain.input) :
    ∃ act, (d.step env e).activeChains =
        act :: (d.activeChains.map ComputationChain.cancel).take (d.capacity - 1) ∧
      act.input = input ∧ act.cancelled = false ∧ act.cache = [] ∧ act.advancing = true := by
  cases e with
  | request i k =>
    simp only [Event.input?, Option.some.injEq] at he
    subst he
    exact ⟨_, ensure_novel_table env d hinv i k hnew, rfl, rfl, rfl, rfl⟩
  | peek i k =>
    simp only [Event.input?, Option.some.injEq] at he
    subst he
    exact ⟨_, ensure_novel_table env d hinv i k hnew, rfl, rfl, rfl, rfl⟩
  | get caller i k =>
    simp only [Event.input?, Option.some.injEq] at he
    subst he
    have ht := ensure_novel_table env d hinv i k hnew
    refine ⟨{ ComputationChain.create i k with
              waiters := { caller := caller, target := k }
                :: (ComputationChain.create i k).waiters }, ?_, rfl, rfl, rfl, rfl⟩
    show (d.Get caller i k).activeChains = _
    rw [get_wait d caller i k _ _ ht rfl]
  | backendReturn => simp [Event.input?] at he
  | backendFail => simp [Event.input?] at he

theorem cancel_input (ch : ComputationChain) : ch.cancel.input = ch.input := rfl

theorem map_input_cancel (chains : List ComputationChain) :
    (chains.map ComputationChain.cancel).map ComputationChain.input
      = chains.map ComputationChain.input := by
  simp [List.map_map, Function.comp_def, ComputationChain.cancel]

theorem advancing_of_frozen (ch : ComputationChain) (h : Frozen ch) : ch.advancing = false := by
  unfold ComputationChain.advancing
  rw [h.1]
  rfl

/-! ## The observation logs -/

theorem ensure_released_keep (d : Delayer) (input : Input) (k : Iteration)
    (h : ∀ act rest, d.activeChains = act :: rest → act.input = input) :
    (d.ensure input k).released = d.released := by
  cases hch : d.activeChains with
  | nil => simp only [Delayer.ensure, hch]
  | cons act rest => rw [ensure_hit d act rest input k hch (h act rest hch)]

theorem ensure_released_supersede (d : Delayer) (act : ComputationChain)
    (rest : List ComputationChain) (input : Input) (k : Iteration)
    (h : d.activeChains = act :: rest) (hin : act.input ≠ input) :
    (d.ensure input k).released = act.releaseEmpty ++ d.released := by
  simp only [Delayer.ensure, h, hin, if_false]
  split <;> rfl

theorem ensure_released_suffix (d : Delayer) (input : Input) (k : Iteration) :
    ∃ new, (d.ensure input k).released = new ++ d.released ∧
      ∀ r ∈ new, r.output = none ∧ r.input ≠ input := by
  cases hch : d.activeChains with
  | nil =>
    refine ⟨[], ?_, by simp⟩
    rw [ensure_released_keep d input k (by intro a r h; rw [hch] at h; cases h)]
    rfl
  | cons act rest =>
    by_cases hin : act.input = input
    · refine ⟨[], ?_, by simp⟩
      rw [ensure_hit d act rest input k hch hin]
      rfl
    · refine ⟨act.releaseEmpty, ensure_released_supersede d act rest input k hch hin, ?_⟩
      intro r hr
      have := releaseEmpty_output act r hr
      exact ⟨this.1, by rw [this.2]; exact hin⟩

theorem get_released_suffix (d : Delayer) (caller : Nat) (input : Input) (k : Iteration) :
    ∃ new, (d.Get caller input k).released = new ++ (d.ensure input k).released ∧
      (new = [] ∨ ∃ act rest o, (d.ensure input k).activeChains = act :: rest ∧
        act.lookup k = some o ∧
        new = [{ caller := caller, input := input, iteration := k, output := some o }]) := by
  cases hch : (d.ensure input k).activeChains with
  | nil =>
    refine ⟨[], ?_, Or.inl rfl⟩
    simp only [Delayer.Get, hch, List.nil_append]
  | cons act rest =>
    cases hl : act.lookup k with
    | some o =>
      refine ⟨[{ caller := caller, input := input, iteration := k, output := some o }], ?_,
        Or.inr ⟨act, rest, o, rfl, hl, rfl⟩⟩
      rw [get_hit d caller input k act rest o hch hl]
      rfl
    | none =>
      refine ⟨[], ?_, Or.inl rfl⟩
      rw [get_wait d caller input k act rest hch hl]
      rfl

theorem get_invocations (d : Delayer) (caller : Nat) (input : Input) (k : Iteration) :
    (d.Get caller input k).invocations = d.invocations := by
  unfold Delayer.Get
  split
  · exact ensure_invocations d input k
  · split <;> exact ensure_invocations d input k

theorem step_released_suffix (env : Collaborators) (d : Delayer) (e : Event) :
    ∃ new, (d.step env e).released = new ++ d.released := by
  cases e with
  | request input k =>
    obtain ⟨new, h, -⟩ := ensure_released_suffix d input k
    exact ⟨new, h⟩
  | peek input k =>
    obtain ⟨new, h, -⟩ := ensure_released_suffix d input k
    exact ⟨new, h⟩
  | get caller input k =>
    obtain ⟨new, h, -⟩ := ensure_released_suffix d input k
    obtain ⟨new2, h2, -⟩ := get_released_suffix d caller input k
    exact ⟨new2 ++ new, by show (d.Get caller input k).released = _; rw [h2, h, List.append_assoc]⟩
  | backendReturn =>
    show ∃ new, (d.backendReturn env).released = new ++ d.released
    cases hch : d.activeChains with
    | nil => exact ⟨[], by rw [backendReturn_nil env d hch]; rfl⟩
    | cons act rest =>
      cases hm : act.nextMilestone with
      | none => exact ⟨[], by rw [backendReturn_idle env d act rest hch hm]; rfl⟩
      | some m => exact ⟨_, by rw [backendReturn_some env d act rest m hch hm]⟩
  | backendFail =>
    show ∃ new, d.backendFail.released = new ++ d.released
    cases hch : d.activeChains with
    | nil => exact ⟨[], by rw [backendFail_nil d hch]; rfl⟩
    | cons act rest =>
      cases hm : act.nextMilestone with
      | none => exact ⟨[], by rw [backendFail_idle d act rest hch hm]; rfl⟩
      | some m => exact ⟨_, by rw [backendFail_some d act rest m hch hm]⟩

theorem step_invocations_suffix (env : Collaborators) (d : Delayer) (e : Event) :
    ∃ new, (d.step env e).invocations = new ++ d.invocations := by
  cases e with
  | request input k => exact ⟨[], ensure_invocations d input k⟩
  | peek input k => exact ⟨[], ensure_invocations d input k⟩
  | get caller input k => exact ⟨[], get_invocations d caller input k⟩
  | backendReturn =>
    show ∃ new, (d.backendReturn env).invocations = new ++ d.invocations
    cases hch : d.activeChains with
    | nil => exact ⟨[], by rw [backendReturn_nil env d hch]; rfl⟩
    | cons act rest =>
      cases hm : act.nextMilestone with
      | none => exact ⟨[], by rw [backendReturn_idle env d act rest hch hm]; rfl⟩
      | some m => exact ⟨[(act.input, m)], by rw [backendReturn_some env d act rest m hch hm]; rfl⟩
  | backendFail =>
    show ∃ new, d.backendFail.invocations = new ++ d.invocations
    cases hch : d.activeChains with
    | nil => exact ⟨[], by rw [backendFail_nil d hch]; rfl⟩
    | cons act rest =>
      cases hm : act.nextMilestone with
      | none => exact ⟨[], by rw [backendFail_idle d act rest hch hm]; rfl⟩
      | some m => exact ⟨[(act.input, m)], by rw [backendFail_some d act rest m hch hm]; rfl⟩

theorem run_released_suffix (env : Collaborators) (es : List Event) :
    ∀ (d : Delayer), ∃ new, (d.run env es).released = new ++ d.released := by
  induction es with
  | nil => intro d; exact ⟨[], rfl⟩
  | cons e es ih =>
    intro d
    obtain ⟨new1, h1⟩ := step_released_suffix env d e
    obtain ⟨new2, h2⟩ := ih (d.step env e)
    exact ⟨new2 ++ new1, by
      show ((d.step env e).run env es).released = _
      rw [h2, h1, List.append_assoc]⟩

theorem run_invocations_suffix (env : Collaborators) (es : List Event) :
    ∀ (d : Delayer), ∃ new, (d.run env es).invocations = new ++ d.invocations := by
  induction es with
  | nil => intro d; exact ⟨[], rfl⟩
  | cons e es ih =>
    intro d
    obtain ⟨new1, h1⟩ := step_invocations_suffix env d e
    obtain ⟨new2, h2⟩ := ih (d.step env e)
    exact ⟨new2 ++ new1, by
      show ((d.step env e).run env es).invocations = _
      rw [h2, h1, List.append_assoc]⟩

theorem emitted_of_eq (env : Collaborators) (d : Delayer) (es : List Event)
    (new : List Release) (h : (d.run env es).released = new ++ d.released) :
    d.emitted env es = new := by
  unfold Delayer.emitted
  rw [h]
  simp

theorem invoked_of_eq (env : Collaborators) (d : Delayer) (es : List Event)
    (new : List (Input × Iteration)) (h : (d.run env es).invocations = new ++ d.invocations) :
    d.invoked env es = new := by
  unfold Delayer.invoked
  rw [h]
  simp

theorem run_single (env : Collaborators) (d : Delayer) (e : Event) :
    d.run env [e] = d.step env e := rfl

theorem run_cons (env : Collaborators) (d : Delayer) (e : Event) (es : List Event) :
    d.run env (e :: es) = (d.step env e).run env es := rfl

theorem emitted_cons (env : Collaborators) (d : Delayer) (e : Event) (es : List Event) :
    d.emitted env (e :: es) = (d.step env e).emitted env es ++ d.emitted env [e] := by
  obtain ⟨new1, h1⟩ := step_released_suffix env d e
  obtain ⟨new2, h2⟩ := run_released_suffix env es (d.step env e)
  rw [emitted_of_eq env d [e] new1 (by rw [run_single]; exact h1),
    emitted_of_eq env (d.step env e) es new2 h2,
    emitted_of_eq env d (e :: es) (new2 ++ new1) (by rw [run_cons, h2, h1, List.append_assoc])]

theorem invoked_cons (env : Collaborators) (d : Delayer) (e : Event) (es : List Event) :
    d.invoked env (e :: es) = (d.step env e).invoked env es ++ d.invoked env [e] := by
  obtain ⟨new1, h1⟩ := step_invocations_suffix env d e
  obtain ⟨new2, h2⟩ := run_invocations_suffix env es (d.step env e)
  rw [invoked_of_eq env d [e] new1 (by rw [run_single]; exact h1),
    invoked_of_eq env (d.step env e) es new2 h2,
    invoked_of_eq env d (e :: es) (new2 ++ new1) (by rw [run_cons, h2, h1, List.append_assoc])]

theorem emitted_nil (env : Collaborators) (d : Delayer) : d.emitted env [] = [] :=
  emitted_of_eq env d [] [] rfl

theorem invoked_nil (env : Collaborators) (d : Delayer) : d.invoked env [] = [] :=
  invoked_of_eq env d [] [] rfl

/-! ## Supersession -/

theorem step_request_head (env : Collaborators) (d : Delayer) (hinv : Inv env d) (e : Event)
    (input : Input) (he : e.input? = some input) :
    ∃ act rest, (d.step env e).activeChains = act :: rest ∧ act.input = input := by
  cases e with
  | request i k =>
    simp only [Event.input?, Option.some.injEq] at he
    subst he
    obtain ⟨act, rest, h, hin, -⟩ := ensure_head env d hinv i k
    exact ⟨act, rest, h, hin⟩
  | peek i k =>
    simp only [Event.input?, Option.some.injEq] at he
    subst he
    obtain ⟨act, rest, h, hin, -⟩ := ensure_head env d hinv i k
    exact ⟨act, rest, h, hin⟩
  | get caller i k =>
    simp only [Event.input?, Option.some.injEq] at he
    subst he
    obtain ⟨act, rest, h, hin, hs⟩ := ensure_head env d hinv i k
    rcases hs with ⟨o, hl⟩ | ⟨hl, -⟩
    · exact ⟨act, rest, by show (d.Get caller i k).activeChains = _
                           rw [get_hit d caller i k act rest o h hl]; exact h, hin⟩
    · exact ⟨{ act with waiters := { caller := caller, target := k } :: act.waiters }, rest,
        by show (d.Get caller i k).activeChains = _
           rw [get_wait d caller i k act rest h hl], hin⟩
  | backendReturn => simp [Event.input?] at he
  | backendFail => simp [Event.input?] at he

theorem step_supersede_emitted (env : Collaborators) (d : Delayer) (e : Event)
    (input : Input) (he : e.input? = some input) (act : ComputationChain)
    (rest : List ComputationChain) (h : d.activeChains = act :: rest)
    (hin : act.input ≠ input) (r : Release) (hr : r ∈ act.releaseEmpty) :
    r ∈ d.emitted env [e] := by
  cases e with
  | request i k =>
    simp only [Event.input?, Option.some.injEq] at he
    subst he
    rw [emitted_of_eq env d [.request i k] _ (ensure_released_supersede d act rest i k h hin)]
    exact hr
  | peek i k =>
    simp only [Event.input?, Option.some.injEq] at he
    subst he
    rw [emitted_of_eq env d [.peek i k] _ (ensure_released_supersede d act rest i k h hin)]
    exact hr
  | get caller i k =>
    simp only [Event.input?, Option.some.injEq] at he
    subst he
    obtain ⟨new2, h2, -⟩ := get_released_suffix d caller i k
    have h3 : (d.run env [.get caller i k]).released
        = (new2 ++ act.releaseEmpty) ++ d.released := by
      show (d.Get caller i k).released = _
      rw [h2, ensure_released_supersede d act rest i k h hin, List.append_assoc]
    rw [emitted_of_eq env d _ _ h3]
    exact List.mem_append_right _ hr
  | backendReturn => simp [Event.input?] at he
  | backendFail => simp [Event.input?] at he

/-! ## What the table has cached -/

theorem cached_head (d : Delayer) (act : ComputationChain) (rest : List ComputationChain)
    (input : Input) (k : Iteration) (h : d.activeChains = act :: rest)
    (hin : act.input = input) : d.cached input k = act.lookup k := by
  unfold Delayer.cached
  rw [h, List.find?_cons_of_pos _ (by simpa using hin)]

theorem cached_skip (d : Delayer) (act : ComputationChain) (rest : List ComputationChain)
    (input : Input) (k : Iteration) (h : d.activeChains = act :: rest)
    (hin : act.input ≠ input) :
    d.cached input k =
      match rest.find? (fun ch => decide (ch.input = input)) with
      | some ch => ch.lookup k
      | none => none := by
  unfold Delayer.cached
  rw [h, List.find?_cons_of_neg _ (by simpa using hin)]

theorem cached_mk_head (capacity : Nat) (strategy : Strategy) (act : ComputationChain)
    (rest : List ComputationChain) (released : List Release)
    (invocations : List (Input × Iteration)) (input : Input) (k : Iteration)
    (hin : act.input = input) :
    (Delayer.mk capacity strategy (act :: rest) released invocations).cached input k
      = act.lookup k :=
  cached_head _ act rest input k rfl hin

theorem cached_mk_skip (capacity : Nat) (strategy : Strategy) (act : ComputationChain)
    (rest : List ComputationChain) (released : List Release)
    (invocations : List (Input × Iteration)) (input : Input) (k : Iteration)
    (hin : act.input ≠ input) :
    (Delayer.mk capacity strategy (act :: rest) released invocations).cached input k =
      match rest.find? (fun ch => decide (ch.input = input)) with
      | some ch => ch.lookup k
      | none => none :=
  cached_skip _ act rest input k rfl hin

theorem cached_ensure (d : Delayer) (input : Input)
    (k j : Iteration) (o : Output) (h : d.cached input j = some o) :
    (d.ensure input k).cached input j = some o := by
  cases hch : d.activeChains with
  | nil =>
    unfold Delayer.cached at h
    rw [hch] at h
    simp at h
  | cons act rest =>
    by_cases hin : act.input = input
    · rw [cached_head d act rest input j hch hin] at h
      rw [ensure_hit d act rest input k hch hin]
      rw [cached_head _ (act.want k) rest input j rfl (by rw [want_input, hin]), want_lookup]
      exact h
    · rw [cached_skip d act rest input j hch hin] at h
      cases hf : rest.find? (fun ch => decide (ch.input = input)) with
      | some frozen =>
        rw [hf] at h
        have hfin : frozen.input = input := by simpa using List.find?_some hf
        rw [ensure_frozen d act frozen rest input k hch hin hf]
        rw [cached_head _ (frozen.want k) _ input j rfl (by rw [want_input, hfin]), want_lookup]
        exact h
      | none =>
        rw [hf] at h
        simp at h

theorem cached_get (env : Collaborators) (d : Delayer) (hinv : Inv env d) (caller : Nat)
    (input : Input) (k j : Iteration) (o : Output) (h : d.cached input j = some o) :
    (d.Get caller input k).cached input j = some o := by
  have h1 := cached_ensure d input k j o h
  obtain ⟨act, rest, hch, hin, hs⟩ := ensure_head env d hinv input k
  rw [cached_head _ act rest input j hch hin] at h1
  rcases hs with ⟨o2, hl⟩ | ⟨hl, -⟩
  · rw [get_hit d caller input k act rest o2 hch hl]
    have h2 := cached_head
      { d.ensure input k with
        released := { caller := caller, input := input, iteration := k, output := some o2 }
                      :: (d.ensure input k).released } act rest input j hch hin
    rw [h2]
    exact h1
  · rw [get_wait d caller input k act rest hch hl]
    have h2 := cached_head
      { d.ensure input k with
        activeChains :=
          { act with waiters := { caller := caller, target := k } :: act.waiters } :: rest }
      { act with waiters := { caller := caller, target := k } :: act.waiters } rest input j rfl hin
    rw [h2]
    exact h1

theorem cached_backendReturn (env : Collaborators) (d : Delayer) (hinv : Inv env d)
    (input : Input) (j : Iteration) (o : Output) (h : d.cached input j = some o) :
    (d.backendReturn env).cached input j = some o := by
  cases hch : d.activeChains with
  | nil => rw [backendReturn_nil env d hch]; exact h
  | cons act rest =>
    cases hm : act.nextMilestone with
    | none => rw [backendReturn_idle env d act rest hch hm]; exact h
    | some m =>
      rw [backendReturn_some env d act rest m hch hm]
      by_cases hin : act.input = input
      · rw [cached_head d act rest input j hch hin] at h
        rw [cached_mk_head]
        swap
        · exact hin
        have hne : j ≠ m := by
          intro hjm
          subst hjm
          have := (hinv.chains_ok act (by rw [hch]; simp)).pending_new j (leastOf_mem _ _ hm)
          rw [this] at h
          cases h
        unfold ComputationChain.lookup
        simp only
        rw [lookup_cons_ne _ _ _ _ hne]
        exact h
      · rw [cached_skip d act rest input j hch hin] at h
        rw [cached_mk_skip]
        · exact h
        · exact hin

theorem cached_backendFail (d : Delayer) (input : Input) (j : Iteration) :
    d.backendFail.cached input j = d.cached input j := by
  cases hch : d.activeChains with
  | nil => rw [backendFail_nil d hch]
  | cons act rest =>
    cases hm : act.nextMilestone with
    | none => rw [backendFail_idle d act rest hch hm]
    | some m =>
      rw [backendFail_some d act rest m hch hm]
      by_cases hin : act.input = input
      · rw [cached_head d act rest input j hch hin, cached_mk_head]
        · rfl
        · exact hin
      · rw [cached_skip d act rest input j hch hin, cached_mk_skip]
        exact hin

theorem cached_step (env : Collaborators) (d : Delayer) (hinv : Inv env d) (e : Event)
    (input : Input) (he : ∀ i, e.input? = some i → i = input) (j : Iteration) (o : Output)
    (h : d.cached input j = some o) : (d.step env e).cached input j = some o := by
  cases e with
  | request i k =>
    have := he i rfl
    subst this
    exact cached_ensure d i k j o h
  | peek i k =>
    have := he i rfl
    subst this
    exact cached_ensure d i k j o h
  | get caller i k =>
    have := he i rfl
    subst this
    exact cached_get env d hinv caller i k j o h
  | backendReturn => exact cached_backendReturn env d hinv input j o h
  | backendFail =>
    show d.backendFail.cached input j = some o
    rw [cached_backendFail]
    exact h

theorem active_step (env : Collaborators) (d : Delayer) (hinv : Inv env d) (e : Event)
    (input : Input) (he : ∀ i, e.input? = some i → i = input)
    (h : d.activeInput = some input) : (d.step env e).activeInput = some input := by
  cases e with
  | request i k =>
    obtain ⟨act, rest, htab, hin⟩ := step_request_head env d hinv (.request i k) i rfl
    unfold Delayer.activeInput
    rw [htab]
    simp [hin, he i rfl]
  | peek i k =>
    obtain ⟨act, rest, htab, hin⟩ := step_request_head env d hinv (.peek i k) i rfl
    unfold Delayer.activeInput
    rw [htab]
    simp [hin, he i rfl]
  | get caller i k =>
    obtain ⟨act, rest, htab, hin⟩ := step_request_head env d hinv (.get caller i k) i rfl
    unfold Delayer.activeInput
    rw [htab]
    simp [hin, he i rfl]
  | backendReturn =>
    show (d.backendReturn env).activeInput = some input
    cases hch : d.activeChains with
    | nil => rw [backendReturn_nil env d hch]; exact h
    | cons act rest =>
      cases hm : act.nextMilestone with
      | none => rw [backendReturn_idle env d act rest hch hm]; exact h
      | some m =>
        rw [backendReturn_some env d act rest m hch hm]
        unfold Delayer.activeInput at h ⊢
        rw [hch] at h
        exact h
  | backendFail =>
    show d.backendFail.activeInput = some input
    cases hch : d.activeChains with
    | nil => rw [backendFail_nil d hch]; exact h
    | cons act rest =>
      cases hm : act.nextMilestone with
      | none => rw [backendFail_idle d act rest hch hm]; exact h
      | some m =>
        rw [backendFail_some d act rest m hch hm]
        unfold Delayer.activeInput at h ⊢
        rw [hch] at h
        exact h

theorem hot_run (env : Collaborators) (input : Input) (k : Iteration) (o : Output)
    (es : List Event) :
    ∀ (d : Delayer), Inv env d → (∀ e ∈ es, ∀ i, e.input? = some i → i = input) →
      d.activeInput = some input → d.cached input k = some o →
      (d.run env es).activeInput = some input ∧ (d.run env es).cached input k = some o := by
  induction es with
  | nil => intro d _ _ ha hc; exact ⟨ha, hc⟩
  | cons e es ih =>
    intro d hinv hes ha hc
    have he := hes e (List.mem_cons_self _ _)
    exact ih (d.step env e) (inv_step env d hinv e)
      (fun e2 h2 => hes e2 (List.mem_cons_of_mem _ h2))
      (active_step env d hinv e input he ha) (cached_step env d hinv e input he k o hc)

theorem active_head (d : Delayer) (input : Input) (h : d.activeInput = some input) :
    ∃ act rest, d.activeChains = act :: rest ∧ act.input = input := by
  unfold Delayer.activeInput at h
  cases hch : d.activeChains with
  | nil => rw [hch] at h; simp at h
  | cons act rest =>
    rw [hch] at h
    simp only [List.head?_cons, Option.map_some', Option.some.injEq] at h
    exact ⟨act, rest, rfl, h⟩

/-! ## Cache hits -/

theorem ensure_served (env : Collaborators) (d : Delayer) (hinv : Inv env d) (input : Input)
    (k : Iteration) (o : Output) (ha : d.activeInput = some input)
    (hc : d.cached input k = some o) : d.ensure input k = d := by
  obtain ⟨act, rest, htab, hin⟩ := active_head d input ha
  rw [cached_head d act rest input k htab hin] at hc
  rw [ensure_hit d act rest input k htab hin,
    want_of_served act k o hc (hinv.head_live act rest htab), ← htab]

theorem get_served (env : Collaborators) (d : Delayer) (hinv : Inv env d) (caller : Nat)
    (input : Input) (k : Iteration) (o : Output) (ha : d.activeInput = some input)
    (hc : d.cached input k = some o) :
    d.Get caller input k =
      { d with released :=
          { caller := caller, input := input, iteration := k, output := some o } :: d.released } := by
  obtain ⟨act, rest, htab, hin⟩ := active_head d input ha
  have hens := ensure_served env d hinv input k o ha hc
  rw [cached_head d act rest input k htab hin] at hc
  rw [get_hit d caller input k act rest o (by rw [hens]; exact htab) hc, hens]

theorem emitted_some_hot (env : Collaborators) (d : Delayer) (hinv : Inv env d) (e : Event)
    (c : Nat) (input : Input) (k : Iteration) (o : Output)
    (hret : ({ caller := c, input := input, iteration := k, output := some o } : Release)
      ∈ d.emitted env [e]) :
    (d.step env e).activeInput = some input ∧ (d.step env e).cached input k = some o := by
  cases e with
  | request i k2 =>
    obtain ⟨new, h, hnone⟩ := ensure_released_suffix d i k2
    rw [emitted_of_eq env d [.request i k2] new h] at hret
    have := (hnone _ hret).1
    simp at this
  | peek i k2 =>
    obtain ⟨new, h, hnone⟩ := ensure_released_suffix d i k2
    rw [emitted_of_eq env d [.peek i k2] new h] at hret
    have := (hnone _ hret).1
    simp at this
  | get caller i k2 =>
    obtain ⟨new, h, hnone⟩ := ensure_released_suffix d i k2
    obtain ⟨new2, h2, hcase⟩ := get_released_suffix d caller i k2
    have h3 : (d.run env [.get caller i k2]).released = (new2 ++ new) ++ d.released := by
      show (d.Get caller i k2).released = _
      rw [h2, h, List.append_assoc]
    rw [emitted_of_eq env d _ _ h3, List.mem_append] at hret
    rcases hret with hret | hret
    · rcases hcase with rfl | ⟨act, rest, o2, htab, hl, rfl⟩
      · simp at hret
      · simp only [List.mem_singleton, Release.mk.injEq, Option.some.injEq] at hret
        obtain ⟨-, rfl, rfl, rfl⟩ := hret
        obtain ⟨act2, rest2, htab2, hin2, -⟩ := ensure_head env d hinv input k
        rw [htab] at htab2
        simp only [List.cons.injEq] at htab2
        have hin : act.input = input := by rw [htab2.1]; exact hin2
        show (d.Get caller input k).activeInput = some input ∧
          (d.Get caller input k).cached input k = some o
        rw [get_hit d caller input k act rest o htab hl]
        constructor
        · unfold Delayer.activeInput
          simp only [htab, List.head?_cons, Option.map_some', hin]
        · have h4 := cached_head
            { d.ensure input k with
              released := { caller := caller, input := input, iteration := k, output := some o }
                            :: (d.ensure input k).released } act rest input k htab hin
          rw [h4]
          exact hl
    · have := (hnone _ hret).1
      simp at this
  | backendReturn =>
    cases hch : d.activeChains with
    | nil =>
      have h : (d.run env [.backendReturn]).released = [] ++ d.released := by
        show (d.backendReturn env).released = _
        rw [backendReturn_nil env d hch]; rfl
      rw [emitted_of_eq env d _ _ h] at hret
      simp at hret
    | cons act rest =>
      cases hm : act.nextMilestone with
      | none =>
        have h : (d.run env [.backendReturn]).released = [] ++ d.released := by
          show (d.backendReturn env).released = _
          rw [backendReturn_idle env d act rest hch hm]; rfl
        rw [emitted_of_eq env d _ _ h] at hret
        simp at hret
      | some m =>
        have hstep := backendReturn_some env d act rest m hch hm
        have h := congrArg Delayer.released hstep
        rw [emitted_of_eq env d [.backendReturn] _ h] at hret
        simp only [List.mem_map, Release.mk.injEq, Option.some.injEq] at hret
        obtain ⟨w, hw, -, rfl, rfl, rfl⟩ := hret
        simp only [List.mem_filter, decide_eq_true_eq] at hw
        rw [hw.2]
        show (d.backendReturn env).activeInput = some act.input ∧
          (d.backendReturn env).cached act.input m = some _
        rw [hstep]
        constructor
        · rfl
        · rw [cached_mk_head]
          · exact lookup_cons_self _ _ _
          · rfl
  | backendFail =>
    cases hch : d.activeChains with
    | nil =>
      have h : (d.run env [.backendFail]).released = [] ++ d.released := by
        show d.backendFail.released = _
        rw [backendFail_nil d hch]; rfl
      rw [emitted_of_eq env d _ _ h] at hret
      simp at hret
    | cons act rest =>
      cases hm : act.nextMilestone with
      | none =>
        have h : (d.run env [.backendFail]).released = [] ++ d.released := by
          show d.backendFail.released = _
          rw [backendFail_idle d act rest hch hm]; rfl
        rw [emitted_of_eq env d _ _ h] at hret
        simp at hret
      | some m =>
        have h : (d.run env [.backendFail]).released = act.releaseEmpty ++ d.released := by
          show d.backendFail.released = _
          rw [backendFail_some d act rest m hch hm]
        rw [emitted_of_eq env d _ _ h] at hret
        have := (releaseEmpty_output act _ hret).1
        simp at this

/-! ## Runs without supersession and without backend failure -/

theorem emitted_subset (env : Collaborators) (d : Delayer) (es : List Event) (r : Release)
    (h : r ∈ d.emitted env es) : r ∈ (d.run env es).released :=
  List.mem_of_mem_take h

theorem backendReturn_emitted (env : Collaborators) (d : Delayer) (r : Release)
    (h : r ∈ d.emitted env [.backendReturn]) : r.output ≠ none := by
  cases hch : d.activeChains with
  | nil =>
    have h2 : (d.run env [.backendReturn]).released = [] ++ d.released := by
      show (d.backendReturn env).released = _
      rw [backendReturn_nil env d hch]; rfl
    rw [emitted_of_eq env d _ _ h2] at h
    simp at h
  | cons act rest =>
    cases hm : act.nextMilestone with
    | none =>
      have h2 : (d.run env [.backendReturn]).released = [] ++ d.released := by
        show (d.backendReturn env).released = _
        rw [backendReturn_idle env d act rest hch hm]; rfl
      rw [emitted_of_eq env d _ _ h2] at h
      simp at h
    | some m =>
      have h2 := congrArg Delayer.released (backendReturn_some env d act rest m hch hm)
      rw [emitted_of_eq env d [.backendReturn] _ h2] at h
      simp only [List.mem_map] at h
      obtain ⟨w, -, rfl⟩ := h
      simp

theorem step_no_empty (env : Collaborators) (d : Delayer) (e : Event) (input : Input)
    (hfail : e ≠ .backendFail) (he : ∀ i, e.input? = some i → i = input)
    (r : Release) (hr : r ∈ d.emitted env [e]) (hin : r.input = input) : r.output ≠ none := by
  cases e with
  | request i k =>
    obtain ⟨new, h, hnone⟩ := ensure_released_suffix d i k
    rw [emitted_of_eq env d [.request i k] new h] at hr
    exact absurd (hin.trans (he i rfl).symm) (hnone r hr).2
  | peek i k =>
    obtain ⟨new, h, hnone⟩ := ensure_released_suffix d i k
    rw [emitted_of_eq env d [.peek i k] new h] at hr
    exact absurd (hin.trans (he i rfl).symm) (hnone r hr).2
  | get caller i k =>
    obtain ⟨new, h, hnone⟩ := ensure_released_suffix d i k
    obtain ⟨new2, h2, hcase⟩ := get_released_suffix d caller i k
    have h3 : (d.run env [.get caller i k]).released = (new2 ++ new) ++ d.released := by
      show (d.Get caller i k).released = _
      rw [h2, h, List.append_assoc]
    rw [emitted_of_eq env d _ _ h3, List.mem_append] at hr
    rcases hr with hr | hr
    · rcases hcase with rfl | ⟨act, rest, o2, -, -, rfl⟩
      · simp at hr
      · simp only [List.mem_singleton] at hr
        rw [hr]
        simp
    · exact absurd (hin.trans (he i rfl).symm) (hnone r hr).2
  | backendReturn => exact backendReturn_emitted env d r hr
  | backendFail => exact absurd rfl hfail

theorem run_no_empty (env : Collaborators) (input : Input) (es : List Event) :
    ∀ (d : Delayer), (∀ e ∈ es, e ≠ .backendFail ∧ ∀ i, e.input? = some i → i = input) →
      ∀ r ∈ d.emitted env es, r.input = input → r.output ≠ none := by
  induction es with
  | nil =>
    intro d _ r hr
    rw [emitted_nil] at hr
    simp at hr
  | cons e es ih =>
    intro d hes r hr hin
    rw [emitted_cons, List.mem_append] at hr
    rcases hr with hr | hr
    · exact ih (d.step env e) (fun e2 h2 => hes e2 (List.mem_cons_of_mem _ h2)) r hr hin
    · exact step_no_empty env d e input (hes e (List.mem_cons_self _ _)).1
        (hes e (List.mem_cons_self _ _)).2 r hr hin

theorem run_output (env : Collaborators) (d : Delayer) (hinv : Inv env d) (input : Input)
    (es : List Event)
    (hes : ∀ e ∈ es, e ≠ .backendFail ∧ ∀ i, e.input? = some i → i = input)
    (r : Release) (hr : r ∈ d.emitted env es) (hin : r.input = input) :
    r.output = some ((env.backend d.strategy).generate input r.iteration) := by
  have hne := run_no_empty env input es d hes r hr hin
  cases ho : r.output with
  | none => exact absurd ho hne
  | some o =>
    have := (inv_run env es d hinv).log_ok r (emitted_subset env d es r hr) o ho
    rw [run_strategy, hin] at this
    rw [this]

theorem isSome_cached_step (env : Collaborators) (d : Delayer) (hinv : Inv env d) (e : Event)
    (input : Input) (he : ∀ i, e.input? = some i → i = input) (k : Iteration)
    (h : (d.cached input k).isSome = true) : ((d.step env e).cached input k).isSome = true := by
  cases hc : d.cached input k with
  | none => rw [hc] at h; simp at h
  | some o => rw [cached_step env d hinv e input he k o hc]; rfl

theorem step_invoked_count (env : Collaborators) (d : Delayer) (hinv : Inv env d) (e : Event)
    (input : Input) (he : ∀ i, e.input? = some i → i = input)
    (hfail : e ≠ .backendFail) (k : Iteration) :
    (d.invoked env [e]).count (input, k)
        + (if ((d.step env e).cached input k).isSome = true then 0 else 1)
      ≤ (if (d.cached input k).isSome = true then 0 else 1) := by
  have hmono := isSome_cached_step env d hinv e input he k
  have hquiet : d.invoked env [e] = [] →
      (d.invoked env [e]).count (input, k)
        + (if ((d.step env e).cached input k).isSome = true then 0 else 1)
      ≤ (if (d.cached input k).isSome = true then 0 else 1) := by
    intro h0
    rw [h0, List.count_nil]
    by_cases hb : (d.cached input k).isSome = true
    · rw [if_pos hb, if_pos (hmono hb)]
    · rw [if_neg hb]
      split <;> omega
  cases e with
  | request i k2 =>
    exact hquiet (invoked_of_eq env d [.request i k2] [] (ensure_invocations d i k2))
  | peek i k2 =>
    exact hquiet (invoked_of_eq env d [.peek i k2] [] (ensure_invocations d i k2))
  | get caller i k2 =>
    exact hquiet (invoked_of_eq env d [.get caller i k2] [] (get_invocations d caller i k2))
  | backendFail => exact absurd rfl hfail
  | backendReturn =>
    cases hch : d.activeChains with
    | nil =>
      apply hquiet
      apply invoked_of_eq
      show (d.backendReturn env).invocations = _
      rw [backendReturn_nil env d hch]; rfl
    | cons act rest =>
      cases hm : act.nextMilestone with
      | none =>
        apply hquiet
        apply invoked_of_eq
        show (d.backendReturn env).invocations = _
        rw [backendReturn_idle env d act rest hch hm]; rfl
      | some m =>
        have hstep := backendReturn_some env d act rest m hch hm
        have h2 : (d.run env [.backendReturn]).invocations = [(act.input, m)] ++ d.invocations :=
          congrArg Delayer.invocations hstep
        rw [invoked_of_eq env d _ _ h2]
        by_cases hkey : (act.input, m) = (input, k)
        · simp only [Prod.mk.injEq] at hkey
          obtain ⟨hin, rfl⟩ := hkey
          have hnone := (hinv.chains_ok act (by rw [hch]; simp)).pending_new m
            (leastOf_mem _ _ hm)
          have hbefore : d.cached input m = none := by
            rw [cached_head d act rest input m hch hin]; exact hnone
          have hafter : ((d.step env .backendReturn).cached input m).isSome = true := by
            show ((d.backendReturn env).cached input m).isSome = true
            rw [hstep, cached_mk_head]
            · unfold ComputationChain.lookup
              simp only
              rw [lookup_cons_self]
              rfl
            · exact hin
          rw [hbefore, if_pos hafter, hin]
          simp
        · have hc : [(act.input, m)].count (input, k) = 0 := by
            rw [List.count_singleton]
            simp only [beq_iff_eq]
            rw [if_neg hkey]
          rw [hc]
          by_cases hb : (d.cached input k).isSome = true
          · rw [if_pos hb, if_pos (hmono hb)]
          · rw [if_neg hb]
            split <;> omega

theorem run_invoked_count (env : Collaborators) (input : Input) (k : Iteration)
    (es : List Event) :
    ∀ (d : Delayer), Inv env d →
      (∀ e ∈ es, e ≠ .backendFail ∧ ∀ i, e.input? = some i → i = input) →
      (d.invoked env es).count (input, k)
          + (if ((d.run env es).cached input k).isSome = true then 0 else 1)
        ≤ (if (d.cached input k).isSome = true then 0 else 1) := by
  induction es with
  | nil =>
    intro d _ _
    rw [invoked_nil]
    simp [Delayer.run]
  | cons e es ih =>
    intro d hinv hes
    have h1 := step_invoked_count env d hinv e input (hes e (List.mem_cons_self _ _)).2
      (hes e (List.mem_cons_self _ _)).1 k
    have h2 := ih (d.step env e) (inv_step env d hinv e)
      (fun e2 h => hes e2 (List.mem_cons_of_mem _ h))
    rw [invoked_cons, List.count_append, run_cons]
    omega

/-! ## Progress of the background task -/

theorem waits_iff (env : Collaborators) (d : Delayer) (hinv : Inv env d) (input : Input)
    (w : Waiter) :
    d.waits input w = true ↔
      ∃ act rest, d.activeChains = act :: rest ∧ act.input = input ∧ w ∈ act.waiters := by
  unfold Delayer.waits
  rw [List.any_eq_true]
  constructor
  · rintro ⟨ch, hch, hp⟩
    simp only [Bool.and_eq_true, decide_eq_true_eq] at hp
    cases htab : d.activeChains with
    | nil => rw [htab] at hch; simp at hch
    | cons act rest =>
      rw [htab] at hch
      simp only [List.mem_cons] at hch
      rcases hch with rfl | hch
      · exact ⟨_, _, rfl, hp.1, hp.2⟩
      · have := (hinv.tail_frozen act rest htab ch hch).2.2
        rw [this] at hp
        simp at hp
  · rintro ⟨act, rest, htab, hin, hw⟩
    exact ⟨act, by rw [htab]; simp, by simp [hin, hw]⟩

theorem waits_eq_false (d : Delayer) (input : Input) (w : Waiter)
    (h : ∀ ch ∈ d.activeChains, ch.input = input → w ∉ ch.waiters) :
    d.waits input w = false := by
  unfold Delayer.waits
  rw [List.any_eq_false]
  intro ch hch
  simp only [Bool.and_eq_true, decide_eq_true_eq, not_and]
  exact h ch hch

/-- What one event does to the calls `Get(act.input, k)` that are pending on
the active chain: it leaves all of them pending, or it releases all of them
with one and the same result. -/
theorem step_waiter (env : Collaborators) (d : Delayer) (hinv : Inv env d)
    (act : ComputationChain) (rest : List ComputationChain)
    (htab : d.activeChains = act :: rest) (k : Iteration)
    (hk : ∃ w ∈ act.waiters, w.target = k) (e : Event) :
    ((∃ act2 rest2, (d.step env e).activeChains = act2 :: rest2 ∧ act2.input = act.input ∧
        ∀ w2 ∈ act.waiters, w2.target = k → w2 ∈ act2.waiters) ∧
      (∀ r ∈ d.emitted env [e], r.input = act.input → r.iteration ≠ k) ∧
      (d.invoked env [e]).count (act.input, k) = 0) ∨
    (∃ x : Option Output,
      (∀ w2 ∈ act.waiters, w2.target = k →
        (⟨w2.caller, act.input, k, x⟩ : Release) ∈ d.emitted env [e]) ∧
      (∀ ch ∈ (d.step env e).activeChains, ch.input = act.input →
        ∀ w2 ∈ ch.waiters, w2.target ≠ k) ∧
      (∀ r ∈ d.emitted env [e], r.input = act.input → r.iteration = k → r.output = x) ∧
      (d.invoked env [e]).count (act.input, k) ≤ 1 ∧
      (e ≠ .backendFail → (∀ i, e.input? = some i → i = act.input) →
        x = some ((env.backend d.strategy).generate act.input k))) := by
  obtain ⟨w, hw, hwk⟩ := hk
  have hok := hinv.chains_ok act (by rw [htab]; simp)
  have hkp : k ∈ act.pending := by rw [← hwk]; exact hok.waiters_ok w hw
  have hknew : act.lookup k = none := hok.pending_new k hkp
  -- a request for another input supersedes the chain
  have hsuper : ∀ (i : Input), e.input? = some i → act.input ≠ i →
      (∀ r ∈ d.emitted env [e], r.input = act.input → r ∈ act.releaseEmpty) →
      (d.invoked env [e]) = [] →
      (∃ x : Option Output,
        (∀ w2 ∈ act.waiters, w2.target = k →
          (⟨w2.caller, act.input, k, x⟩ : Release) ∈ d.emitted env [e]) ∧
        (∀ ch ∈ (d.step env e).activeChains, ch.input = act.input →
          ∀ w2 ∈ ch.waiters, w2.target ≠ k) ∧
        (∀ r ∈ d.emitted env [e], r.input = act.input → r.iteration = k → r.output = x) ∧
        (d.invoked env [e]).count (act.input, k) ≤ 1 ∧
        (e ≠ .backendFail → (∀ i, e.input? = some i → i = act.input) →
          x = some ((env.backend d.strategy).generate act.input k))) := by
    intro i he hne hrec hinvk
    refine ⟨none, ?_, ?_, ?_, ?_, ?_⟩
    · intro w2 hw2 hw2k
      apply step_supersede_emitted env d e i he act rest htab hne
      unfold ComputationChain.releaseEmpty
      rw [← hw2k]
      exact List.mem_map_of_mem _ hw2
    · intro ch hch hchin w2 hw2
      obtain ⟨a2, r2, htab2, hin2⟩ := step_request_head env d hinv e i he
      rw [htab2] at hch
      simp only [List.mem_cons] at hch
      rcases hch with rfl | hch
      · exact absurd (hchin.symm.trans hin2) hne
      · have := ((inv_step env d hinv e).tail_frozen a2 r2 htab2 ch hch).2.2
        rw [this] at hw2
        simp at hw2
    · intro r hr hin _
      exact (releaseEmpty_output act r (hrec r hr hin)).1
    · rw [hinvk]
      simp
    · intro _ hsame
      exact absurd (hsame i he).symm hne
  cases e with
  | request i k2 =>
    by_cases hin : act.input = i
    · left
      have hst : d.step env (.request i k2) = { d with activeChains := act.want k2 :: rest } :=
        ensure_hit d act rest i k2 htab hin
      have hem : d.emitted env [.request i k2] = [] :=
        emitted_of_eq env d _ [] (by rw [run_single, hst]; rfl)
      refine ⟨⟨act.want k2, rest, by rw [hst], want_input act k2, ?_⟩, ?_, ?_⟩
      · intro w2 hw2 _
        rw [want_waiters]
        exact hw2
      · intro r hr
        rw [hem] at hr
        simp at hr
      · rw [invoked_of_eq env d [.request i k2] [] (ensure_invocations d i k2)]
        simp
    · right
      apply hsuper i rfl hin
      · intro r hr _
        rw [emitted_of_eq env d [.request i k2] _
          (ensure_released_supersede d act rest i k2 htab hin)] at hr
        exact hr
      · exact invoked_of_eq env d [.request i k2] [] (ensure_invocations d i k2)
  | peek i k2 =>
    by_cases hin : act.input = i
    · left
      have hst : d.step env (.peek i k2) = { d with activeChains := act.want k2 :: rest } :=
        ensure_hit d act rest i k2 htab hin
      have hem : d.emitted env [.peek i k2] = [] :=
        emitted_of_eq env d _ [] (by rw [run_single, hst]; rfl)
      refine ⟨⟨act.want k2, rest, by rw [hst], want_input act k2, ?_⟩, ?_, ?_⟩
      · intro w2 hw2 _
        rw [want_waiters]
        exact hw2
      · intro r hr
        rw [hem] at hr
        simp at hr
      · rw [invoked_of_eq env d [.peek i k2] [] (ensure_invocations d i k2)]
        simp
    · right
      apply hsuper i rfl hin
      · intro r hr _
        rw [emitted_of_eq env d [.peek i k2] _
          (ensure_released_supersede d act rest i k2 htab hin)] at hr
        exact hr
      · exact invoked_of_eq env d [.peek i k2] [] (ensure_invocations d i k2)
  | get c i k2 =>
    by_cases hin : act.input = i
    · left
      have hens : d.ensure i k2 = { d with activeChains := act.want k2 :: rest } :=
        ensure_hit d act rest i k2 htab hin
      have htab2 : (d.ensure i k2).activeChains = act.want k2 :: rest := by rw [hens]
      have hinvk : (d.invoked env [.get c i k2]).count (act.input, k) = 0 := by
        rw [invoked_of_eq env d [.get c i k2] [] (get_invocations d c i k2)]
        simp
      cases hl : (act.want k2).lookup k2 with
      | some o =>
        have hst := get_hit d c i k2 _ _ o htab2 hl
        have hem : d.emitted env [.get c i k2] = [⟨c, i, k2, some o⟩] :=
          emitted_of_eq env d _ _ (by rw [run_single]; show (d.Get c i k2).released = _
                                      rw [hst, hens]; rfl)
        refine ⟨⟨act.want k2, rest, ?_, want_input act k2, ?_⟩, ?_, hinvk⟩
        · show (d.Get c i k2).activeChains = _
          rw [hst, hens]
        · intro w2 hw2 _
          rw [want_waiters]
          exact hw2
        · intro r hr _ hrk
          rw [hem] at hr
          simp only [List.mem_singleton] at hr
          rw [hr] at hrk
          simp only at hrk
          rw [want_lookup, hrk, hknew] at hl
          cases hl
      | none =>
        have hst := get_wait d c i k2 _ _ htab2 hl
        have hem : d.emitted env [.get c i k2] = [] :=
          emitted_of_eq env d _ [] (by rw [run_single]; show (d.Get c i k2).released = _
                                       rw [hst, hens]; rfl)
        refine ⟨⟨{ act.want k2 with waiters := ⟨c, k2⟩ :: (act.want k2).waiters }, rest, ?_,
          want_input act k2, ?_⟩, ?_, hinvk⟩
        · show (d.Get c i k2).activeChains = _
          rw [hst]
        · intro w2 hw2 _
          show w2 ∈ ⟨c, k2⟩ :: (act.want k2).waiters
          rw [want_waiters]
          exact List.mem_cons_of_mem _ hw2
        · intro r hr
          rw [hem] at hr
          simp at hr
    · right
      apply hsuper i rfl hin
      · intro r hr hrin
        obtain ⟨new2, h2, hcase⟩ := get_released_suffix d c i k2
        have h3 : (d.run env [.get c i k2]).released
            = (new2 ++ act.releaseEmpty) ++ d.released := by
          show (d.Get c i k2).released = _
          rw [h2, ensure_released_supersede d act rest i k2 htab hin, List.append_assoc]
        rw [emitted_of_eq env d _ _ h3, List.mem_append] at hr
        rcases hr with hr | hr
        · rcases hcase with rfl | ⟨a, r2, o, -, -, rfl⟩
          · simp at hr
          · simp only [List.mem_singleton] at hr
            rw [hr] at hrin
            exact absurd hrin.symm hin
        · exact hr
      · exact invoked_of_eq env d [.get c i k2] [] (get_invocations d c i k2)
  | backendReturn =>
    obtain ⟨m, hm⟩ := leastOf_isSome act.pending (List.ne_nil_of_mem hkp)
    have hst := backendReturn_some env d act rest m htab hm
    have hem := emitted_of_eq env d [.backendReturn] _ (congrArg Delayer.released hst)
    have hiv : d.invoked env [.backendReturn] = [(act.input, m)] :=
      invoked_of_eq env d [.backendReturn] _ (congrArg Delayer.invocations hst)
    by_cases hmk : m = k
    · right
      refine ⟨some ((env.backend d.strategy).generate act.input m), ?_, ?_, ?_, ?_, ?_⟩
      · intro w2 hw2 hw2k
        rw [hem]
        simp only [List.mem_map, List.mem_filter, decide_eq_true_eq]
        exact ⟨w2, ⟨hw2, hw2k.trans hmk.symm⟩, by rw [hw2k]⟩
      · intro ch hch hchin w2 hw2
        have hch2 : ch ∈ (d.backendReturn env).activeChains := hch
        rw [hst] at hch2
        simp only [List.mem_cons] at hch2
        rcases hch2 with rfl | hch2
        · simp only [List.mem_filter, decide_eq_true_eq] at hw2
          rw [← hmk]
          exact hw2.2
        · have := (hinv.tail_frozen act rest htab ch hch2).2.2
          rw [this] at hw2
          simp at hw2
      · intro r hr _ _
        rw [hem] at hr
        simp only [List.mem_map] at hr
        obtain ⟨w2, -, rfl⟩ := hr
        rfl
      · rw [hiv]
        exact List.count_le_length _ _
      · intro _ _
        rw [hmk]
    · left
      refine ⟨⟨_, rest, congrArg Delayer.activeChains hst, rfl, ?_⟩, ?_, ?_⟩
      · intro w2 hw2 hw2k
        simp only [List.mem_filter, decide_eq_true_eq]
        exact ⟨hw2, by rw [hw2k]; exact fun h => hmk h.symm⟩
      · intro r hr _ hrk
        rw [hem] at hr
        simp only [List.mem_map, List.mem_filter, decide_eq_true_eq] at hr
        obtain ⟨w2, ⟨-, hw2m⟩, rfl⟩ := hr
        exact hmk (hw2m.symm.trans hrk)
      · rw [hiv, List.count_singleton]
        simp only [beq_iff_eq, Prod.mk.injEq, true_and]
        rw [if_neg hmk]
  | backendFail =>
    obtain ⟨m, hm⟩ := leastOf_isSome act.pending (List.ne_nil_of_mem hkp)
    have hst := backendFail_some d act rest m htab hm
    have hem : d.emitted env [.backendFail] = act.releaseEmpty :=
      emitted_of_eq env d [.backendFail] _ (congrArg Delayer.released hst)
    have hiv : d.invoked env [.backendFail] = [(act.input, m)] :=
      invoked_of_eq env d [.backendFail] _ (congrArg Delayer.invocations hst)
    right
    refine ⟨none, ?_, ?_, ?_, ?_, ?_⟩
    · intro w2 hw2 hw2k
      rw [hem]
      unfold ComputationChain.releaseEmpty
      rw [← hw2k]
      exact List.mem_map_of_mem _ hw2
    · intro ch hch hchin w2 hw2
      have hch2 : ch ∈ d.backendFail.activeChains := hch
      rw [hst] at hch2
      simp only [List.mem_cons] at hch2
      rcases hch2 with rfl | hch2
      · simp at hw2
      · have := (hinv.tail_frozen act rest htab ch hch2).2.2
        rw [this] at hw2
        simp at hw2
    · intro r hr _ _
      rw [hem] at hr
      exact (releaseEmpty_output act r hr).1
    · rw [hiv]
      exact List.count_le_length _ _
    · intro h _
      exact absurd rfl h

theorem run_append (env : Collaborators) (d : Delayer) (es1 es2 : List Event) :
    d.run env (es1 ++ es2) = (d.run env es1).run env es2 := by
  unfold Delayer.run
  rw [List.foldl_append]

theorem emitted_append (env : Collaborators) (es1 es2 : List Event) :
    ∀ (d : Delayer),
      d.emitted env (es1 ++ es2) = (d.run env es1).emitted env es2 ++ d.emitted env es1 := by
  induction es1 with
  | nil =>
    intro d
    rw [emitted_nil, List.append_nil]
    rfl
  | cons e es1 ih =>
    intro d
    rw [List.cons_append, emitted_cons, ih, emitted_cons env d e es1, List.append_assoc]
    rfl

theorem invoked_append (env : Collaborators) (es1 es2 : List Event) :
    ∀ (d : Delayer),
      d.invoked env (es1 ++ es2) = (d.run env es1).invoked env es2 ++ d.invoked env es1 := by
  induction es1 with
  | nil =>
    intro d
    rw [invoked_nil, List.append_nil]
    rfl
  | cons e es1 ih =>
    intro d
    rw [List.cons_append, invoked_cons, ih, invoked_cons env d e es1, List.append_assoc]
    rfl

/-- As long as a call `Get(input, k)` stays pending, no backend call for
`(input, k)` has completed. -/
theorem run_waiting_quiet (env : Collaborators) (input : Input) (w : Waiter)
    (es : List Event) :
    ∀ (d : Delayer), Inv env d →
      (∀ p ∈ es.inits, (d.run env p).waits input w = true) →
      (d.invoked env es).count (input, w.target) = 0 := by
  induction es with
  | nil =>
    intro d _ _
    rw [invoked_nil]
    rfl
  | cons e es ih =>
    intro d hinv hp
    rw [List.inits_cons] at hp
    have h0 : d.waits input w = true := hp [] (List.mem_cons_self _ _)
    have h1 : (d.step env e).waits input w = true :=
      hp [e] (List.mem_cons_of_mem _ (List.mem_map_of_mem _ (by
        rw [List.mem_inits]; exact List.nil_prefix)))
    obtain ⟨act, rest, htab, hin, hw⟩ := (waits_iff env d hinv input w).mp h0
    obtain ⟨a2, r2, htab2, hin2, hw2⟩ :=
      (waits_iff env _ (inv_step env d hinv e) input w).mp h1
    have hstep : (d.invoked env [e]).count (input, w.target) = 0 := by
      rcases step_waiter env d hinv act rest htab w.target ⟨w, hw, rfl⟩ e with
        ⟨-, -, h⟩ | ⟨x, -, hgone, -, -, -⟩
      · rw [← hin]; exact h
      · exact absurd rfl (hgone a2 (by rw [htab2]; simp) (hin2.trans hin.symm) w hw2)
    have hrest := ih (d.step env e) (inv_step env d hinv e) (by
      intro p hpm
      exact hp (e :: p) (List.mem_cons_of_mem _ (List.mem_map_of_mem _ hpm)))
    rw [invoked_cons, List.count_append, hrest, hstep]

theorem sinceTouched_snoc (es : List Event) (e : Event) (input : Input) :
    sinceTouched (es ++ [e]) input
      = if e.input? = some input then 0 else sinceTouched es input + 1 := by
  unfold sinceTouched
  rw [List.reverse_append, List.reverse_singleton, List.singleton_append, List.findIdx_cons]
  by_cases h : e.input? = some input
  · simp [h]
  · simp [h]

theorem get_inputs (d : Delayer) (caller : Nat) (input : Input) (k : Iteration) :
    (d.Get caller input k).activeChains.map ComputationChain.input
      = (d.ensure input k).activeChains.map ComputationChain.input := by
  cases htab : (d.ensure input k).activeChains with
  | nil => simp only [Delayer.Get, htab]
  | cons act rest =>
    cases hl : act.lookup k with
    | some o => rw [get_hit d caller input k act rest o htab hl, htab]
    | none => rw [get_wait d caller input k act rest htab hl]; rfl

theorem ensure_inputs (env : Collaborators) (d : Delayer) (hinv : Inv env d) (input : Input)
    (k : Iteration) :
    ∃ others, (d.ensure input k).activeChains.map ComputationChain.input = input :: others ∧
      others.Sublist (d.activeChains.map ComputationChain.input) := by
  cases hch : d.activeChains with
  | nil =>
    rw [ensure_nil d input k hch hinv.cap_pos]
    exact ⟨[], rfl, List.Sublist.refl _⟩
  | cons act rest =>
    by_cases hin : act.input = input
    · rw [ensure_hit d act rest input k hch hin]
      refine ⟨rest.map ComputationChain.input, ?_, ?_⟩
      · show (act.want k).input :: _ = _
        rw [want_input, hin]
      · exact List.sublist_cons_self _ _
    · cases hf : rest.find? (fun ch => decide (ch.input = input)) with
      | some frozen =>
        rw [ensure_frozen d act frozen rest input k hch hin hf]
        have hfin : frozen.input = input := by simpa using List.find?_some hf
        refine ⟨act.input :: (rest.eraseP (fun ch => decide (ch.input = input))).map
          ComputationChain.input, ?_, ?_⟩
        · show (frozen.want k).input :: _ = _
          rw [want_input, hfin]
          rfl
        · exact ((List.eraseP_sublist rest).map _).cons₂ _
      | none =>
        rw [ensure_novel d act rest input k hch hin hf hinv.cap_pos hinv.bounded]
        refine ⟨((act.cancel :: rest).take (d.capacity - 1)).map ComputationChain.input, rfl, ?_⟩
        exact (List.take_sublist _ _).map _

/-- What a request does to the inputs of the table: the requested input comes
first, the others keep their order. -/
theorem step_request_inputs (env : Collaborators) (d : Delayer) (hinv : Inv env d)
    (e : Event) (input : Input) (he : e.input? = some input) :
    ∃ others, (d.step env e).activeChains.map ComputationChain.input = input :: others ∧
      others.Sublist (d.activeChains.map ComputationChain.input) ∧ input ∉ others := by
  have hkey : ∃ others, (d.step env e).activeChains.map ComputationChain.input
      = input :: others ∧ others.Sublist (d.activeChains.map ComputationChain.input) := by
    cases e with
    | request i k =>
      simp only [Event.input?, Option.some.injEq] at he
      subst he
      exact ensure_inputs env d hinv i k
    | peek i k =>
      simp only [Event.input?, Option.some.injEq] at he
      subst he
      exact ensure_inputs env d hinv i k
    | get c i k =>
      simp only [Event.input?, Option.some.injEq] at he
      subst he
      obtain ⟨others, h1, h2⟩ := ensure_inputs env d hinv i k
      exact ⟨others, (get_inputs d c i k).trans h1, h2⟩
    | backendReturn => simp [Event.input?] at he
    | backendFail => simp [Event.input?] at he
  obtain ⟨others, h1, h2⟩ := hkey
  refine ⟨others, h1, h2, ?_⟩
  have hnd := (inv_step env d hinv e).nodup
  rw [h1] at hnd
  exact (List.nodup_cons.mp hnd).1

/-- The background task leaves the inputs of the table as they are. -/
theorem step_background_inputs (env : Collaborators) (d : Delayer) (e : Event)
    (he : e.input? = none) :
    (d.step env e).activeChains.map ComputationChain.input
      = d.activeChains.map ComputationChain.input := by
  cases e with
  | request i k => simp [Event.input?] at he
  | peek i k => simp [Event.input?] at he
  | get c i k => simp [Event.input?] at he
  | backendReturn =>
    show (d.backendReturn env).activeChains.map ComputationChain.input = _
    cases hch : d.activeChains with
    | nil => rw [backendReturn_nil env d hch, hch]
    | cons act rest =>
      cases hm : act.nextMilestone with
      | none => rw [backendReturn_idle env d act rest hch hm, hch]
      | some m => rw [backendReturn_some env d act rest m hch hm]; rfl
  | backendFail =>
    show d.backendFail.activeChains.map ComputationChain.input = _
    cases hch : d.activeChains with
    | nil => rw [backendFail_nil d hch, hch]
    | cons act rest =>
      cases hm : act.nextMilestone with
      | none => rw [backendFail_idle d act rest hch hm, hch]
      | some m => rw [backendFail_some d act rest m hch hm]; rfl

/-- The table is kept most-recently-touched first: one event. -/
theorem recent_step (env : Collaborators) (d : Delayer) (hinv : Inv env d)
    (hist : List Event) (e : Event)
    (h : (d.activeChains.map ComputationChain.input).Pairwise
      (fun a b => sinceTouched hist a < sinceTouched hist b)) :
    ((d.step env e).activeChains.map ComputationChain.input).Pairwise
      (fun a b => sinceTouched (hist ++ [e]) a < sinceTouched (hist ++ [e]) b) := by
  cases he : e.input? with
  | none =>
    rw [step_background_inputs env d e he]
    refine h.imp ?_
    intro a b hab
    rw [sinceTouched_snoc, sinceTouched_snoc, he]
    simp only [reduceCtorEq, if_false]
    omega
  | some input =>
    obtain ⟨others, h1, h2, h3⟩ := step_request_inputs env d hinv e input he
    rw [h1, List.pairwise_cons]
    constructor
    · intro b hb
      have hne : ¬ some input = some b := by
        intro hh
        simp only [Option.some.injEq] at hh
        exact h3 (hh ▸ hb)
      rw [sinceTouched_snoc, sinceTouched_snoc, he, if_pos rfl, if_neg hne]
      omega
    · refine (h.sublist h2).imp_of_mem ?_
      intro a b ha hb hab
      have hna : ¬ some input = some a := by
        intro hh
        simp only [Option.some.injEq] at hh
        exact h3 (hh ▸ ha)
      have hnb : ¬ some input = some b := by
        intro hh
        simp only [Option.some.injEq] at hh
        exact h3 (hh ▸ hb)
      rw [sinceTouched_snoc, sinceTouched_snoc, he, if_neg hna, if_neg hnb]
      omega

/-- The table is kept most-recently-touched first: along a run. -/
theorem recent_run (env : Collaborators) (es : List Event) :
    ∀ (d : Delayer) (hist : List Event), Inv env d →
      (d.activeChains.map ComputationChain.input).Pairwise
        (fun a b => sinceTouched hist a < sinceTouched hist b) →
      ((d.run env es).activeChains.map ComputationChain.input).Pairwise
        (fun a b => sinceTouched (hist ++ es) a < sinceTouched (hist ++ es) b) := by
  induction es with
  | nil =>
    intro d hist _ h
    rw [List.append_nil]
    exact h
  | cons e es ih =>
    intro d hist hinv h
    have := ih (d.step env e) (hist ++ [e]) (inv_step env d hinv e)
      (recent_step env d hinv hist e h)
    rw [List.append_assoc, List.singleton_append] at this
    exact this

/-! ## Calls and their records -/

theorem blocked_eq_false_iff (d : Delayer) (c : Nat) :
    d.blocked c = false ↔ ∀ ch ∈ d.activeChains, ∀ w ∈ ch.waiters, w.caller ≠ c := by
  unfold Delayer.blocked
  rw [List.any_eq_false]
  constructor
  · intro h ch hch w hw
    have := h ch hch
    rw [Bool.not_eq_true, List.any_eq_false] at this
    simpa using this w hw
  · intro h ch hch
    rw [Bool.not_eq_true, List.any_eq_false]
    intro w hw
    simpa using h ch hch w hw

/-- Where the waiters of the table come from, after a request: they were on
the chain of the same input before. -/
theorem ensure_waiters_origin (env : Collaborators) (d : Delayer) (hinv : Inv env d)
    (i : Input) (k : Iteration) :
    ∀ ch2 ∈ (d.ensure i k).activeChains, ∀ w ∈ ch2.waiters,
      ∃ ch ∈ d.activeChains, ch.input = ch2.input ∧ w ∈ ch.waiters := by
  intro ch2 hch2 w hw
  cases hch : d.activeChains with
  | nil =>
    rw [ensure_nil d i k hch hinv.cap_pos] at hch2
    simp only [List.mem_singleton] at hch2
    rw [hch2] at hw
    simp [ComputationChain.create] at hw
  | cons act rest =>
    by_cases hin : act.input = i
    · rw [ensure_hit d act rest i k hch hin] at hch2
      simp only [List.mem_cons] at hch2
      rcases hch2 with rfl | hch2
      · rw [want_waiters] at hw
        exact ⟨act, by simp, (want_input act k).symm, hw⟩
      · exact ⟨ch2, by simp [hch2], rfl, hw⟩
    · cases hf : rest.find? (fun ch => decide (ch.input = i)) with
      | some frozen =>
        rw [ensure_frozen d act frozen rest i k hch hin hf] at hch2
        simp only [List.mem_cons] at hch2
        rcases hch2 with rfl | rfl | hch2
        · rw [want_waiters] at hw
          exact ⟨frozen, by simp [List.mem_of_find?_eq_some hf], (want_input frozen k).symm, hw⟩
        · simp [ComputationChain.cancel] at hw
        · exact ⟨ch2, by simp [List.mem_of_mem_eraseP hch2], rfl, hw⟩
      | none =>
        rw [ensure_novel d act rest i k hch hin hf hinv.cap_pos hinv.bounded] at hch2
        simp only [List.mem_cons] at hch2
        rcases hch2 with rfl | hch2
        · simp [ComputationChain.create] at hw
        · have := List.mem_of_mem_take hch2
          simp only [List.mem_cons] at this
          rcases this with rfl | h2
          · simp [ComputationChain.cancel] at hw
          · exact ⟨ch2, by simp [h2], rfl, hw⟩

/-- Where the waiters of the table come from, after an event: they were on the
chain of the same input before, or the event is the call of `Get` that
registered them, with the caller, the input and the iteration of that call. -/
theorem step_waiters_origin (env : Collaborators) (d : Delayer) (hinv : Inv env d)
    (e : Event) :
    ∀ ch2 ∈ (d.step env e).activeChains, ∀ w ∈ ch2.waiters,
      (∃ ch ∈ d.activeChains, ch.input = ch2.input ∧ w ∈ ch.waiters) ∨
      e = .get w.caller ch2.input w.target := by
  intro ch2 hch2 w hw
  cases e with
  | request i k => exact Or.inl (ensure_waiters_origin env d hinv i k ch2 hch2 w hw)
  | peek i k => exact Or.inl (ensure_waiters_origin env d hinv i k ch2 hch2 w hw)
  | get c i k =>
    obtain ⟨act, rest, htab, hin, hserved⟩ := ensure_head env d hinv i k
    have hch3 : ch2 ∈ (d.Get c i k).activeChains := hch2
    rcases hserved with ⟨o, hl⟩ | ⟨hl, -⟩
    · rw [get_hit d c i k act rest o htab hl] at hch3
      exact Or.inl (ensure_waiters_origin env d hinv i k ch2 hch3 w hw)
    · rw [get_wait d c i k act rest htab hl] at hch3
      simp only [List.mem_cons] at hch3
      rcases hch3 with rfl | hch3
      · simp only [List.mem_cons] at hw
        rcases hw with rfl | hw
        · right
          show Event.get c i k = Event.get c act.input k
          rw [hin]
        · exact Or.inl (ensure_waiters_origin env d hinv i k act (by rw [htab]; simp) w hw)
      · exact Or.inl (ensure_waiters_origin env d hinv i k ch2 (by rw [htab]; simp [hch3]) w hw)
  | backendReturn =>
    left
    have hch3 : ch2 ∈ (d.backendReturn env).activeChains := hch2
    cases hch : d.activeChains with
    | nil =>
      rw [backendReturn_nil env d hch, hch] at hch3
      simp at hch3
    | cons act rest =>
      cases hm : act.nextMilestone with
      | none =>
        rw [backendReturn_idle env d act rest hch hm, hch] at hch3
        exact ⟨ch2, hch3, rfl, hw⟩
      | some m =>
        rw [backendReturn_some env d act rest m hch hm] at hch3
        simp only [List.mem_cons] at hch3
        rcases hch3 with rfl | hch3
        · simp only [List.mem_filter] at hw
          exact ⟨act, by simp, rfl, hw.1⟩
        · exact ⟨ch2, by simp [hch3], rfl, hw⟩
  | backendFail =>
    left
    have hch3 : ch2 ∈ d.backendFail.activeChains := hch2
    cases hch : d.activeChains with
    | nil =>
      rw [backendFail_nil d hch, hch] at hch3
      simp at hch3
    | cons act rest =>
      cases hm : act.nextMilestone with
      | none =>
        rw [backendFail_idle d act rest hch hm, hch] at hch3
        exact ⟨ch2, hch3, rfl, hw⟩
      | some m =>
        rw [backendFail_some d act rest m hch hm] at hch3
        simp only [List.mem_cons] at hch3
        rcases hch3 with rfl | hch3
        · simp at hw
        · exact ⟨ch2, by simp [hch3], rfl, hw⟩

theorem releaseEmpty_origin (ch : ComputationChain) (r : Release) (h : r ∈ ch.releaseEmpty) :
    ∃ w ∈ ch.waiters, r.caller = w.caller ∧ r.input = ch.input ∧ r.iteration = w.target := by
  unfold ComputationChain.releaseEmpty at h
  simp only [List.mem_map] at h
  obtain ⟨w, hw, rfl⟩ := h
  exact ⟨w, hw, rfl, rfl, rfl⟩

/-- Where the records of an event come from: a record releases a waiter that
stood in a registry, with the caller and target of the waiter and the input
of its chain, or it is the immediate return of the call of `Get` that the
event is, with the caller, the input and the iteration of that call. -/
theorem step_emitted_origin (env : Collaborators) (d : Delayer) (e : Event) :
    ∀ r ∈ d.emitted env [e],
      (∃ ch ∈ d.activeChains, ∃ w ∈ ch.waiters,
        r.caller = w.caller ∧ r.input = ch.input ∧ r.iteration = w.target) ∨
      e = .get r.caller r.input r.iteration := by
  intro r hr
  have hens : ∀ (i : Input) (k : Iteration) (new : List Release),
      (d.ensure i k).released = new ++ d.released → ∀ r ∈ new,
      ∃ ch ∈ d.activeChains, ∃ w ∈ ch.waiters,
        r.caller = w.caller ∧ r.input = ch.input ∧ r.iteration = w.target := by
    intro i k new hnew r hr
    cases hch : d.activeChains with
    | nil =>
      have : (d.ensure i k).released = [] ++ d.released := by
        simp only [Delayer.ensure, hch, List.nil_append]
      rw [this] at hnew
      have := List.append_cancel_right hnew
      rw [← this] at hr
      simp at hr
    | cons act rest =>
      by_cases hin : act.input = i
      · have : (d.ensure i k).released = [] ++ d.released := by
          rw [ensure_hit d act rest i k hch hin]; rfl
        rw [this] at hnew
        have := List.append_cancel_right hnew
        rw [← this] at hr
        simp at hr
      · rw [ensure_released_supersede d act rest i k hch hin] at hnew
        have := List.append_cancel_right hnew
        rw [← this] at hr
        obtain ⟨w, hw, h1, h2, h3⟩ := releaseEmpty_origin act r hr
        exact ⟨act, by simp, w, hw, h1, h2, h3⟩
  cases e with
  | request i k =>
    obtain ⟨new, h, -⟩ := ensure_released_suffix d i k
    rw [emitted_of_eq env d [.request i k] new h] at hr
    exact Or.inl (hens i k new h r hr)
  | peek i k =>
    obtain ⟨new, h, -⟩ := ensure_released_suffix d i k
    rw [emitted_of_eq env d [.peek i k] new h] at hr
    exact Or.inl (hens i k new h r hr)
  | get c i k =>
    obtain ⟨new, h, -⟩ := ensure_released_suffix d i k
    obtain ⟨new2, h2, hcase⟩ := get_released_suffix d c i k
    have h3 : (d.run env [.get c i k]).released = (new2 ++ new) ++ d.released := by
      show (d.Get c i k).released = _
      rw [h2, h, List.append_assoc]
    rw [emitted_of_eq env d _ _ h3, List.mem_append] at hr
    rcases hr with hr | hr
    · rcases hcase with rfl | ⟨act, rest, o, -, -, rfl⟩
      · simp at hr
      · simp only [List.mem_singleton] at hr
        right
        rw [hr]
    · exact Or.inl (hens i k new h r hr)
  | backendReturn =>
    left
    cases hch : d.activeChains with
    | nil =>
      have h : (d.run env [.backendReturn]).released = [] ++ d.released := by
        show (d.backendReturn env).released = _
        rw [backendReturn_nil env d hch]; rfl
      rw [emitted_of_eq env d _ _ h] at hr
      simp at hr
    | cons act rest =>
      cases hm : act.nextMilestone with
      | none =>
        have h : (d.run env [.backendReturn]).released = [] ++ d.released := by
          show (d.backendReturn env).released = _
          rw [backendReturn_idle env d act rest hch hm]; rfl
        rw [emitted_of_eq env d _ _ h] at hr
        simp at hr
      | some m =>
        have h := congrArg Delayer.released (backendReturn_some env d act rest m hch hm)
        rw [emitted_of_eq env d [.backendReturn] _ h] at hr
        simp only [List.mem_map, List.mem_filter] at hr
        obtain ⟨w, ⟨hw, -⟩, rfl⟩ := hr
        exact ⟨act, by simp, w, hw, rfl, rfl, rfl⟩
  | backendFail =>
    left
    cases hch : d.activeChains with
    | nil =>
      have h : (d.run env [.backendFail]).released = [] ++ d.released := by
        show d.backendFail.released = _
        rw [backendFail_nil d hch]; rfl
      rw [emitted_of_eq env d _ _ h] at hr
      simp at hr
    | cons act rest =>
      cases hm : act.nextMilestone with
      | none =>
        have h : (d.run env [.backendFail]).released = [] ++ d.released := by
          show d.backendFail.released = _
          rw [backendFail_idle d act rest hch hm]; rfl
        rw [emitted_of_eq env d _ _ h] at hr
        simp at hr
      | some m =>
        have h : (d.run env [.backendFail]).released = act.releaseEmpty ++ d.released := by
          show d.backendFail.released = _
          rw [backendFail_some d act rest m hch hm]
        rw [emitted_of_eq env d _ _ h] at hr
        obtain ⟨w, hw, h1, h2, h3⟩ := releaseEmpty_origin act r hr
        exact ⟨act, by simp, w, hw, h1, h2, h3⟩

/-- While a caller makes no further call, everything it is handed is a return
of the call it has pending. -/
theorem run_caller_bound (env : Collaborators) (c : Nat) (input : Input) (k : Iteration)
    (es : List Event) :
    ∀ (d : Delayer), Inv env d →
      (∀ ch ∈ d.activeChains, ∀ w ∈ ch.waiters, w.caller = c → ch.input = input ∧ w.target = k) →
      (∀ e ∈ es, e.caller? ≠ some c) →
      ∀ r ∈ d.emitted env es, r.caller = c → r.input = input ∧ r.iteration = k := by
  induction es with
  | nil =>
    intro d _ _ _ r hr
    rw [emitted_nil] at hr
    simp at hr
  | cons e es ih =>
    intro d hinv hb hes r hr hrc
    have he := hes e (List.mem_cons_self _ _)
    rw [emitted_cons, List.mem_append] at hr
    rcases hr with hr | hr
    · refine ih (d.step env e) (inv_step env d hinv e) ?_
        (fun e2 h2 => hes e2 (List.mem_cons_of_mem _ h2)) r hr hrc
      intro ch2 hch2 w hw hwc
      rcases step_waiters_origin env d hinv e ch2 hch2 w hw with ⟨ch, hch, hin, hw0⟩ | heq
      · rw [← hin]
        exact hb ch hch w hw0 hwc
      · rw [heq, hwc] at he
        exact absurd rfl he
    · rcases step_emitted_origin env d e r hr with ⟨ch, hch, w, hw, h1, h2, h3⟩ | heq
      · rw [h2, h3]
        exact hb ch hch w hw (h1.symm.trans hrc)
      · rw [heq, hrc] at he
        exact absurd rfl he

/-- Everything handed to a caller after its call `Get(input, k)`, while it
makes no further call, is a return of that call. -/
theorem call_bound (env : Collaborators) (d : Delayer) (hinv : Inv env d) (c : Nat)
    (input : Input) (k : Iteration) (es : List Event) (hidle : d.blocked c = false)
    (hes : ∀ e ∈ es, e.caller? ≠ some c) :
    ∀ r ∈ d.emitted env (.get c input k :: es), r.caller = c →
      r.input = input ∧ r.iteration = k := by
  intro r hr hrc
  have hfree := (blocked_eq_false_iff d c).mp hidle
  rw [emitted_cons, List.mem_append] at hr
  rcases hr with hr | hr
  · refine run_caller_bound env c input k es (d.step env (.get c input k))
      (inv_step env d hinv _) ?_ hes r hr hrc
    intro ch2 hch2 w hw hwc
    rcases step_waiters_origin env d hinv (.get c input k) ch2 hch2 w hw with
      ⟨ch, hch, -, hw0⟩ | heq
    · exact absurd hwc (hfree ch hch w hw0)
    · simp only [Event.get.injEq] at heq
      exact ⟨heq.2.1.symm, heq.2.2.symm⟩
  · rcases step_emitted_origin env d (.get c input k) r hr with
      ⟨ch, hch, w, hw, h1, -, -⟩ | heq
    · exact absurd (h1.symm.trans hrc) (hfree ch hch w hw)
    · simp only [Event.get.injEq] at heq
      exact ⟨heq.2.1.symm, heq.2.2.symm⟩

/-- A call that has returned an output leaves it cached on the active chain,
while no other input is requested. -/
theorem hot_of_emitted (env : Collaborators) (c : Nat) (input : Input) (k : Iteration)
    (o : Output) (es : List Event) :
    ∀ (d : Delayer), Inv env d → (∀ e ∈ es, ∀ i, e.input? = some i → i = input) →
      (⟨c, input, k, some o⟩ : Release) ∈ d.emitted env es →
      (d.run env es).activeInput = some input ∧ (d.run env es).cached input k = some o := by
  induction es with
  | nil =>
    intro d _ _ hr
    rw [emitted_nil] at hr
    simp at hr
  | cons e es ih =>
    intro d hinv hes hr
    rw [emitted_cons, List.mem_append] at hr
    have hes2 : ∀ e2 ∈ es, ∀ i, e2.input? = some i → i = input :=
      fun e2 h2 => hes e2 (List.mem_cons_of_mem _ h2)
    rcases hr with hr | hr
    · exact ih (d.step env e) (inv_step env d hinv e) hes2 hr
    · obtain ⟨ha, hc⟩ := emitted_some_hot env d hinv e c input k o hr
      exact hot_run env input k o es (d.step env e) (inv_step env d hinv e) hes2 ha hc

/-! ## The claims -/

/-- C2: let a caller that has no call pending call `Get(input, k)`, in any
state a Delayer can reach, and let the call return the output `o` (the caller
is handed `o` while it makes no further call), no request for a different
input intervening. Then, whatever requests for the same input, calls and
returns or failures of backend calls follow, `Peek(input, k)` returns `o` at
once and leaves the state as it is, and a second `Get(input, k)`, of any
caller, returns the same `o` at once, as its only release, leaving the chains
as they are (no milestone is scheduled) and making no backend call. -/
theorem cache_hit (env : Collaborators) (d : Delayer) (hd : Reachable env d)
    (c : Nat) (input : Input) (k : Iteration) (es1 es2 : List Event)
    (hidle : d.blocked c = false)
    (hes1 : ∀ e ∈ es1, e.caller? ≠ some c ∧ ∀ i, e.input? = some i → i = input)
    (hes2 : ∀ e ∈ es2, ∀ i, e.input? = some i → i = input)
    (r : Release) (hr : r ∈ d.emitted env (.get c input k :: es1)) (hrc : r.caller = c)
    (o : Output) (ho : r.output = some o) (c2 : Nat) :
    ((d.run env (.get c input k :: (es1 ++ es2))).Peek input k).2 = some o ∧
    ((d.run env (.get c input k :: (es1 ++ es2))).Peek input k).1
      = d.run env (.get c input k :: (es1 ++ es2)) ∧
    (d.run env (.get c input k :: (es1 ++ es2))).emitted env [.get c2 input k]
      = [{ caller := c2, input := input, iteration := k, output := some o }] ∧
    ((d.run env (.get c input k :: (es1 ++ es2))).step env (.get c2 input k)).activeChains
      = (d.run env (.get c input k :: (es1 ++ es2))).activeChains ∧
    ((d.run env (.get c input k :: (es1 ++ es2))).step env (.get c2 input k)).invocations
      = (d.run env (.get c input k :: (es1 ++ es2))).invocations := by
  have hinv := inv_of_reachable env d hd
  obtain ⟨hin, hk⟩ := call_bound env d hinv c input k es1 hidle (fun e he => (hes1 e he).1)
    r hr hrc
  have hreq : r = ⟨c, input, k, some o⟩ := by
    cases r
    simp only at hrc hin hk ho
    rw [hrc, hin, hk, ho]
  rw [hreq] at hr
  have hsame : ∀ e ∈ Event.get c input k :: es1, ∀ i, e.input? = some i → i = input := by
    intro e he
    simp only [List.mem_cons] at he
    rcases he with rfl | he
    · intro i hi
      simp only [Event.input?, Option.some.injEq] at hi
      exact hi.symm
    · exact (hes1 e he).2
  obtain ⟨ha1, hc1⟩ := hot_of_emitted env c input k o _ d hinv hsame hr
  obtain ⟨ha, hc⟩ := hot_run env input k o es2 _ (inv_run env _ d hinv) hes2 ha1 hc1
  have hrun : d.run env (.get c input k :: (es1 ++ es2))
      = (d.run env (.get c input k :: es1)).run env es2 := by
    rw [← List.cons_append, run_append]
  rw [hrun]
  have hinv2 := inv_run env es2 _ (inv_run env (.get c input k :: es1) d hinv)
  have hens := ensure_served env _ hinv2 input k o ha hc
  have hget := get_served env _ hinv2 c2 input k o ha hc
  refine ⟨?_, ?_, ?_, ?_, ?_⟩
  · show (((d.run env (.get c input k :: es1)).run env es2).ensure input k).cached input k
      = some o
    rw [hens]
    exact hc
  · exact hens
  · apply emitted_of_eq
    show (((d.run env (.get c input k :: es1)).run env es2).Get c2 input k).released = _
    rw [hget]
    rfl
  · show (((d.run env (.get c input k :: es1)).run env es2).Get c2 input k).activeChains = _
    rw [hget]
  · show (((d.run env (.get c input k :: es1)).run env es2).Get c2 input k).invocations = _
    rw [hget]

/-- Witness of C2: on `NewDelayer("", 2)`, after a request for the milestone 1
of `[7]`, caller 0 calls `Get([7], 3)` and is served by the second backend
return; a request for a later milestone of `[7]` follows, then `Peek` and a
second `Get` of the same caller hit the cache. -/
theorem cache_hit_witness :
    Reachable toyEnv (toyDelayer.run toyEnv [.request [7] 1]) ∧
    (toyDelayer.run toyEnv [.request [7] 1]).blocked 0 = false ∧
    (⟨0, [7], 3, some [3, 7]⟩ : Release)
      ∈ (toyDelayer.run toyEnv [.request [7] 1]).emitted toyEnv
          (.get 0 [7] 3 :: [.backendReturn, .backendReturn]) ∧
    (((toyDelayer.run toyEnv [.request [7] 1]).run toyEnv
      (.get 0 [7] 3 :: ([.backendReturn, .backendReturn] ++ [.request [7] 5]))).Peek
        [7] 3).2 = some [3, 7] ∧
    ((toyDelayer.run toyEnv [.request [7] 1]).run toyEnv
      (.get 0 [7] 3 :: ([.backendReturn, .backendReturn] ++ [.request [7] 5]))).emitted
        toyEnv [.get 0 [7] 3]
      = [⟨0, [7], 3, some [3, 7]⟩] :=
  ⟨reachable_run toyEnv _ _ (Reachable.fresh "" 2 toyDelayer rfl), by decide, by decide,
   (cache_hit toyEnv (toyDelayer.run toyEnv [.request [7] 1])
      (reachable_run toyEnv _ _ (Reachable.fresh "" 2 toyDelayer rfl)) 0 [7] 3
      [.backendReturn, .backendReturn] [.request [7] 5] (by decide) (by decide) (by decide)
      ⟨0, [7], 3, some [3, 7]⟩ (by decide) rfl [3, 7] rfl 0).1,
   (cache_hit toyEnv (toyDelayer.run toyEnv [.request [7] 1])
      (reachable_run toyEnv _ _ (Reachable.fresh "" 2 toyDelayer rfl)) 0 [7] 3
      [.backendReturn, .backendReturn] [.request [7] 5] (by decide) (by decide) (by decide)
      ⟨0, [7], 3, some [3, 7]⟩ (by decide) rfl [3, 7] rfl 0).2.2.1⟩

/-- C3: in every reachable state, take the calls `Get(input, k)` that are
pending together: any number of them, the waiters with target `k` in the
registry of the chain of `input`, of which there is at least one. Every event
either leaves all of them pending, releasing none and completing no backend
call for `(input, k)`, or releases all of them at once with one and the same
result, completing at most one backend call for `(input, k)`; the common
result is the output the backend generates for `(input, k)` unless the event
is a request for another input (supersession) or a failed backend call, where
it is the empty result for all of them. As long as such a call is pending no
backend call for `(input, k)` has completed, so between its registration and
the event that releases it the backend's generate is invoked at most once for
`(input, k)`. Calls that arrive later are served the same output, with at
most one backend call for `(input, k)` in all, along any interleaving in
which no other input is requested and no backend call fails. -/
theorem single_flight (env : Collaborators) (d : Delayer) (hd : Reachable env d)
    (input : Input) (k : Iteration) (w : Waiter) (hw : d.waits input w = true)
    (hk : w.target = k) :
    (∀ e : Event,
      ((∀ w2, d.waits input w2 = true → w2.target = k →
          (d.step env e).waits input w2 = true) ∧
        (∀ r ∈ d.emitted env [e], r.input = input → r.iteration ≠ k) ∧
        (d.invoked env [e]).count (input, k) = 0) ∨
      (∃ x : Option Output,
        (∀ w2, d.waits input w2 = true → w2.target = k →
          (⟨w2.caller, input, k, x⟩ : Release) ∈ d.emitted env [e] ∧
          (d.step env e).waits input w2 = false) ∧
        (∀ r ∈ d.emitted env [e], r.input = input → r.iteration = k → r.output = x) ∧
        (d.invoked env [e]).count (input, k) ≤ 1 ∧
        (e ≠ .backendFail → (∀ i, e.input? = some i → i = input) →
          x = some ((env.backend d.strategy).generate input k)))) ∧
    (∀ (es : List Event) (e : Event),
      (∀ p ∈ es.inits, (d.run env p).waits input w = true) →
      (d.invoked env (es ++ [e])).count (input, k) ≤ 1) ∧
    (∀ es : List Event,
      (∀ e ∈ es, e ≠ .backendFail ∧ ∀ i, e.input? = some i → i = input) →
      (∀ r ∈ d.emitted env es, r.input = input → r.iteration = k →
        r.output = some ((env.backend d.strategy).generate input k)) ∧
      (d.invoked env es).count (input, k) ≤ 1) := by
  have hinv := inv_of_reachable env d hd
  obtain ⟨act, rest, htab, hin, hwm⟩ := (waits_iff env d hinv input w).mp hw
  subst hin
  have hmem : ∀ w2, d.waits act.input w2 = true → w2 ∈ act.waiters := by
    intro w2 hw2
    obtain ⟨a, r, ha, -, hm⟩ := (waits_iff env d hinv act.input w2).mp hw2
    rw [htab] at ha
    simp only [List.cons.injEq] at ha
    rw [ha.1]
    exact hm
  refine ⟨?_, ?_, ?_⟩
  · intro e
    rcases step_waiter env d hinv act rest htab k ⟨w, hwm, hk⟩ e with
      ⟨⟨a2, r2, htab2, hin2, hkeep⟩, hrec, hcnt⟩ | ⟨x, hrel, hgone, hrec, hcnt, hx⟩
    · left
      refine ⟨?_, hrec, hcnt⟩
      intro w2 hw2 hw2k
      exact (waits_iff env _ (inv_step env d hinv e) act.input w2).mpr
        ⟨a2, r2, htab2, hin2, hkeep w2 (hmem w2 hw2) hw2k⟩
    · right
      refine ⟨x, ?_, hrec, hcnt, hx⟩
      intro w2 hw2 hw2k
      refine ⟨hrel w2 (hmem w2 hw2) hw2k, ?_⟩
      apply waits_eq_false
      intro ch hch hchin hm
      exact hgone ch hch hchin w2 hm hw2k
  · intro es e hp
    subst hk
    have hquiet := run_waiting_quiet env act.input w es d hinv hp
    have hlast : (d.run env es).waits act.input w = true :=
      hp es (by rw [List.mem_inits])
    have hinv2 := inv_run env es d hinv
    obtain ⟨a2, r2, htab2, hin2, hwm2⟩ := (waits_iff env _ hinv2 act.input w).mp hlast
    have hstep : ((d.run env es).invoked env [e]).count (act.input, w.target) ≤ 1 := by
      rw [← hin2]
      rcases step_waiter env _ hinv2 a2 r2 htab2 w.target ⟨w, hwm2, rfl⟩ e with
        ⟨-, -, h⟩ | ⟨x, -, -, -, h, -⟩
      · omega
      · exact h
    rw [invoked_append, List.count_append, hquiet]
    omega
  · intro es hes
    constructor
    · intro r hr hrin hrk
      rw [← hrk]
      exact run_output env d hinv act.input es hes r hr hrin
    · have h := run_invoked_count env act.input k es d hinv hes
      have h2 : (if (d.cached act.input k).isSome = true then 0 else 1) ≤ 1 := by
        split <;> omega
      omega

/-- Witness of C3: on `NewDelayer("", 2)`, after a request for the milestone 1
of `[7]`, two `Get([7], 3)` calls are pending together; a request for a later
milestone of `[7]` and the backend return of the milestone 1 leave them
pending, and along the run in which a third call arrives, the backend returns
twice and a fourth call arrives, every call is handed `[3, 7]`, with one
backend call for `([7], 3)`. -/
theorem single_flight_witness :
    Reachable toyEnv (toyDelayer.run toyEnv [.request [7] 1, .get 0 [7] 3, .get 1 [7] 3]) ∧
    (toyDelayer.run toyEnv [.request [7] 1, .get 0 [7] 3, .get 1 [7] 3]).waits [7] ⟨0, 3⟩ = true ∧
    ((toyDelayer.run toyEnv [.request [7] 1, .get 0 [7] 3, .get 1 [7] 3]).invoked toyEnv
      ([.request [7] 5, .backendReturn] ++ [.backendReturn])).count ([7], 3) ≤ 1 ∧
    (∀ r ∈ (toyDelayer.run toyEnv [.request [7] 1, .get 0 [7] 3, .get 1 [7] 3]).emitted toyEnv
        [.get 2 [7] 3, .backendReturn, .backendReturn, .get 3 [7] 3],
      r.input = [7] → r.iteration = 3 →
      r.output = some ((toyEnv.backend
        (toyDelayer.run toyEnv [.request [7] 1, .get 0 [7] 3, .get 1 [7] 3]).strategy).generate
          [7] 3)) ∧
    (toyDelayer.run toyEnv [.request [7] 1, .get 0 [7] 3, .get 1 [7] 3]).emitted toyEnv
        [.get 2 [7] 3, .backendReturn, .backendReturn, .get 3 [7] 3]
      = [⟨3, [7], 3, some [3, 7]⟩, ⟨2, [7], 3, some [3, 7]⟩, ⟨1, [7], 3, some [3, 7]⟩,
         ⟨0, [7], 3, some [3, 7]⟩] ∧
    (toyDelayer.run toyEnv [.request [7] 1, .get 0 [7] 3, .get 1 [7] 3]).invoked toyEnv
        [.get 2 [7] 3, .backendReturn, .backendReturn, .get 3 [7] 3]
      = [([7], 3), ([7], 1)] :=
  ⟨reachable_run toyEnv _ _ (Reachable.fresh "" 2 toyDelayer rfl),
   by decide,
   (single_flight toyEnv (toyDelayer.run toyEnv [.request [7] 1, .get 0 [7] 3, .get 1 [7] 3])
      (reachable_run toyEnv _ _ (Reachable.fresh "" 2 toyDelayer rfl)) [7] 3 ⟨0, 3⟩
      (by decide) rfl).2.1 [.request [7] 5, .backendReturn] .backendReturn (by decide),
   ((single_flight toyEnv (toyDelayer.run toyEnv [.request [7] 1, .get 0 [7] 3, .get 1 [7] 3])
      (reachable_run toyEnv _ _ (Reachable.fresh "" 2 toyDelayer rfl)) [7] 3 ⟨0, 3⟩
      (by decide) rfl).2.2 [.get 2 [7] 3, .backendReturn, .backendReturn, .get 3 [7] 3]
      (by decide)).1,
   by decide, by decide⟩

/-- C4: in every reachable state, a `Get(inputA, kA)` that is still pending (a
waiter registered on the chain of `inputA`) is released with the empty result
by the very next `Request(inputB, kB)`, `Peek(inputB, kB)` or
`Get(inputB, kB)` with `inputB` different from `inputA`: the release is
recorded as an ordinary return, and no waiter is left on the chain of
`inputA`. -/
theorem supersession_releases_waiter (env : Collaborators) (d : Delayer)
    (hd : Reachable env d) (ch : ComputationChain) (hch : ch ∈ d.activeChains)
    (w : Waiter) (hw : w ∈ ch.waiters) (e : Event) (inputB : Input)
    (he : e.input? = some inputB) (hne : inputB ≠ ch.input) :
    ({ caller := w.caller, input := ch.input, iteration := w.target, output := none } : Release)
      ∈ d.emitted env [e] ∧
    (∀ c ∈ (d.step env e).activeChains, c.input = ch.input → c.waiters = []) := by
  have hinv := inv_of_reachable env d hd
  cases htab : d.activeChains with
  | nil => rw [htab] at hch; simp at hch
  | cons act rest =>
    have hact : ch = act := by
      rw [htab] at hch
      simp only [List.mem_cons] at hch
      rcases hch with h | h
      · exact h
      · have := (hinv.tail_frozen act rest htab ch h).2.2
        rw [this] at hw
        simp at hw
    subst hact
    constructor
    · apply step_supersede_emitted env d e inputB he ch rest htab (fun h => hne h.symm)
      unfold ComputationChain.releaseEmpty
      exact List.mem_map_of_mem _ hw
    · intro c hc hcin
      obtain ⟨a2, r2, htab2, hin2⟩ := step_request_head env d hinv e inputB he
      rw [htab2] at hc
      simp only [List.mem_cons] at hc
      rcases hc with rfl | hc
      · exact absurd (hin2.symm.trans hcin) hne
      · exact ((inv_step env d hinv e).tail_frozen a2 r2 htab2 c hc).2.2

/-- Witness of C4: `Get([7], 3)` is pending when `[8]` is requested. -/
theorem supersession_releases_waiter_witness :
    Reachable toyEnv (toyDelayer.run toyEnv [.get 0 [7] 3]) ∧
    (⟨0, [7], 3, none⟩ : Release)
      ∈ (toyDelayer.run toyEnv [.get 0 [7] 3]).emitted toyEnv [.request [8] 1] ∧
    (∀ c ∈ ((toyDelayer.run toyEnv [.get 0 [7] 3]).step toyEnv (.request [8] 1)).activeChains,
      c.input = [7] → c.waiters = []) :=
  ⟨reachable_run toyEnv _ _ (Reachable.fresh "" 2 toyDelayer rfl),
   supersession_releases_waiter toyEnv (toyDelayer.run toyEnv [.get 0 [7] 3])
     (reachable_run toyEnv _ _ (Reachable.fresh "" 2 toyDelayer rfl))
     ⟨[7], [], [3], [⟨0, 3⟩], false⟩ (by decide) ⟨0, 3⟩ (by decide) (.request [8] 1) [8] rfl
     (by decide)⟩

/-- C7: in every state that a Delayer built with `NewDelayer(ref, capacity)`
reaches (switched to the native backend at once or not), the chain cache holds
at most `capacity` chains, all for distinct inputs; a request (`Request`,
`Peek` or `Get`) for a novel input that arrives when the cache holds
`capacity` chains evicts the least-recently-touched entry and nothing else:
every other chain of the cache was requested (`Request`, `Peek` or `Get` for
its input) more recently in the history of the Delayer than the evicted one;
and the evicted entry is not the active chain, which is the chain of the
requested input, nor, when the capacity is 2 or more, the chain that was
active when the request arrived. -/
theorem cache_bounded_lru (env : Collaborators) (generatorRef : String) (capacity : Int)
    (d0 : Delayer) (h0 : NewDelayer generatorRef capacity = .ok d0) (useGo : Bool)
    (es : List Event) :
    (((if useGo then UseGoVDF d0 else d0).run env es).activeChains.length : Int) ≤ capacity ∧
    (((if useGo then UseGoVDF d0 else d0).run env es).activeChains.map
      ComputationChain.input).Nodup ∧
    ∀ (e : Event) (input : Input), e.input? = some input →
      input ∉ ((if useGo then UseGoVDF d0 else d0).run env es).activeChains.map
        ComputationChain.input →
      (((if useGo then UseGoVDF d0 else d0).run env es).activeChains.length : Int) = capacity →
      ∃ evicted,
        ((if useGo then UseGoVDF d0 else d0).run env es).activeChains.getLast? = some evicted ∧
        (∀ ch ∈ ((if useGo then UseGoVDF d0 else d0).run env es).activeChains,
          ch.input ≠ evicted.input →
          sinceTouched es ch.input < sinceTouched es evicted.input) ∧
        (2 ≤ capacity →
          ((if useGo then UseGoVDF d0 else d0).run env es).activeInput
            ≠ some evicted.input) ∧
        (((if useGo then UseGoVDF d0 else d0).run env es).step env e).activeChains.map
            ComputationChain.input
          = input :: (((if useGo then UseGoVDF d0 else d0).run env es).activeChains.map
              ComputationChain.input).dropLast ∧
        evicted.input ∉ (((if useGo then UseGoVDF d0 else d0).run env es).step env
          e).activeChains.map ComputationChain.input ∧
        (((if useGo then UseGoVDF d0 else d0).run env es).step env e).activeInput
          = some input ∧
        ((((if useGo then UseGoVDF d0 else d0).run env es).step env e).activeChains.length
          : Int) = capacity := by
  have hstart : Reachable env (if useGo then UseGoVDF d0 else d0) := by
    cases useGo with
    | true => exact Reachable.useGo generatorRef capacity d0 h0
    | false => exact Reachable.fresh generatorRef capacity d0 h0
  have hcap0 : ((if useGo then UseGoVDF d0 else d0).capacity : Int) = capacity := by
    obtain ⟨hpos, rfl⟩ := newDelayer_ok generatorRef capacity d0 h0
    cases useGo with
    | true => exact Int.toNat_of_nonneg (by omega)
    | false => exact Int.toNat_of_nonneg (by omega)
  have hempty : (if useGo then UseGoVDF d0 else d0).activeChains = [] := by
    obtain ⟨-, rfl⟩ := newDelayer_ok generatorRef capacity d0 h0
    cases useGo <;> rfl
  generalize (if useGo then UseGoVDF d0 else d0) = start at hstart hcap0 hempty
  have hd := reachable_run env es start hstart
  have hcap : (((start.run env es).capacity : Nat) : Int) = capacity := by
    rw [run_capacity]; exact hcap0
  have hrec := recent_run env es start [] (inv_of_reachable env start hstart)
    (by rw [hempty]; exact List.Pairwise.nil)
  rw [List.nil_append] at hrec
  generalize start.run env es = d at hd hcap hrec
  have hinv := inv_of_reachable env d hd
  refine ⟨by have := hinv.bounded; omega, hinv.nodup, ?_⟩
  intro e input he hnew hfull
  have hfull : d.activeChains.length = d.capacity := by omega
  obtain ⟨act, htab, hin, -, -, -⟩ := step_novel_table env d hinv e input he hnew
  have hne : d.activeChains ≠ [] := by
    intro h0
    rw [h0] at hfull
    have := hinv.cap_pos
    simp at hfull
    omega
  have hinputs : (d.step env e).activeChains.map ComputationChain.input
      = input :: (d.activeChains.map ComputationChain.input).dropLast := by
    rw [htab, List.map_cons, hin, List.map_take, map_input_cancel, List.dropLast_eq_take,
      List.length_map, hfull]
  have hsplit := List.dropLast_append_getLast hne
  refine ⟨d.activeChains.getLast hne, List.getLast?_eq_getLast _ hne, ?_, ?_, hinputs, ?_, ?_,
    ?_⟩
  · intro ch hch hchne
    rw [← hsplit, List.map_append, List.pairwise_append] at hrec
    rw [← hsplit, List.mem_append] at hch
    rcases hch with hch | hch
    · exact hrec.2.2 _ (List.mem_map_of_mem _ hch) _ (by simp)
    · simp only [List.mem_singleton] at hch
      exact absurd (by rw [hch]) hchne
  · intro h2 hact
    have hlast := List.getLast?_eq_getLast _ hne
    generalize d.activeChains.getLast hne = ev at hact hlast
    obtain ⟨act0, rest0, htab0, hin0⟩ := active_head d _ hact
    have hnd := hinv.nodup
    rw [htab0] at hlast hfull hnd
    cases rest0 with
    | nil =>
      simp only [List.length_singleton] at hfull
      omega
    | cons b rest1 =>
      rw [List.getLast?_cons_cons] at hlast
      have hmem := List.mem_of_getLast?_eq_some hlast
      rw [List.map_cons, List.nodup_cons] at hnd
      exact hnd.1 (by rw [hin0]; exact List.mem_map_of_mem _ hmem)
  · rw [hinputs]
    have hnd := hinv.nodup
    rw [← hsplit, List.map_append, List.nodup_append] at hnd
    intro hmem
    simp only [List.mem_cons] at hmem
    rcases hmem with hmem | hmem
    · exact hnew (by rw [← hmem]; exact List.mem_map_of_mem _ (List.getLast_mem hne))
    · rw [← List.map_dropLast] at hmem
      exact hnd.2.2 hmem (by simp)
  · unfold Delayer.activeInput
    rw [htab]
    simp [hin]
  · rw [htab]
    simp only [List.length_cons, List.length_take, List.length_map]
    have := hinv.cap_pos
    omega

/-- Witness of C7: `NewDelayer("", 3)` receives requests for `[1]`, `[2]`,
`[3]` and `[2]` again: the table holds `[2]`, `[3]`, `[1]`, of which `[1]` was
touched least recently, and the request for `[4]` evicts `[1]` and keeps
`[3]`. -/
theorem cache_bounded_lru_witness :
    NewDelayer "" 3 = .ok toyDelayer3 ∧
    (toyDelayer3.run toyEnv toyRequests).activeChains.map ComputationChain.input
      = [[2], [3], [1]] ∧
    sinceTouched toyRequests [2] = 0 ∧
    sinceTouched toyRequests [3] = 1 ∧
    sinceTouched toyRequests [1] = 3 ∧
    ((toyDelayer3.run toyEnv toyRequests).step toyEnv (.request [4] 1)).activeChains.map
      ComputationChain.input = [[4], [2], [3]] ∧
    ∃ evicted,
      (toyDelayer3.run toyEnv toyRequests).activeChains.getLast? = some evicted ∧
      (∀ ch ∈ (toyDelayer3.run toyEnv toyRequests).activeChains,
        ch.input ≠ evicted.input →
        sinceTouched toyRequests ch.input < sinceTouched toyRequests evicted.input) ∧
      ((2 : Int) ≤ 3 →
        (toyDelayer3.run toyEnv toyRequests).activeInput ≠ some evicted.input) ∧
      ((toyDelayer3.run toyEnv toyRequests).step toyEnv (.request [4] 1)).activeChains.map
          ComputationChain.input
        = [4] :: ((toyDelayer3.run toyEnv toyRequests).activeChains.map
            ComputationChain.input).dropLast ∧
      evicted.input ∉ ((toyDelayer3.run toyEnv toyRequests).step toyEnv
          (.request [4] 1)).activeChains.map ComputationChain.input ∧
      ((toyDelayer3.run toyEnv toyRequests).step toyEnv (.request [4] 1)).activeInput
        = some [4] ∧
      ((((toyDelayer3.run toyEnv toyRequests).step toyEnv
          (.request [4] 1)).activeChains.length : Int) = 3) :=
  ⟨rfl, by decide, by decide, by decide, by decide, by decide,
   (cache_bounded_lru toyEnv "" 3 toyDelayer3 rfl false toyRequests).2.2
      (.request [4] 1) [4] rfl (by decide) (by decide)⟩

/-- C8: in every reachable state of a Delayer at most one chain is actively
advancing. A request (`Request`, `Peek` or `Get`) for a novel input puts a new,
advancing chain for that input at the head of the table as the active one;
behind it stand the chains of the table as they were, the previously active
one now marked cancelled and no longer advancing, every other one untouched
(already frozen), each with the cache it had reached, the least recently
touched one dropped when the table was full. -/
theorem one_active_chain (env : Collaborators) (d : Delayer) (hd : Reachable env d) :
    (d.activeChains.filter ComputationChain.advancing).length ≤ 1 ∧
    ∀ (e : Event) (input : Input), e.input? = some input →
      input ∉ d.activeChains.map ComputationChain.input →
      (∃ act, (d.step env e).activeChains =
          act :: (d.activeChains.map ComputationChain.cancel).take (d.capacity - 1) ∧
        act.input = input ∧ act.cancelled = false ∧ act.advancing = true) ∧
      (∀ ch ∈ d.activeChains, ch.cancel.cancelled = true ∧ ch.cancel.advancing = false ∧
        ch.cancel.cache = ch.cache ∧
        ch.cancel.highestCompletedIteration = ch.highestCompletedIteration) ∧
      (∀ ch ∈ d.activeChains.tail, ch.cancel = ch) ∧
      ((d.step env e).activeChains.filter ComputationChain.advancing).length = 1 := by
  have hinv := inv_of_reachable env d hd
  have hone : ∀ (d : Delayer), Inv env d →
      (d.activeChains.filter ComputationChain.advancing).length ≤ 1 := by
    intro d hinv
    cases hch : d.activeChains with
    | nil => simp
    | cons act rest =>
      have hrest : rest.filter ComputationChain.advancing = [] := by
        rw [List.filter_eq_nil_iff]
        intro ch hmem
        rw [advancing_of_frozen ch (hinv.tail_frozen act rest hch ch hmem)]
        simp
      rw [List.filter_cons]
      split
      · rw [hrest]; simp
      · rw [hrest]; simp
  refine ⟨hone d hinv, ?_⟩
  intro e input he hnew
  obtain ⟨act, htab, hin, hc, -, hadv⟩ := step_novel_table env d hinv e input he hnew
  refine ⟨⟨act, htab, hin, hc, hadv⟩, ?_, ?_, ?_⟩
  · intro ch _
    exact ⟨rfl, rfl, rfl, rfl⟩
  · intro ch hmem
    cases hch : d.activeChains with
    | nil => rw [hch] at hmem; simp at hmem
    | cons a rest =>
      rw [hch] at hmem
      exact cancel_of_frozen ch (hinv.tail_frozen a rest hch ch hmem)
  · have hle := hone (d.step env e) (inv_step env d hinv e)
    rw [htab, List.filter_cons, hadv] at hle ⊢
    simp only [if_true, List.length_cons] at hle ⊢
    omega

/-- Witness of C8: the chain of `[7]` is advancing with a waiter when `[8]` is
requested for the first time. -/
theorem one_active_chain_witness :
    Reachable toyEnv (toyDelayer.run toyEnv [.get 0 [7] 3]) ∧
    [8] ∉ (toyDelayer.run toyEnv [.get 0 [7] 3]).activeChains.map ComputationChain.input ∧
    (∃ act, ((toyDelayer.run toyEnv [.get 0 [7] 3]).step toyEnv (.request [8] 1)).activeChains =
        act :: ((toyDelayer.run toyEnv [.get 0 [7] 3]).activeChains.map
          ComputationChain.cancel).take ((toyDelayer.run toyEnv [.get 0 [7] 3]).capacity - 1) ∧
      act.input = [8] ∧ act.cancelled = false ∧ act.advancing = true) :=
  ⟨reachable_run toyEnv _ _ (Reachable.fresh "" 2 toyDelayer rfl), by decide,
   ((one_active_chain toyEnv (toyDelayer.run toyEnv [.get 0 [7] 3])
      (reachable_run toyEnv _ _ (Reachable.fresh "" 2 toyDelayer rfl))).2
      (.request [8] 1) [8] rfl (by decide)).1⟩

/-! `Verify` is the check of the selected backend (§4.5), a function of the
strategy and of its three arguments. What a backend answers on an output of
mismatched length or of malformed bytes, and whether its call can raise, is
decided by the code of `Verify` and of the backends; neither is part of the
sources, and the specification (§4.1, §6) gives `verify` as a boolean function
without a notion of length or of well-formed bytes, so that property is not
stated here. -/

/-- C10: `NewDelayer(generatorRef, capacity)` fails fatally for every capacity
that is zero or negative, and for every positive capacity returns a Delayer
of that capacity with an empty cache, nothing released, no backend call made
and the External strategy selected. -/
theorem newDelayer_capacity (generatorRef : String) (capacity : Int) :
    (capacity ≤ 0 → ∃ msg, NewDelayer generatorRef capacity = .error msg) ∧
    (0 < capacity → ∃ d, NewDelayer generatorRef capacity = .ok d ∧
      d.activeChains = [] ∧ d.released = [] ∧ d.invocations = [] ∧
      (d.capacity : Int) = capacity ∧ d.strategy = .External generatorRef) := by
  constructor
  · intro h
    exact ⟨_, by unfold NewDelayer; rw [if_pos h]⟩
  · intro h
    refine ⟨_, by unfold NewDelayer; rw [if_neg (by omega)], rfl, rfl, rfl, ?_, rfl⟩
    exact Int.toNat_of_nonneg (by omega)

/-- Witness of C10: capacity 0 is rejected, capacity 32 gives an empty cache. -/
theorem newDelayer_capacity_witness :
    ((0 : Int) ≤ 0 ∧ ∃ msg, NewDelayer "" 0 = .error msg) ∧
    ((0 : Int) < 32 ∧ ∃ d, NewDelayer "" 32 = .ok d ∧
      d.activeChains = [] ∧ d.released = [] ∧ d.invocations = [] ∧
      (d.capacity : Int) = 32 ∧ d.strategy = .External "") :=
  ⟨⟨by decide, (newDelayer_capacity "" 0).1 (by decide)⟩,
   ⟨by decide, (newDelayer_capacity "" 32).2 (by decide)⟩⟩

end Vdf

namespace dccs

/-! ## Machine integers -/

theorem uint64Size_pos : 0 < uint64Size := by
  unfold uint64Size
  positivity

theorem bigUint64_zero : bigUint64 0 = 0 := by
  simp [bigUint64]

theorem uint64Add_of_lt (a b : Nat) (h : a + b < uint64Size) : uint64Add a b = a + b := by
  unfold uint64Add
  exact Nat.mod_eq_of_lt h

/-! ## Looking a header up by its hash -/

theorem firstWithHash_eq_none (d : Dccs) (hash : Hash) :
    ∀ (parents : List Header),
      firstWithHash d hash parents = none ↔ ∀ p ∈ parents, d.hashOf p ≠ hash
  | [] => by simp [firstWithHash]
  | parent :: parents => by
    unfold firstWithHash
    by_cases h : d.hashOf parent = hash
    · simp [h]
    · simp [h, firstWithHash_eq_none d hash parents]

theorem firstWithHash_first (d : Dccs) (hash : Hash) (parent : Header) (post : List Header)
    (hp : d.hashOf parent = hash) :
    ∀ (pre : List Header), (∀ p ∈ pre, d.hashOf p ≠ hash) →
      firstWithHash d hash (pre ++ parent :: post) = some parent
  | [], _ => by simp [firstWithHash, hp]
  | q :: pre, hpre => by
    have hq : d.hashOf q ≠ hash := hpre q (List.mem_cons_self _ _)
    have := firstWithHash_first d hash parent post hp pre
      (fun p h => hpre p (List.mem_cons_of_mem _ h))
    simp [firstWithHash, hq, this]

/-- C11: `getAvailableHeaderByHash(hash, header, parents, chain)` returns
`header` when it is non-nil and its hash is `hash`; otherwise what
`chain.GetHeaderByHash(hash)` returns when that is non-nil; otherwise the
first element of `parents` whose hash is `hash`; and it returns nil exactly
when none of the three applies. -/
theorem getAvailableHeaderByHash_cases (d : Dccs) (hash : Hash) (header : Option Header)
    (parents : List Header) (chain : ChainReader) :
    (∀ h, header = some h → d.hashOf h = hash →
      getAvailableHeaderByHash d hash header parents chain = some h) ∧
    ((∀ h, header = some h → d.hashOf h ≠ hash) →
      ∀ found, chain.GetHeaderByHash hash = some found →
        getAvailableHeaderByHash d hash header parents chain = some found) ∧
    ((∀ h, header = some h → d.hashOf h ≠ hash) → chain.GetHeaderByHash hash = none →
      ∀ pre parent post, parents = pre ++ parent :: post →
        (∀ p ∈ pre, d.hashOf p ≠ hash) → d.hashOf parent = hash →
        getAvailableHeaderByHash d hash header parents chain = some parent) ∧
    (getAvailableHeaderByHash d hash header parents chain = none ↔
      (∀ h, header = some h → d.hashOf h ≠ hash) ∧ chain.GetHeaderByHash hash = none ∧
        ∀ p ∈ parents, d.hashOf p ≠ hash) := by
  have hrest : (∀ h, header = some h → d.hashOf h ≠ hash) →
      getAvailableHeaderByHash d hash header parents chain =
        match chain.GetHeaderByHash hash with
        | some found => some found
        | none => firstWithHash d hash parents := by
    intro hne
    unfold getAvailableHeaderByHash
    cases header with
    | none => rfl
    | some h => simp only [if_neg (hne h rfl)]
  refine ⟨?_, ?_, ?_, ?_⟩
  · intro h hh heq
    subst hh
    simp [getAvailableHeaderByHash, heq]
  · intro hne found hfound
    rw [hrest hne, hfound]
  · intro hne hnone pre parent post hsplit hpre hp
    rw [hrest hne, hnone, hsplit]
    exact firstWithHash_first d hash parent post hp pre hpre
  · constructor
    · intro hres
      have hne : ∀ h, header = some h → d.hashOf h ≠ hash := by
        intro h hh heq
        subst hh
        simp [getAvailableHeaderByHash, heq] at hres
      rw [hrest hne] at hres
      cases hc : chain.GetHeaderByHash hash with
      | some found => rw [hc] at hres; cases hres
      | none =>
        rw [hc] at hres
        exact ⟨hne, rfl, (firstWithHash_eq_none d hash parents).mp hres⟩
    · rintro ⟨hne, hnone, hparents⟩
      rw [hrest hne, hnone]
      exact (firstWithHash_eq_none d hash parents).mpr hparents

/-- Witness of C11: the header is nil, the chain does not know the hash, the
second of three parents is the first one with the hash. -/
theorem getAvailableHeaderByHash_cases_witness :
    (∀ h, (none : Option Header) = some h → toyDccs.hashOf h ≠ 17) ∧
    emptyChain.GetHeaderByHash 17 = none ∧
    (∀ p ∈ [toyHeader 1 4 none 0], toyDccs.hashOf p ≠ 17) ∧
    toyDccs.hashOf (toyHeader 1 5 none 0) = 17 ∧
    getAvailableHeaderByHash toyDccs 17 none
      ([toyHeader 1 4 none 0] ++ toyHeader 1 5 none 0 :: [toyHeader 1 5 none 7]) emptyChain
      = some (toyHeader 1 5 none 0) :=
  ⟨(by intro h hh; cases hh), rfl, (by decide), (by decide),
   (getAvailableHeaderByHash_cases toyDccs 17 none
      ([toyHeader 1 4 none 0] ++ toyHeader 1 5 none 0 :: [toyHeader 1 5 none 7])
      emptyChain).2.2.1
      (by intro h hh; cases hh) rfl [toyHeader 1 4 none 0] (toyHeader 1 5 none 0)
      [toyHeader 1 5 none 7] rfl (by decide) (by decide)⟩

/-! ## Basic checks of a header -/

/-- C12, as stated, fails for a block number that does not fit in 64 bits: the
header has `Number = 2^64` (which is greater than 0 and is not the genesis)
and a nil `Difficulty`, passes the three earlier checks, and `verifyHeader2`
does not answer `errInvalidDifficulty` but accepts it. -/
theorem verifyHeader2_accepts_nil_difficulty :
    (toyHeader 18446744073709551616 5 none 0).Number = some 18446744073709551616 ∧
    (toyHeader 18446744073709551616 5 none 0).Difficulty = none ∧
    (toyHeader 18446744073709551616 5 none 0).Time ≤ 100 ∧
    toyDccs.extraVanity + toyDccs.extraSeal
      ≤ (toyHeader 18446744073709551616 5 none 0).Extra.length ∧
    verifyHeader2 toyDccs emptyChain 100 (toyHeader 18446744073709551616 5 none 0) []
      = .ok () := by
  decide

/-- C12 (amended): `verifyHeader2` rejects a header by the first failing basic
check, in this order: `errUnknownBlock` when `Number` is nil; `ErrFutureBlock`
when `Time` is greater than the clock reading; `errMissingVanity` when
`len(Extra) < extraVanity`; `errMissingSignature` when
`len(Extra) < extraVanity+extraSeal`; `errInvalidDifficulty` when
`Number.Uint64() > 0` and `Difficulty` is nil. Hence every header it accepts
has a non-nil `Number`, `Time` not in the future, at least
`extraVanity+extraSeal` bytes of `Extra` and, unless `Number.Uint64()` is 0, a
non-nil `Difficulty`. -/
theorem verifyHeader2_basic_checks (d : Dccs) (chain : ChainReader) (now : Nat)
    (header : Header) (parents : List Header) :
    (header.Number = none →
      verifyHeader2 d chain now header parents = .error .errUnknownBlock) ∧
    (∀ n, header.Number = some n →
      (now < header.Time →
        verifyHeader2 d chain now header parents = .error .ErrFutureBlock) ∧
      (header.Time ≤ now → header.Extra.length < d.extraVanity →
        verifyHeader2 d chain now header parents = .error .errMissingVanity) ∧
      (header.Time ≤ now → d.extraVanity ≤ header.Extra.length →
        header.Extra.length < d.extraVanity + d.extraSeal →
        verifyHeader2 d chain now header parents = .error .errMissingSignature) ∧
      (header.Time ≤ now → d.extraVanity + d.extraSeal ≤ header.Extra.length →
        0 < bigUint64 n → header.Difficulty = none →
        verifyHeader2 d chain now header parents = .error .errInvalidDifficulty)) ∧
    (verifyHeader2 d chain now header parents = .ok () →
      ∃ n, header.Number = some n ∧ header.Time ≤ now ∧
        d.extraVanity + d.extraSeal ≤ header.Extra.length ∧
        (bigUint64 n ≠ 0 → header.Difficulty ≠ none)) := by
  refine ⟨?_, ?_, ?_⟩
  · intro h
    simp [verifyHeader2, h]
  · intro n hn
    refine ⟨?_, ?_, ?_, ?_⟩
    · intro h1
      simp [verifyHeader2, hn, h1]
    · intro h1 h2
      simp [verifyHeader2, hn, Nat.not_lt.mpr h1, h2]
    · intro h1 h2 h3
      simp [verifyHeader2, hn, Nat.not_lt.mpr h1, Nat.not_lt.mpr h2, h3]
    · intro h1 h2 h3 h4
      have h5 : ¬ header.Extra.length < d.extraVanity := by omega
      have h6 : ¬ header.Extra.length < d.extraVanity + d.extraSeal := by omega
      simp [verifyHeader2, hn, Nat.not_lt.mpr h1, h5, h6, h3, h4]
  · intro hok
    unfold verifyHeader2 at hok
    cases hn : header.Number with
    | none => rw [hn] at hok; cases hok
    | some n =>
      rw [hn] at hok
      simp only at hok
      split at hok
      · cases hok
      · split at hok
        · cases hok
        · split at hok
          · cases hok
          · split at hok
            · cases hok
            · rename_i h1 h2 h3 h4
              refine ⟨n, rfl, by omega, by omega, ?_⟩
              intro hne hd
              exact h4 ⟨Nat.pos_of_ne_zero hne, hd⟩

/-- Witness of C12: a header of number 1 without difficulty. -/
theorem verifyHeader2_basic_checks_witness :
    (toyHeader 1 5 none 0).Number = some 1 ∧ (toyHeader 1 5 none 0).Time ≤ 100 ∧
    toyDccs.extraVanity + toyDccs.extraSeal ≤ (toyHeader 1 5 none 0).Extra.length ∧
    0 < bigUint64 1 ∧ (toyHeader 1 5 none 0).Difficulty = none ∧
    verifyHeader2 toyDccs emptyChain 100 (toyHeader 1 5 none 0) []
      = .error .errInvalidDifficulty :=
  ⟨rfl, (by decide), (by decide), (by decide), rfl,
   ((verifyHeader2_basic_checks toyDccs emptyChain 100 (toyHeader 1 5 none 0) []).2.1 1
      rfl).2.2.2 (by decide) (by decide) (by decide) rfl⟩

/-! ## The genesis block -/

/-- C13: the genesis block is always valid: `verifyCascadingFields2` returns
nil for every header whose `Number` is 0, whatever the engine, the chain, the
`parents` argument and the other fields of the header are (timestamp, `Nonce`,
`MixDigest`, `Extra`): the result does not depend on any parent or sealing
queue that could be looked up. -/
theorem genesis_always_valid (d : Dccs) (chain : ChainReader) (header : Header)
    (parents : List Header) (h : header.Number = some 0) :
    verifyCascadingFields2 d chain header parents = .ok () := by
  simp [verifyCascadingFields2, h, bigUint64_zero]

/-- Witness of C13: a genesis header with a wrong parent in `parents`, a
timestamp before the parent's, a non-zero nonce and an empty `Extra`. -/
theorem genesis_always_valid_witness :
    ({ toyHeader 0 1 none 0 with Nonce := 3, MixDigest := 4, Extra := [] } : Header).Number
      = some 0 ∧
    verifyCascadingFields2 toyDccs emptyChain
      { toyHeader 0 1 none 0 with Nonce := 3, MixDigest := 4, Extra := [] }
      [toyHeader 5 100 none 0] = .ok () :=
  ⟨rfl, genesis_always_valid toyDccs emptyChain
    { toyHeader 0 1 none 0 with Nonce := 3, MixDigest := 4, Extra := [] }
    [toyHeader 5 100 none 0] rfl⟩

/-- C14: verifying or sealing the genesis block is not supported: for every
header whose `Number` is 0, `verifySeal2` returns `errUnknownBlock` and
`seal2` returns `errUnknownBlock`, whatever the sealing queue and the signer
are; `seal2` then has not signed and has started no goroutine, so that nothing
is sent on `results`. -/
theorem genesis_seal_unsupported (d : Dccs) (chain : ChainReader) :
    (∀ (header : Header) (parents : List Header), header.Number = some 0 →
      verifySeal2 d chain header parents = .error .errUnknownBlock) ∧
    (∀ (block : Block), block.header.Number = some 0 →
      seal2 d chain block
        = { result := .error .errUnknownBlock, signed := false, offered := none }) := by
  constructor
  · intro header parents h
    simp [verifySeal2, h, bigUint64_zero]
  · intro block h
    simp [seal2, h, bigUint64_zero]

/-- Witness of C14: the genesis header of the toy engine, with and without a
block around it. -/
theorem genesis_seal_unsupported_witness :
    (toyHeader 0 5 (some 2) 0).Number = some 0 ∧
    verifySeal2 toyDccs emptyChain (toyHeader 0 5 (some 2) 0) [] = .error .errUnknownBlock ∧
    seal2 toyDccs emptyChain { header := toyHeader 0 5 (some 2) 0, transactions := [1] }
      = { result := .error .errUnknownBlock, signed := false, offered := none } :=
  ⟨rfl,
   (genesis_seal_unsupported toyDccs emptyChain).1 (toyHeader 0 5 (some 2) 0) [] rfl,
   (genesis_seal_unsupported toyDccs emptyChain).2
     { header := toyHeader 0 5 (some 2) 0, transactions := [1] } rfl⟩

/-! ## The timestamp of a block and of its parent -/

/-- C15, as stated, fails in two ways. The sum `parent.Time + Period` wraps
around: the parent has `Time = 2^64 - 1`, the period is 2, and the header of
number 1 with `Time = 5` is accepted. And a `Number` that is positive but a
multiple of `2^64` is taken for the genesis: the header of number `2^64` with
`Time = 0` is accepted on top of a parent with `Time = 100`. -/
theorem timestamp_check_wraps :
    verifyCascadingFields2 toyDccs emptyChain
        (toyHeader 1 5 (some 2) (toyDccs.hashOf (toyHeader 0 18446744073709551615 none 0)))
        [toyHeader 0 18446744073709551615 none 0] = .ok () ∧
    (toyHeader 1 5 (some 2) (toyDccs.hashOf (toyHeader 0 18446744073709551615 none 0))).Time
      < (toyHeader 0 18446744073709551615 none 0).Time + toyDccs.Period ∧
    verifyCascadingFields2 toyDccs emptyChain
        (toyHeader 18446744073709551616 0 (some 2)
          (toyDccs.hashOf (toyHeader 18446744073709551615 100 none 0)))
        [toyHeader 18446744073709551615 100 none 0] = .ok () ∧
    (toyHeader 18446744073709551616 0 (some 2)
        (toyDccs.hashOf (toyHeader 18446744073709551615 100 none 0))).Time
      < (toyHeader 18446744073709551615 100 none 0).Time + toyDccs.Period := by
  decide

/-- C15 (amended): for every header with `Number.Uint64() > 0` that
`verifyCascadingFields2` accepts, `header.Time` is at least
`parent.Time + Period` computed in `uint64` (modulo `2^64`), where `parent` is
the header it was checked against; that is `parent.Time + Period` as natural
numbers whenever this sum is below `2^64`. A header whose parent is known
(right number and hash) and whose `Time` is below the `uint64` sum is rejected
with `ErrInvalidTimestamp`. -/
theorem timestamp_not_too_close (d : Dccs) (chain : ChainReader) (header : Header)
    (parents : List Header) (n : Int) (hn : header.Number = some n)
    (hpos : 0 < bigUint64 n) :
    (verifyCascadingFields2 d chain header parents = .ok () →
      ∃ parent, parentOf chain header parents (bigUint64 n) = some parent ∧
        uint64Add parent.Time d.Period ≤ header.Time ∧
        (parent.Time + d.Period < uint64Size → parent.Time + d.Period ≤ header.Time)) ∧
    (∀ parent pn, parentOf chain header parents (bigUint64 n) = some parent →
      parent.Number = some pn → bigUint64 pn = uint64Pred (bigUint64 n) →
      d.hashOf parent = header.ParentHash →
      header.Time < uint64Add parent.Time d.Period →
      verifyCascadingFields2 d chain header parents = .error .ErrInvalidTimestamp) := by
  have hne : ¬ bigUint64 n = 0 := by omega
  constructor
  · intro hok
    unfold verifyCascadingFields2 at hok
    rw [hn] at hok
    simp only [if_neg hne] at hok
    cases hp : parentOf chain header parents (bigUint64 n) with
    | none => rw [hp] at hok; cases hok
    | some parent =>
      rw [hp] at hok
      simp only at hok
      cases hpn : parent.Number with
      | none => rw [hpn] at hok; cases hok
      | some pn =>
        rw [hpn] at hok
        simp only at hok
        split at hok
        · cases hok
        · split at hok
          · cases hok
          · rename_i h1 h2
            refine ⟨parent, rfl, by omega, ?_⟩
            intro hlt
            rw [uint64Add_of_lt _ _ hlt] at h2
            omega
  · intro parent pn hp hpn hnum hhash htime
    unfold verifyCascadingFields2
    rw [hn]
    simp only [if_neg hne, hp, hpn]
    rw [if_neg (by simp [hnum, hhash]), if_pos htime]

/-- Witness of C15: a header of number 1 with `Time = 5` on top of a parent
with `Time = 4`, period 2. -/
theorem timestamp_not_too_close_witness :
    (toyHeader 1 5 (some 2) (toyDccs.hashOf (toyHeader 0 4 none 0))).Number = some 1 ∧
    0 < bigUint64 1 ∧
    parentOf emptyChain (toyHeader 1 5 (some 2) (toyDccs.hashOf (toyHeader 0 4 none 0)))
      [toyHeader 0 4 none 0] (bigUint64 1) = some (toyHeader 0 4 none 0) ∧
    (toyHeader 0 4 none 0).Number = some 0 ∧ bigUint64 0 = uint64Pred (bigUint64 1) ∧
    (toyHeader 1 5 (some 2) (toyDccs.hashOf (toyHeader 0 4 none 0))).Time
      < uint64Add (toyHeader 0 4 none 0).Time toyDccs.Period ∧
    verifyCascadingFields2 toyDccs emptyChain
      (toyHeader 1 5 (some 2) (toyDccs.hashOf (toyHeader 0 4 none 0)))
      [toyHeader 0 4 none 0] = .error .ErrInvalidTimestamp :=
  ⟨rfl, (by decide), (by decide), rfl, (by decide), (by decide),
   (timestamp_not_too_close toyDccs emptyChain
      (toyHeader 1 5 (some 2) (toyDccs.hashOf (toyHeader 0 4 none 0)))
      [toyHeader 0 4 none 0] 1 rfl (by decide)).2 (toyHeader 0 4 none 0) 0 (by decide) rfl
      (by decide) rfl (by decide)⟩

/-! ## The difficulty of a sealed header -/

theorem verifySeal2_ok (d : Dccs) (chain : ChainReader) (header : Header)
    (parents : List Header) (h : verifySeal2 d chain header parents = .ok ()) :
    ∃ n queue signer difficulty,
      header.Number = some n ∧ 0 < bigUint64 n ∧
      d.getSealingQueue header.ParentHash parents chain = .ok queue ∧
      d.ecrecover header = .ok signer ∧
      queue.isActive signer = true ∧ queue.isRecentlySigned signer = false ∧
      header.Difficulty = some difficulty ∧
      bigUint64 difficulty = queue.difficulty signer
        (fun hash => getAvailableHeaderByHash d hash (some header) parents chain) := by
  unfold verifySeal2 at h
  cases hn : header.Number with
  | none => rw [hn] at h; cases h
  | some n =>
    rw [hn] at h
    simp only at h
    split at h
    · cases h
    · rename_i hne
      cases hq : d.getSealingQueue header.ParentHash parents chain with
      | error e => rw [hq] at h; cases h
      | ok queue =>
        rw [hq] at h
        simp only at h
        cases hs : d.ecrecover header with
        | error e => rw [hs] at h; cases h
        | ok signer =>
          rw [hs] at h
          simp only at h
          split at h
          · cases h
          · split at h
            · cases h
            · rename_i hact hrec
              cases hd : header.Difficulty with
              | none => rw [hd] at h; cases h
              | some difficulty =>
                rw [hd] at h
                simp only at h
                split at h
                · cases h
                · rename_i hdiff
                  refine ⟨n, queue, signer, difficulty, rfl, by omega, rfl, rfl, ?_, ?_, rfl, ?_⟩
                  · simpa using hact
                  · simpa using hrec
                  · simpa using hdiff

theorem bigUint64_of_range (x : Int) (h0 : 0 ≤ x) (h1 : x < 2 ^ 64) :
    (bigUint64 x : Int) = x := by
  unfold bigUint64 uint64Size
  have hlt : x.natAbs < 2 ^ 64 := by omega
  rw [Nat.mod_eq_of_lt hlt]
  omega

/-- C16, as stated, fails in two ways. The signer of the header is address
`7`, active in the sealing queue and not a recent signer, and the queue gives
it difficulty 2: `verifySeal2` accepts the header with
`Difficulty = 2^64 + 2` and the one with `Difficulty = -2` (it rejects
`Difficulty = 3` with `errInvalidDifficulty`). And a header that is not
accepted need not get one of the three errors: the genesis header whose
signer, address `8`, is not active in the queue gets `errUnknownBlock`. -/
theorem verifySeal2_accepts_wrong_difficulty :
    toyDccs.ecrecover (toyHeader 1 5 (some 18446744073709551618) 0) = .ok 7 ∧
    toyQueue.isActive 7 = true ∧ toyQueue.isRecentlySigned 7 = false ∧
    toyQueue.difficulty 7
        (fun hash => getAvailableHeaderByHash toyDccs hash
          (some (toyHeader 1 5 (some 18446744073709551618) 0)) [] emptyChain) = 2 ∧
    verifySeal2 toyDccs emptyChain (toyHeader 1 5 (some 18446744073709551618) 0) []
      = .ok () ∧
    verifySeal2 toyDccs emptyChain (toyHeader 1 5 (some (-2)) 0) [] = .ok () ∧
    verifySeal2 toyDccs emptyChain (toyHeader 1 5 (some 3) 0) []
      = .error .errInvalidDifficulty ∧
    toyQueue.isActive 8 = false ∧
    verifySeal2 { toyDccs with ecrecover := fun _ => .ok 8 } emptyChain
        (toyHeader 0 5 (some 2) 0) [] = .error .errUnknownBlock :=
  ⟨rfl, rfl, rfl, rfl, (by decide), (by decide), (by decide), rfl, (by decide)⟩

/-- C16 (amended): for every header that `verifySeal2` accepts, the signer
recovered from the header is active in the sealing queue of the parent, has
not recently signed, and `header.Difficulty`, if it lies between 0 and
`2^64 - 1`, equals `queue.difficulty(signer)`. For a header with
`Number.Uint64() > 0` whose sealing queue and signer are obtained, the result
is `errUnauthorizedSigner` when the signer is not active, else
`errRecentlySigned` when it has recently signed, else `errInvalidDifficulty`
when a `Difficulty` between 0 and `2^64 - 1` differs from
`queue.difficulty(signer)`. -/
theorem verifySeal2_checks (d : Dccs) (chain : ChainReader) (header : Header)
    (parents : List Header) :
    (verifySeal2 d chain header parents = .ok () →
      ∃ n queue signer difficulty,
        header.Number = some n ∧ 0 < bigUint64 n ∧
        d.getSealingQueue header.ParentHash parents chain = .ok queue ∧
        d.ecrecover header = .ok signer ∧
        queue.isActive signer = true ∧ queue.isRecentlySigned signer = false ∧
        header.Difficulty = some difficulty ∧
        (0 ≤ difficulty → difficulty < 2 ^ 64 →
          difficulty = Int.ofNat (queue.difficulty signer
            (fun hash => getAvailableHeaderByHash d hash (some header) parents chain)))) ∧
    (∀ n queue signer, header.Number = some n → 0 < bigUint64 n →
      d.getSealingQueue header.ParentHash parents chain = .ok queue →
      d.ecrecover header = .ok signer →
      (queue.isActive signer = false →
        verifySeal2 d chain header parents = .error .errUnauthorizedSigner) ∧
      (queue.isActive signer = true → queue.isRecentlySigned signer = true →
        verifySeal2 d chain header parents = .error .errRecentlySigned) ∧
      (queue.isActive signer = true → queue.isRecentlySigned signer = false →
        ∀ difficulty, header.Difficulty = some difficulty →
          0 ≤ difficulty → difficulty < 2 ^ 64 →
          difficulty ≠ Int.ofNat (queue.difficulty signer
            (fun hash => getAvailableHeaderByHash d hash (some header) parents chain)) →
          verifySeal2 d chain header parents = .error .errInvalidDifficulty)) := by
  constructor
  · intro hok
    obtain ⟨n, queue, signer, difficulty, hn, hpos, hq, hs, hact, hrec, hd, hdiff⟩ :=
      verifySeal2_ok d chain header parents hok
    refine ⟨n, queue, signer, difficulty, hn, hpos, hq, hs, hact, hrec, hd, ?_⟩
    intro h0 h1
    rw [← bigUint64_of_range difficulty h0 h1, hdiff]
    rfl
  · intro n queue signer hn hpos hq hs
    have hne : ¬ bigUint64 n = 0 := by omega
    refine ⟨?_, ?_, ?_⟩
    · intro hact
      simp [verifySeal2, hn, hne, hq, hs, hact]
    · intro hact hrec
      simp [verifySeal2, hn, hne, hq, hs, hact, hrec]
    · intro hact hrec difficulty hd h0 h1 hdiff
      have hneq : bigUint64 difficulty ≠ queue.difficulty signer
          (fun hash => getAvailableHeaderByHash d hash (some header) parents chain) := by
        intro heq
        apply hdiff
        rw [← bigUint64_of_range difficulty h0 h1, heq]
        rfl
      simp [verifySeal2, hn, hne, hq, hs, hact, hrec, hd, hneq]

/-- Witness of C16: a header of number 1 signed by the active sealer `7`, whose
difficulty 3 is not the 2 of the queue. -/
theorem verifySeal2_checks_witness :
    (toyHeader 1 5 (some 3) 0).Number = some 1 ∧ 0 < bigUint64 1 ∧
    toyQueue.isActive 7 = true ∧ toyQueue.isRecentlySigned 7 = false ∧
    (toyHeader 1 5 (some 3) 0).Difficulty = some 3 ∧
    (3 : Int) ≠ Int.ofNat (toyQueue.difficulty 7
      (fun hash => getAvailableHeaderByHash toyDccs hash (some (toyHeader 1 5 (some 3) 0)) []
        emptyChain)) ∧
    verifySeal2 toyDccs emptyChain (toyHeader 1 5 (some 3) 0) []
      = .error .errInvalidDifficulty :=
  ⟨rfl, (by decide), rfl, rfl, rfl, (by decide),
   ((verifySeal2_checks toyDccs emptyChain (toyHeader 1 5 (some 3) 0) []).2 1 toyQueue 7
      rfl (by decide) rfl rfl).2.2 rfl rfl 3 rfl (by decide) (by decide) (by decide)⟩

/-! ## Sealing on 0-period chains -/

/-- C17, as stated, fails for a block number that does not fit in 64 bits: on a
0-period chain the empty block of number `2^64` (which is greater than 0) is
refused with `errUnknownBlock`, not with `errWaitTransactions`. -/
theorem seal2_big_number_unknown_block :
    ({ toyDccs with Period := 0 } : Dccs).Period = 0 ∧
    (toyHeader 18446744073709551616 5 (some 2) 0).Number = some 18446744073709551616 ∧
    seal2 { toyDccs with Period := 0 } emptyChain
        { header := toyHeader 18446744073709551616 5 (some 2) 0, transactions := [] }
      = { result := .error .errUnknownBlock, signed := false, offered := none } := by
  decide

/-- C17 (amended): for 0-period chains `seal2` refuses to seal empty blocks:
for every block with `Number.Uint64() > 0`, when `config.Period` is 0 and the
block has no transactions, `seal2` returns `errWaitTransactions`, has not
signed and has started no goroutine, so that nothing is sent on `results`. -/
theorem seal2_waits_for_transactions (d : Dccs) (chain : ChainReader) (block : Block)
    (n : Int) (hn : block.header.Number = some n) (hpos : 0 < bigUint64 n)
    (hperiod : d.Period = 0) (hempty : block.transactions = []) :
    seal2 d chain block
      = { result := .error .errWaitTransactions, signed := false, offered := none } := by
  have hne : ¬ bigUint64 n = 0 := by omega
  simp [seal2, hn, hne, hperiod, hempty]

/-- Witness of C17: the empty block of number 1 on the toy engine with period
0. -/
theorem seal2_waits_for_transactions_witness :
    (toyHeader 1 5 (some 2) 0).Number = some 1 ∧ 0 < bigUint64 1 ∧
    ({ toyDccs with Period := 0 } : Dccs).Period = 0 ∧
    seal2 { toyDccs with Period := 0 } emptyChain
        { header := toyHeader 1 5 (some 2) 0, transactions := [] }
      = { result := .error .errWaitTransactions, signed := false, offered := none } :=
  ⟨rfl, (by decide), rfl,
   seal2_waits_for_transactions { toyDccs with Period := 0 } emptyChain
     { header := toyHeader 1 5 (some 2) 0, transactions := [] } 1 rfl (by decide) rfl rfl⟩

/-! ## Preparing a header -/

theorem prepare2_ok (d : Dccs) (chain : ChainReader) (now : Nat) (header out : Header)
    (h : prepare2 d chain now header = .ok out) :
    ∃ n parent queue applications,
      header.Number = some n ∧
      chain.GetHeader header.ParentHash (uint64Pred (bigUint64 n)) = some parent ∧
      d.getSealingQueue (withBeneficiary d chain header n parent).ParentHash [] chain
        = .ok queue ∧
      d.fetchSealerApplications parent chain = .ok applications ∧
      out.Extra =
        ((withBeneficiary d chain header n parent).Extra
            ++ List.replicate
              (d.extraVanity - (withBeneficiary d chain header n parent).Extra.length) 0).take
            d.extraVanity
          ++ (if 0 < applications.length then
                d.extExtraBytes
                  { sealersDigest := some queue.sealersDigest, applications := applications }
              else [])
          ++ List.replicate d.extraSeal 0 ∧
      out.Time =
        (if uint64Add parent.Time d.Period < now then now
         else uint64Add parent.Time d.Period) := by
  unfold prepare2 at h
  cases hn : header.Number with
  | none => rw [hn] at h; cases h
  | some n =>
    rw [hn] at h
    simp only at h
    cases hp : chain.GetHeader header.ParentHash (uint64Pred (bigUint64 n)) with
    | none => rw [hp] at h; cases h
    | some parent =>
      rw [hp] at h
      simp only at h
      cases hb : (withBeneficiary d chain header n parent).Number with
      | none => rw [hb] at h; cases h
      | some number =>
        rw [hb] at h
        simp only at h
        cases hc : crossLink d number parent with
        | none => rw [hc] at h; cases h
        | some mixDigest =>
          rw [hc] at h
          simp only at h
          cases hq : d.getSealingQueue (withBeneficiary d chain header n parent).ParentHash []
              chain with
          | error e => rw [hq] at h; cases h
          | ok queue =>
            rw [hq] at h
            simp only at h
            cases hf : d.fetchSealerApplications parent chain with
            | error e => rw [hf] at h; cases h
            | ok applications =>
              rw [hf] at h
              simp only [Outcome.ok.injEq] at h
              subst h
              exact ⟨n, parent, queue, applications, rfl, hp, hq, hf, rfl, rfl⟩

theorem vanity_length (extra : List Nat) (extraVanity : Nat) :
    ((extra ++ List.replicate (extraVanity - extra.length) 0).take extraVanity).length
      = extraVanity := by
  simp only [List.length_take, List.length_append, List.length_replicate]
  omega

theorem vanity_of_long (extra : List Nat) (extraVanity : Nat) (h : extraVanity ≤ extra.length) :
    (extra ++ List.replicate (extraVanity - extra.length) 0).take extraVanity
      = extra.take extraVanity := by
  rw [Nat.sub_eq_zero_of_le h]
  simp

theorem vanity_of_short (extra : List Nat) (extraVanity : Nat) (h : extra.length ≤ extraVanity) :
    (extra ++ List.replicate (extraVanity - extra.length) 0).take extraVanity
      = extra ++ List.replicate (extraVanity - extra.length) 0 := by
  apply List.take_of_length_le
  simp only [List.length_append, List.length_replicate]
  omega

/-- C18: after `prepare2` succeeds the extra data has all its components,
`prepareBeneficiary` leaving the extra data of a header as it is:
`header.Extra` is a vanity of exactly `extraVanity` bytes, which is the first
`extraVanity` bytes of the original `Extra`, or the whole original `Extra`
right-padded with zero bytes when it was shorter; followed by the encoded
extended extra (the sealers digest of the queue and the applications) exactly
when the parent block has at least one sealer application; followed by
`extraSeal` zero bytes. -/
theorem prepare2_extra (d : Dccs) (chain : ChainReader) (now : Nat) (header out : Header)
    (hframe : ∀ h, (d.prepareBeneficiary h chain).Extra = h.Extra)
    (h : prepare2 d chain now header = .ok out) :
    ∃ n parent queue applications vanity,
      header.Number = some n ∧
      chain.GetHeader header.ParentHash (uint64Pred (bigUint64 n)) = some parent ∧
      d.getSealingQueue (withBeneficiary d chain header n parent).ParentHash [] chain
        = .ok queue ∧
      d.fetchSealerApplications parent chain = .ok applications ∧
      vanity.length = d.extraVanity ∧
      (d.extraVanity ≤ header.Extra.length → vanity = header.Extra.take d.extraVanity) ∧
      (header.Extra.length ≤ d.extraVanity →
        vanity = header.Extra ++ List.replicate (d.extraVanity - header.Extra.length) 0) ∧
      (0 < applications.length →
        out.Extra = vanity
          ++ d.extExtraBytes
              { sealersDigest := some queue.sealersDigest, applications := applications }
          ++ List.replicate d.extraSeal 0) ∧
      (applications.length = 0 → out.Extra = vanity ++ List.replicate d.extraSeal 0) := by
  obtain ⟨n, parent, queue, applications, hn, hp, hq, hf, hextra, -⟩ :=
    prepare2_ok d chain now header out h
  have hsame : (withBeneficiary d chain header n parent).Extra = header.Extra := by
    unfold withBeneficiary
    rw [hframe]
  rw [hsame] at hextra
  refine ⟨n, parent, queue, applications, _, hn, hp, hq, hf,
    vanity_length header.Extra d.extraVanity, vanity_of_long header.Extra d.extraVanity,
    vanity_of_short header.Extra d.extraVanity, ?_, ?_⟩
  · intro hpos
    rw [hextra, if_pos hpos]
  · intro hzero
    rw [hextra, if_neg (by omega), List.append_nil]

/-- Witness of C18: a header with 3 bytes of extra data, prepared on top of a
parent with two sealer applications. -/
theorem prepare2_extra_witness :
    (∀ h, (applyingDccs.prepareBeneficiary h (chainOf (toyHeader 0 4 none 0))).Extra
      = h.Extra) ∧
    ∃ out, prepare2 applyingDccs (chainOf (toyHeader 0 4 none 0)) 100
        { toyHeader 1 0 none 0 with Extra := [1, 2, 3] } = .ok out ∧
      out.Extra = ([1, 2, 3] ++ List.replicate 29 0) ++ [0xF0, 4, 5] ++ List.replicate 65 0 ∧
      ∃ n parent queue applications vanity,
        ({ toyHeader 1 0 none 0 with Extra := [1, 2, 3] } : Header).Number = some n ∧
        (chainOf (toyHeader 0 4 none 0)).GetHeader
          ({ toyHeader 1 0 none 0 with Extra := [1, 2, 3] } : Header).ParentHash
          (uint64Pred (bigUint64 n)) = some parent ∧
        applyingDccs.getSealingQueue
          (withBeneficiary applyingDccs (chainOf (toyHeader 0 4 none 0))
            { toyHeader 1 0 none 0 with Extra := [1, 2, 3] } n parent).ParentHash []
          (chainOf (toyHeader 0 4 none 0)) = .ok queue ∧
        applyingDccs.fetchSealerApplications parent (chainOf (toyHeader 0 4 none 0))
          = .ok applications ∧
        vanity.length = applyingDccs.extraVanity ∧
        (applyingDccs.extraVanity
            ≤ ({ toyHeader 1 0 none 0 with Extra := [1, 2, 3] } : Header).Extra.length →
          vanity = ({ toyHeader 1 0 none 0 with Extra := [1, 2, 3] } : Header).Extra.take
            applyingDccs.extraVanity) ∧
        (({ toyHeader 1 0 none 0 with Extra := [1, 2, 3] } : Header).Extra.length
            ≤ applyingDccs.extraVanity →
          vanity = ({ toyHeader 1 0 none 0 with Extra := [1, 2, 3] } : Header).Extra
            ++ List.replicate (applyingDccs.extraVanity
                - ({ toyHeader 1 0 none 0 with Extra := [1, 2, 3] } : Header).Extra.length) 0) ∧
        (0 < applications.length →
          out.Extra = vanity
            ++ applyingDccs.extExtraBytes
                { sealersDigest := some queue.sealersDigest, applications := applications }
            ++ List.replicate applyingDccs.extraSeal 0) ∧
        (applications.length = 0 →
          out.Extra = vanity ++ List.replicate applyingDccs.extraSeal 0) :=
  ⟨fun _ => rfl, _, rfl, (by decide),
   prepare2_extra applyingDccs (chainOf (toyHeader 0 4 none 0)) 100
     { toyHeader 1 0 none 0 with Extra := [1, 2, 3] } _ (fun _ => rfl) rfl⟩

end dccs
